import Mathlib

/-!
# d3-force-tree-app: the forest model, its mutations and the undo history

A shallow embedding of the tree-editing code of `src/App.js` and
`src/GraphComponent.js`.

* A node object `{ id, name, color, notes, children, childrenHidden }` is a value of
  `Node`.  Every node the program creates (`initialGraph`, `addNode`) carries a `children`
  array, so `children` is a list and the JavaScript tests `if (node.children)` and
  `node.children || []` are always taken with the array itself.  A missing
  `childrenHidden` is falsy and is read as `false`.  The layout coordinates that d3 attaches
  to a node (`x`, `y`, `vx`, `vy`, `index`) are not part of the model.
* `nodes.map(cb)` / `nodes.filter(cb)` with a recursive callback become a pair of mutually
  recursive functions: one for the callback on a single node, one for the list.
* In-place updates of a node (`node.children = ...`, `n.color = ...`) are modelled by value.
* The React state `(nodes, history)` is the record `AppState`; a state setter is explicit
  state passing.  `JSON.parse(JSON.stringify(x))` is the identity on values.  The history
  functions are given forests as values: a statement about `updateGraph` and `undoAction`
  speaks of the forests as they are when these functions are called.
* `GraphComponent` calls `updateHistory`, a prop that `App` does not pass: the steps that
  reach this call end in a `TypeError` (`StepResult`).
* The coordinates of `calculateLinkPath` are IEEE 754 doubles (`Double`), and its sums,
  differences and products are rounded as the format prescribes.
-/

namespace ForceTree

/-- A node object of the graph. -/
structure Node where
  id : String
  name : String
  color : String
  notes : String
  children : List Node
  childrenHidden : Bool

mutual
/-- Decidable structural equality of nodes. -/
def Node.decEq : (a b : Node) → Decidable (a = b)
  | ⟨i1, n1, c1, t1, ch1, h1⟩, ⟨i2, n2, c2, t2, ch2, h2⟩ =>
    if h : i1 = i2 ∧ n1 = n2 ∧ c1 = c2 ∧ t1 = t2 ∧ h1 = h2 then
      match Node.decEqList ch1 ch2 with
      | isTrue hc => isTrue (by
          obtain ⟨e1, e2, e3, e4, e5⟩ := h
          subst e1 e2 e3 e4 e5 hc
          rfl)
      | isFalse hc => isFalse (by
          intro e
          injection e with _ _ _ _ e5 _
          exact hc e5)
    else isFalse (by
      intro e
      injection e with e1 e2 e3 e4 _ e6
      exact h ⟨e1, e2, e3, e4, e6⟩)
termination_by structural a => a
/-- Decidable structural equality of lists of nodes. -/
def Node.decEqList : (a b : List Node) → Decidable (a = b)
  | [], [] => isTrue rfl
  | [], _ :: _ => isFalse (by intro e; cases e)
  | _ :: _, [] => isFalse (by intro e; cases e)
  | a :: as, b :: bs =>
    match Node.decEq a b, Node.decEqList as bs with
    | isTrue h1, isTrue h2 => isTrue (by rw [h1, h2])
    | isFalse h1, _ => isFalse (by
        intro e
        injection e with e1 _
        exact h1 e1)
    | _, isFalse h2 => isFalse (by
        intro e
        injection e with _ e2
        exact h2 e2)
termination_by structural a => a
end

instance : DecidableEq Node := Node.decEq

/-! ## `removeNode` (GraphComponent.js 557-575) -/

mutual
/-- The `filter` callback of `removeNodeAndChildren` on a node that is kept:
`node.children = removeNodeAndChildren(node.children)`. -/
def removeNodeAndChildrenNode (rid : String) : Node → Node
  | ⟨id, name, color, notes, children, hidden⟩ =>
    ⟨id, name, color, notes, removeNodeAndChildren rid children, hidden⟩
termination_by structural n => n
/-- The function `removeNodeAndChildren(nodes)` for `nodeToRemove.id = rid`: drops every
node whose id is `rid` and rewrites the children of the nodes it keeps. -/
def removeNodeAndChildren (rid : String) : List Node → List Node
  | [] => []
  | node :: rest =>
    if node.id = rid then removeNodeAndChildren rid rest
    else removeNodeAndChildrenNode rid node :: removeNodeAndChildren rid rest
termination_by structural l => l
end

/-- The forest `removeNode(nodeToRemove)` hands to `updateGraph`. -/
def removeNode (prevNodes : List Node) (nodeToRemove : Node) : List Node :=
  removeNodeAndChildren nodeToRemove.id prevNodes

/-! ## `toggleChildrenVisibility` (GraphComponent.js 577-591) -/

mutual
/-- The `map` callback of `toggleHidden`. -/
def toggleHiddenNode (tid : String) : Node → Node
  | ⟨id, name, color, notes, children, hidden⟩ =>
    if id = tid then ⟨id, name, color, notes, children, !hidden⟩
    else ⟨id, name, color, notes, toggleHidden tid children, hidden⟩
termination_by structural n => n
/-- The function `toggleHidden(nodes)` for `node.id = tid`. -/
def toggleHidden (tid : String) : List Node → List Node
  | [] => []
  | n :: rest => toggleHiddenNode tid n :: toggleHidden tid rest
termination_by structural l => l
end

/-- The forest `toggleChildrenVisibility(node)` hands to `updateGraph`. -/
def toggleChildrenVisibility (nodes : List Node) (node : Node) : List Node :=
  toggleHidden node.id nodes

/-! ## Property updates (App.js 163-175 and 290-293) -/

/-- A `(property, value)` pair of a property update: one of the four editable fields. -/
inductive PropertyValue where
  | name (value : String)
  | color (value : String)
  | notes (value : String)
  | childrenHidden (value : Bool)

/-- The object spread `{ ...node, [property]: value }`. -/
def setProperty (node : Node) : PropertyValue → Node
  | .name v => { node with name := v }
  | .color v => { node with color := v }
  | .notes v => { node with notes := v }
  | .childrenHidden v => { node with childrenHidden := v }

mutual
/-- The `map` callback of `updateNodes` in `App.updateNodeProperty`. -/
def updateNodesNode (uid : String) (pv : PropertyValue) : Node → Node
  | ⟨id, name, color, notes, children, hidden⟩ =>
    if id = uid then setProperty ⟨id, name, color, notes, children, hidden⟩ pv
    else ⟨id, name, color, notes, updateNodes uid pv children, hidden⟩
termination_by structural n => n
/-- The function `updateNodes(nodes)` of `App.updateNodeProperty(id, property, value)`
(App.js 163-175). -/
def updateNodes (uid : String) (pv : PropertyValue) : List Node → List Node
  | [] => []
  | n :: rest => updateNodesNode uid pv n :: updateNodes uid pv rest
termination_by structural l => l
end

/-- The forest the `updateNodeProperty` callback given to the editor (App.js 290-293)
hands to `updateGraph`: a `map` over the top-level nodes that replaces the node whose id
is `id` by `{...node, [property]: value}`. -/
def editorUpdateNodeProperty (nodes : List Node) (uid : String) (pv : PropertyValue) :
    List Node :=
  nodes.map (fun node => if node.id = uid then setProperty node pv else node)

/-! ## `handleDetachNode` (App.js 217-246) -/

/-- The value of `nodeToDetach` after the `map`: the last child of a top-level node, in
traversal order, whose id is `nodeId`. -/
def nodeToDetach (nodeId : String) (nodes : List Node) : Option Node :=
  ((nodes.map (fun node => node.children.filter (fun child => child.id = nodeId))).flatten).getLast?

/-- The function `detachNode(nodes)` inside `handleDetachNode(nodeId)`: the forest handed to
`updateGraph`. -/
def detachNode (nodeId : String) (nodes : List Node) : List Node :=
  let updatedNodes :=
    nodes.map (fun node =>
      { node with children := node.children.filter (fun child => child.id ≠ nodeId) })
  match nodeToDetach nodeId nodes with
  | some d => updatedNodes ++ [{ d with color := "#e0e0e0" }]
  | none => updatedNodes

/-! ## `connectNodes` (GraphComponent.js 593-669) -/

/-- The function `getNodeColor(node) = node.color || '#4a4a4a'`; the empty string is the
falsy colour. -/
def getNodeColor (node : Node) : String :=
  if node.color = "" then "#4a4a4a" else node.color

/-- The function `getNextColor(usedColors)`: one of the palette colours that are not yet
used if there is one, else one of the palette colours.  `colorPalette` is read from the style sheet,
which is not part of the sources, and is a parameter; `random` stands for the value
`Math.floor(Math.random() * length)`, taken modulo the length.  (For an empty palette the
JavaScript yields `undefined`; the model yields the empty string.) -/
def getNextColor (colorPalette usedColors : List String) (random : Nat) : String :=
  let availableColors := colorPalette.filter (fun color => !usedColors.contains color)
  if availableColors.length > 0 then
    availableColors.getD (random % availableColors.length) ""
  else colorPalette.getD (random % colorPalette.length) ""

mutual
/-- The `map` callback of `updateColor`. -/
def updateColorNode (newColor originalColor : String) : Node → Node
  | ⟨id, name, color, notes, children, hidden⟩ =>
    ⟨id, name, if color = originalColor then newColor else color, notes,
      updateColor newColor originalColor children, hidden⟩
termination_by structural n => n
/-- The function `updateColor(nodes)` inside `updateNodeAndChildrenColors`. -/
def updateColor (newColor originalColor : String) : List Node → List Node
  | [] => []
  | n :: rest => updateColorNode newColor originalColor n :: updateColor newColor originalColor rest
termination_by structural l => l
end

/-- The function `updateNodeAndChildrenColors(node, newColor, originalColor)`. -/
def updateNodeAndChildrenColors (node : Node) (newColor originalColor : String) : Node :=
  { node with color := newColor, children := updateColor newColor originalColor node.children }

mutual
/-- The function `isDescendant(parent, child)`: the id of `child` is the id of `parent` or of a node
below it. -/
def isDescendant : Node → Node → Bool
  | ⟨id, _, _, _, children, _⟩, child => id == child.id || isDescendantAny children child
termination_by structural n => n
/-- The loop `for (let node of parent.children || [])` of `isDescendant`. -/
def isDescendantAny : List Node → Node → Bool
  | [], _ => false
  | node :: rest, child => isDescendant node child || isDescendantAny rest child
termination_by structural l => l
end

mutual
/-- The `map` callback of `removeNodeFromParent`: a copy of the node whose children are
filtered and rewritten. -/
def removeNodeFromParentNode (rid : String) : Node → Node
  | ⟨id, name, color, notes, children, hidden⟩ =>
    ⟨id, name, color, notes, removeNodeFromParentChildren rid children, hidden⟩
termination_by structural n => n
/-- The rewritten children list of `removeNodeFromParent`:
`children.filter(child => child.id !== rid).map(child => removeNodeFromParent([child], ..)[0])`. -/
def removeNodeFromParentChildren (rid : String) : List Node → List Node
  | [] => []
  | child :: rest =>
    if child.id = rid then removeNodeFromParentChildren rid rest
    else removeNodeFromParentNode rid child :: removeNodeFromParentChildren rid rest
termination_by structural l => l
end

/-- The function `removeNodeFromParent(nodes, nodeToRemove)`. -/
def removeNodeFromParent (nodes : List Node) (nodeToRemove : Node) : List Node :=
  nodes.map (removeNodeFromParentNode nodeToRemove.id)

/-- The values `connectNodes` reads from its environment: the `--accent-color` of the
style sheet, the colour palette, the `usedColors` prop and the random choice made by
`getNextColor`. -/
structure ColorEnv where
  accentColor : String
  colorPalette : List String
  usedColors : List String
  random : Nat

mutual
/-- The `map` callback of `addNodeToNewParent`.  The recoloured `sourceNode` is appended
to the children of a node with the target id that does not lie in the subtree of the
source. -/
def addNodeToNewParentNode (env : ColorEnv) (sourceNode targetNode : Node) : Node → Node
  | ⟨id, name, color, notes, children, hidden⟩ =>
    if id = targetNode.id ∧
        isDescendant sourceNode ⟨id, name, color, notes, children, hidden⟩ = false then
      let newColor :=
        if getNodeColor targetNode = env.accentColor then
          getNextColor env.colorPalette env.usedColors env.random
        else getNodeColor targetNode
      let originalColor := getNodeColor sourceNode
      ⟨id, name, color, notes,
        children ++ [updateNodeAndChildrenColors sourceNode newColor originalColor], hidden⟩
    else ⟨id, name, color, notes, addNodeToNewParent env sourceNode targetNode children, hidden⟩
termination_by structural n => n
/-- The function `addNodeToNewParent(nodes, sourceNode, targetNode)`.  The source object
is modelled by value; this is exact whenever at most one node of `nodes` carries the
target id. -/
def addNodeToNewParent (env : ColorEnv) (sourceNode targetNode : Node) : List Node → List Node
  | [] => []
  | n :: rest =>
    addNodeToNewParentNode env sourceNode targetNode n ::
      addNodeToNewParent env sourceNode targetNode rest
termination_by structural l => l
end

/-- The forest after `connectNodes(sourceNode, targetNode)` on the forest `prevNodes`:
the input itself on the early `return`, else `finalNodes`. -/
def connectNodes (env : ColorEnv) (prevNodes : List Node) (sourceNode targetNode : Node) :
    List Node :=
  if sourceNode.id = targetNode.id ∨ sourceNode.id = "main" then prevNodes
  else
    let updatedNodes := removeNodeFromParent prevNodes sourceNode
    let updatedNodes := addNodeToNewParent env sourceNode targetNode updatedNodes
    updatedNodes.filter (fun node => node.id ≠ sourceNode.id ∨ node.id = "main")

/-! ## `addNode` (GraphComponent.js 497-539) -/

/-- The forest `addNode` hands to `updateGraph`; `now` is `Date.now()` and `randomStation`
the label that was drawn. -/
def addNode (accentColor : String) (prevNodes : List Node) (now : Nat)
    (randomStation : String) : List Node :=
  prevNodes ++ [⟨"node-" ++ toString now, randomStation, accentColor, "", [], false⟩]

/-! ## History (App.js 195-205 and 257-265) -/

/-- The two pieces of React state the history code touches. -/
structure AppState where
  nodes : List Node
  history : List (List Node)
deriving DecidableEq

/-- The function `updateGraph(newNodes, significant)`. -/
def updateGraph (s : AppState) (newNodes : List Node) (significant : Bool) : AppState :=
  if significant then
    let newHistory := s.history ++ [newNodes]
    ⟨newNodes, if newHistory.length > 10 then newHistory.drop 1 else newHistory⟩
  else ⟨newNodes, s.history⟩

/-- The function `undoAction()`. -/
def undoAction (s : AppState) : AppState :=
  if h : s.history.length ≤ 1 then s
  else ⟨s.history.get ⟨s.history.length - 2, by omega⟩, s.history.dropLast⟩

/-! ## Observations on forests used to state the properties -/

mutual
/-- The ids of a node and of all nodes below it, in pre-order. -/
def nodeIds : Node → List String
  | ⟨id, _, _, _, children, _⟩ => id :: forestIds children
termination_by structural n => n
/-- The ids of all nodes of a forest, in pre-order. -/
def forestIds : List Node → List String
  | [] => []
  | n :: rest => nodeIds n ++ forestIds rest
termination_by structural l => l
end

mutual
/-- A node followed by all nodes below it, in pre-order. -/
def nodeAll : Node → List Node
  | ⟨id, name, color, notes, children, hidden⟩ =>
    ⟨id, name, color, notes, children, hidden⟩ :: allNodes children
termination_by structural n => n
/-- All nodes of a forest (each with its subtree), in pre-order. -/
def allNodes : List Node → List Node
  | [] => []
  | n :: rest => nodeAll n ++ allNodes rest
termination_by structural l => l
end

/-- One line of the flattened forest: the id of the parent of a node (`none` for a
top-level node) and the node's own fields. -/
structure Entry where
  parent : Option String
  id : String
  name : String
  color : String
  notes : String
  childrenHidden : Bool
deriving DecidableEq

mutual
/-- The entries of a node and of all nodes below it, in pre-order. -/
def nodeEntries (parent : Option String) : Node → List Entry
  | ⟨id, name, color, notes, children, hidden⟩ =>
    ⟨parent, id, name, color, notes, hidden⟩ :: forestEntries (some id) children
termination_by structural n => n
/-- The entries of all nodes of a forest whose top-level nodes have the parent `parent`,
in pre-order.  Together with the order of the list, the parent ids determine the shape of
the forest. -/
def forestEntries (parent : Option String) : List Node → List Entry
  | [] => []
  | n :: rest => nodeEntries parent n ++ forestEntries parent rest
termination_by structural l => l
end

/-- An entry with its colour blanked: what is left when colours are disregarded. -/
def Entry.uncolored (e : Entry) : Entry := { e with color := "" }

/-- The effect of `updateColor` on one entry: the colour `originalColor` becomes
`newColor`, every other colour stays. -/
def Entry.recolor (newColor originalColor : String) (e : Entry) : Entry :=
  { e with color := if e.color = originalColor then newColor else e.color }

/-- The own fields of a node, as an entry without a parent. -/
def Node.fields (n : Node) : Entry :=
  ⟨none, n.id, n.name, n.color, n.notes, n.childrenHidden⟩

/-- The effect of a toggle of the node with id `tid` on one entry: the `childrenHidden`
flag of that node is flipped, every other entry stays. -/
def Entry.toggle (tid : String) (e : Entry) : Entry :=
  if e.id = tid then { e with childrenHidden := !e.childrenHidden } else e

/-- The node `t` lies in the forest `l`, or no id of its subtree occurs in `l`. -/
def InOrApart (t : Node) (l : List Node) : Prop :=
  t ∈ allNodes l ∨ ∀ x ∈ nodeIds t, x ∉ forestIds l

/-- The value of `newColor` in `addNodeToNewParent`: a colour from `getNextColor` when the
colour of the target is the accent colour, else the colour of the target. -/
def newColorFor (env : ColorEnv) (targetNode : Node) : String :=
  if getNodeColor targetNode = env.accentColor then
    getNextColor env.colorPalette env.usedColors env.random
  else getNodeColor targetNode

/-! ## `initialGraph` (App.js 6-67) -/

/-- The expression `stations[i] || fallback`: the fallback replaces a missing or empty label. -/
def stationOr (stations : List String) (i : Nat) (fallback : String) : String :=
  match stations.get? i with
  | some s => if s = "" then fallback else s
  | none => fallback

/-- The function `initialGraph(stations)`. -/
def initialGraph (stations : List String) : List Node :=
  [⟨"main", stationOr stations 0 "Main Node", "#e0e0e0", "",
    [⟨"child-1", stationOr stations 1 "Child 1", "#455EED", "",
       [⟨"subchild-1-1", stationOr stations 2 "Subchild 1-1", "#455EED", "", [], false⟩,
        ⟨"subchild-1-2", stationOr stations 3 "Subchild 1-2", "#455EED", "", [], false⟩],
       false⟩,
     ⟨"child-2", stationOr stations 4 "Child 2", "#F7AFE7", "",
       [⟨"subchild-2-1", stationOr stations 5 "Subchild 2-1", "#F7AFE7", "", [], false⟩,
        ⟨"subchild-2-2", stationOr stations 6 "Subchild 2-2", "#F7AFE7", "", [], false⟩],
       false⟩,
     ⟨"child-3", stationOr stations 7 "Child 3", "#FFCF25", "", [], false⟩],
    false⟩]

/-- The labels used when geolocation fails (App.js 147). -/
def defaultStations : List String :=
  ["Main Station", "Child Station 1", "Child Station 2", "Child Station 3"]

/-! ## Sequences of history operations -/

/-- Recording the forests `gs`, one after the other, with `updateGraph(g, true)`. -/
def recordAll (s : AppState) (gs : List (List Node)) : AppState :=
  gs.foldl (fun st g => updateGraph st g true) s

/-- An operation on the history: a significant `updateGraph` or an `undoAction`. -/
inductive HistoryOp where
  | record (newNodes : List Node)
  | undo

/-- One history operation. -/
def HistoryOp.apply (s : AppState) : HistoryOp → AppState
  | .record g => updateGraph s g true
  | .undo => undoAction s

/-- A sequence of history operations, applied from left to right. -/
def runOps (s : AppState) (ops : List HistoryOp) : AppState :=
  ops.foldl HistoryOp.apply s

/-- The number of `record` operations in a sequence. -/
def recordCount : List HistoryOp → Nat
  | [] => 0
  | .record _ :: ops => recordCount ops + 1
  | .undo :: ops => recordCount ops

/-- No recording of the sequence is applied to a history that already holds 10 entries,
so that no snapshot is evicted. -/
def neverEvicts (s : AppState) : List HistoryOp → Bool
  | [] => true
  | .record g :: ops =>
    decide (s.history.length < 10) && neverEvicts (updateGraph s g true) ops
  | .undo :: ops => neverEvicts (undoAction s) ops

/-! ## The operations as steps of the application state (App.js, GraphComponent.js) -/

/-- The function `updateHistory(newNodes, significant)` of `App` (App.js 207-215).  `App`
calls it in `updateNodeProperty` only and hands it to no component. -/
def updateHistory (s : AppState) (newNodes : List Node) (significant : Bool) : AppState :=
  if significant then
    let newHistory := s.history ++ [newNodes]
    ⟨s.nodes, if newHistory.length > 10 then newHistory.drop 1 else newHistory⟩
  else s

/-- The function `handleDetachNode(nodeId)` (App.js 217-246):
`updateGraph(updatedNodes, true)`. -/
def handleDetachNode (s : AppState) (nodeId : String) : AppState :=
  updateGraph s (detachNode nodeId s.nodes) true

/-- Whether a property update sets the `notes` field: the test `property !== 'notes'`
is its negation. -/
def PropertyValue.isNotes : PropertyValue → Bool
  | .notes _ => true
  | _ => false

/-- The `updateNodeProperty` callback given to the editor (App.js 290-293):
`updateGraph(updatedNodes, property !== 'notes')`. -/
def editorCallback (s : AppState) (id : String) (pv : PropertyValue) : AppState :=
  updateGraph s (editorUpdateNodeProperty s.nodes id pv) (!pv.isNotes)

/-- How a step of `GraphComponent` ends that calls `updateHistory`.  `GraphComponent`
takes `updateHistory` from its props (line 41) and `App` passes no such prop (App.js
270-285), so the name is bound to `undefined`: the call `updateHistory(updatedNodes)`
raises a `TypeError`, after `updateGraph(updatedNodes)` has run.  `state` holds the forest
that `updateGraph` has set and saved and the history at the end of the step; `threw` tells
whether the step ended in the `TypeError`. -/
structure StepResult where
  state : AppState
  threw : Bool
deriving DecidableEq

/-- The step of `removeNode(nodeToRemove)` in `GraphComponent` (557-575):
`updateGraph(updatedNodes)` without the `significant` argument, whose default is `false`,
then the call of the undefined `updateHistory`, which throws. -/
def removeNodeStep (s : AppState) (nodeToRemove : Node) : StepResult :=
  ⟨updateGraph s (removeNode s.nodes nodeToRemove) false, true⟩

/-- The step of `addNode()` in `GraphComponent` (497-539): `updateGraph(updatedNodes)`,
then the call of the undefined `updateHistory`, which throws. -/
def addNodeStep (accentColor : String) (s : AppState) (now : Nat) (randomStation : String) :
    StepResult :=
  ⟨updateGraph s (addNode accentColor s.nodes now randomStation) false, true⟩

/-- The step of `connectNodes(sourceNode, targetNode)` in `GraphComponent` (620-669):
nothing on the early `return`, else `updateGraph(finalNodes)`, then the call of the
undefined `updateHistory`, which throws. -/
def connectNodesStep (env : ColorEnv) (s : AppState) (sourceNode targetNode : Node) :
    StepResult :=
  if sourceNode.id = targetNode.id ∨ sourceNode.id = "main" then ⟨s, false⟩
  else ⟨updateGraph s (connectNodes env s.nodes sourceNode targetNode) false, true⟩

/-- The step of `toggleChildrenVisibility(node)` in `GraphComponent` (577-591):
`updateGraph(updatedNodes)`. -/
def toggleChildrenVisibilityStep (s : AppState) (node : Node) : AppState :=
  updateGraph s (toggleChildrenVisibility s.nodes node) false

/-! ## `flattenNodes` and `getLinks` (GraphComponent.js 102-126) -/

mutual
/-- The `forEach` callback of `flattenNodes`: the node, followed by the flattened children
unless `childrenHidden` is set. -/
def flattenNodesNode : Node → List Node
  | ⟨id, name, color, notes, children, hidden⟩ =>
    ⟨id, name, color, notes, children, hidden⟩ ::
      (if hidden then [] else flattenNodes children)
termination_by structural n => n
/-- The function `flattenNodes(nodes)`. -/
def flattenNodes : List Node → List Node
  | [] => []
  | n :: rest => flattenNodesNode n ++ flattenNodes rest
termination_by structural l => l
end

/-- A link `{ source, target }` between the ids of a node and of one of its children. -/
structure Link where
  source : String
  target : String
deriving DecidableEq

mutual
/-- The `forEach` callback of `getLinks`: unless `childrenHidden` is set, one link for
every child and then the links of the children. -/
def getLinksNode : Node → List Link
  | ⟨id, _, _, _, children, hidden⟩ =>
    if hidden then []
    else children.map (fun child => (⟨id, child.id⟩ : Link)) ++ getLinks children
termination_by structural n => n
/-- The function `getLinks(nodes)`. -/
def getLinks : List Node → List Link
  | [] => []
  | n :: rest => getLinksNode n ++ getLinks rest
termination_by structural l => l
end

/-! ## IEEE 754 binary64 numbers (the coordinates of `calculateLinkPath`)

A finite double is an integer multiple of `2 ^ (-1074)`; it is held as that integer.  The
result of an operation is the exact result rounded to 53 significant bits, to the nearest
such number and to the even one on a tie, and it is an infinity when the rounded
magnitude reaches `2 ^ 1024`.  The two zeros of the format are held as one value: the
code compares numbers and prints them, and both zeros compare equal and print as `0`. -/

/-- The quotient `n / d` rounded to the nearest natural number, to the even one on a
tie. -/
def roundNearestEven (n d : Nat) : Nat :=
  if 2 * (n % d) > d ∨ (2 * (n % d) = d ∧ (n / d) % 2 = 1) then n / d + 1 else n / d

/-- The least `k ≥ e` with `q < 2 ^ (53 + k)`, searched upwards in at most `fuel` steps. -/
def exponentFrom (q : Nat) : Nat → Nat → Nat
  | 0, e => e
  | fuel + 1, e => if q < 2 ^ (53 + e) then e else exponentFrom q fuel (e + 1)

/-- The quotient `n / d`, in units of `2 ^ (-1074)`, rounded to 53 significant bits: with
`e` the least exponent such that the integer part is below `2 ^ (53 + e)`, the nearest
multiple of `2 ^ e`.  Below `2 ^ 53` units (the subnormal numbers and the first binade)
the spacing is one unit. -/
def roundNat (n d : Nat) : Nat :=
  let e := exponentFrom (n / d) (n / d) 0
  roundNearestEven n (d * 2 ^ e) * 2 ^ e

/-- A JavaScript `Number`: a finite value `k * 2 ^ (-1074)`, an infinity or `NaN`.  Every
finite double is `fin k` for one `k`; the `k` of a double is left as it is by the
rounding, and the operations return such values. -/
inductive Double where
  | fin (k : Int)
  | inf (negative : Bool)
  | nan
deriving DecidableEq

/-- The number of units in `1`: `2 ^ 1074`. -/
def Double.one : Nat := 2 ^ 1074

/-- The number of units in `2 ^ 1024`, the least magnitude that rounds to an infinity. -/
def Double.overflow : Nat := 2 ^ 2098

/-- The double for the exact value `n / d` units: rounded, and an infinity on overflow. -/
def Double.ofExact (n : Int) (d : Nat) : Double :=
  if Double.overflow ≤ roundNat n.natAbs d then .inf (decide (n < 0))
  else if 0 ≤ n then .fin (roundNat n.natAbs d) else .fin (-(roundNat n.natAbs d : Int))

/-- The value of the decimal literal `m / 10 ^ e`, such as `0.2 = 2 / 10 ^ 1`. -/
def Double.ofDecimal (m : Int) (e : Nat) : Double :=
  Double.ofExact (m * (Double.one : Int)) (10 ^ e)

/-- The value `-x`. -/
def Double.neg : Double → Double
  | .fin k => .fin (-k)
  | .inf negative => .inf (!negative)
  | .nan => .nan

/-- The value `Math.abs(x)`. -/
def Double.abs : Double → Double
  | .fin k => .fin (k.natAbs : Int)
  | .inf _ => .inf false
  | .nan => .nan

/-- The value `x + y`. -/
def Double.add : Double → Double → Double
  | .fin a, .fin b => Double.ofExact (a + b) 1
  | .nan, _ => .nan
  | _, .nan => .nan
  | .inf s, .inf t => if s = t then .inf s else .nan
  | .inf s, .fin _ => .inf s
  | .fin _, .inf t => .inf t

/-- The value `x - y`, which IEEE 754 defines as `x + (-y)`. -/
def Double.sub (x y : Double) : Double := x.add y.neg

/-- The value `x * y`. -/
def Double.mul : Double → Double → Double
  | .fin a, .fin b => Double.ofExact (a * b) Double.one
  | .nan, _ => .nan
  | _, .nan => .nan
  | .inf s, .inf t => .inf (s != t)
  | .inf s, .fin b => if b = 0 then .nan else .inf (s != decide (b < 0))
  | .fin a, .inf t => if a = 0 then .nan else .inf (decide (a < 0) != t)

/-- The comparison `x < y`; `x > y` is `y.lt x`.  A comparison with `NaN` is false. -/
def Double.lt : Double → Double → Bool
  | .fin a, .fin b => decide (a < b)
  | .fin _, .inf negative => !negative
  | .inf negative, .fin _ => negative
  | .inf s, .inf t => s && !t
  | .nan, _ => false
  | _, .nan => false

/-- The comparison `x <= y`; `x >= y` is `y.le x`. -/
def Double.le : Double → Double → Bool
  | .fin a, .fin b => decide (a ≤ b)
  | .fin _, .inf negative => !negative
  | .inf negative, .fin _ => negative
  | .inf s, .inf t => s || !t
  | .nan, _ => false
  | _, .nan => false

/-- The value `Math.min(x, y)`. -/
def Double.min : Double → Double → Double
  | .nan, _ => .nan
  | _, .nan => .nan
  | x, y => if y.lt x then y else x

/-- The value `Math.max(x, y)`. -/
def Double.max : Double → Double → Double
  | .nan, _ => .nan
  | _, .nan => .nan
  | x, y => if x.lt y then y else x

/-- Whether the number is finite (`Number.isFinite`). -/
def Double.isFinite : Double → Bool
  | .fin _ => true
  | _ => false

/-- The number of units of a finite number (`0` for the others), for exact
comparisons. -/
def Double.units : Double → Int
  | .fin k => k
  | _ => 0

/-! ## `calculateLinkPath` (GraphComponent.js 367-420) -/

/-- A position `(x, y)`. -/
structure Point where
  x : Double
  y : Double
deriving DecidableEq

/-- Whether both coordinates are finite. -/
def Point.isFinite (p : Point) : Bool := p.x.isFinite && p.y.isFinite

/-- The constant `dx = targetX - sourceX`. -/
def dx (source target : Point) : Double := target.x.sub source.x

/-- The constant `dy = targetY - sourceY`. -/
def dy (source target : Point) : Double := target.y.sub source.y

/-- The constant `absDx = Math.abs(dx)`. -/
def absDx (source target : Point) : Double := (dx source target).abs

/-- The constant `absDy = Math.abs(dy)`. -/
def absDy (source target : Point) : Double := (dy source target).abs

/-- The values `(firstBendX, firstBendY)` of `calculateLinkPath`. -/
def firstBend (source target : Point) : Point :=
  let dx := dx source target
  let dy := dy source target
  let absDx := absDx source target
  let absDy := absDy source target
  if (Double.fin 0).lt dx && (Double.fin 0).lt dy then
    ⟨source.x.add (absDx.min absDy), source.y.add (absDx.min absDy)⟩
  else if (Double.fin 0).lt dx && dy.lt (Double.fin 0) then
    ⟨source.x.add (absDx.min absDy), source.y.sub (absDx.min absDy)⟩
  else if dx.lt (Double.fin 0) && (Double.fin 0).lt dy then
    ⟨source.x.sub (absDx.min absDy), source.y.add (absDx.min absDy)⟩
  else ⟨source.x.sub (absDx.min absDy), source.y.sub (absDx.min absDy)⟩

/-- The condition under which `calculateLinkPath` returns the path with one bend. -/
def singleBend (source target : Point) : Bool :=
  let absDx := absDx source target
  let absDy := absDy source target
  let firstBendX := (firstBend source target).x
  ((source.x.add ((absDx.max absDy).mul (Double.ofDecimal 2 1))).le firstBendX &&
      firstBendX.le (source.x.add ((absDx.max absDy).mul (Double.ofDecimal 8 1)))) ||
    (firstBendX.le (source.x.sub ((absDx.max absDy).mul (Double.ofDecimal 2 1))) &&
      (source.x.sub ((absDx.max absDy).mul (Double.ofDecimal 8 1))).le firstBendX)

/-- The values `(secondBendX, secondBendY)` of `calculateLinkPath`. -/
def secondBend (source target : Point) : Point :=
  if (absDy source target).lt (absDx source target) then
    ⟨target.x, (firstBend source target).y⟩
  else ⟨(firstBend source target).x, target.y⟩

/-- The function `calculateLinkPath(d)` for a link whose ends are at `source` and
`target`.  The SVG path string `M.. L.. L..` is the list of its points.  The unused
constants `middleX` and `middleY` are left out. -/
def calculateLinkPath (source target : Point) : List Point :=
  if (absDx source target).lt (Double.ofDecimal 10 0) ||
      (absDy source target).lt (Double.ofDecimal 10 0) then
    [source, target]
  else if singleBend source target then [source, firstBend source target, target]
  else [source, firstBend source target, secondBend source target, target]

/-! ## Sample data -/

/-- A node without children. -/
def leaf (id color : String) : Node := ⟨id, id, color, "", [], false⟩

/-- A small forest: `main` with the child `a`, which has the child `b`. -/
def chain : List Node :=
  [⟨"main", "Main", "#e0e0e0", "", [⟨"a", "A", "#455EED", "", [leaf "b" "#455EED"], false⟩], false⟩]

/-- A forest in which the node `x` has the empty colour: `main` with the children `x`
and `y`. -/
def blankTarget : List Node :=
  [⟨"main", "Main", "#e0e0e0", "", [leaf "x" "", leaf "y" "#455EED"], false⟩]

/-- The state the start-up effect of `App` sets when no forest was saved (App.js 146-154):
the default forest, and a history that holds this forest only. -/
def bootState : AppState :=
  ⟨initialGraph defaultStations, [initialGraph defaultStations]⟩

/-- The default forest with `main` renamed to `label`. -/
def renamedMain (label : String) : List Node :=
  editorUpdateNodeProperty (initialGraph defaultStations) "main" (.name label)

/-- The state reached from `bootState` when the editor renames `main` once for each of the
labels, in order. -/
def afterRenames (labels : List String) : AppState :=
  labels.foldl (fun st label => editorCallback st "main" (.name label)) bootState

/-- The point with the decimal coordinates `mx / 10 ^ ex` and `my / 10 ^ ey`. -/
def pointOfDecimal (mx : Int) (ex : Nat) (my : Int) (ey : Nat) : Point :=
  ⟨Double.ofDecimal mx ex, Double.ofDecimal my ey⟩

/-- An environment for `connectNodes`. -/
def sampleEnv : ColorEnv := ⟨"#e0e0e0", ["#455EED", "#F7AFE7", "#FFCF25"], [], 0⟩

end ForceTree

namespace ForceTree

/-! ## Induction over forests and unfolding lemmas -/

/-- Induction over a forest: a property holds of every list of nodes if it holds of the
empty list and of `n :: rest` whenever it holds of the children of `n` and of `rest`. -/
theorem forest_induction {P : List Node → Prop} (nil : P [])
    (cons : ∀ (n : Node) (rest : List Node), P n.children → P rest → P (n :: rest)) :
    ∀ l, P l :=
  @Node.rec_1 (fun n => P n.children) P (fun _ _ _ _ _ _ ih => ih) nil
    (fun n rest ih1 ih2 => cons n rest ih1 ih2)

@[simp] theorem nodeIds_eq (n : Node) : nodeIds n = n.id :: forestIds n.children := by
  cases n; simp [nodeIds]

@[simp] theorem forestIds_nil : forestIds [] = [] := by simp [forestIds]

@[simp] theorem forestIds_cons (n : Node) (rest : List Node) :
    forestIds (n :: rest) = n.id :: (forestIds n.children ++ forestIds rest) := by
  simp [forestIds]

@[simp] theorem nodeAll_eq (n : Node) : nodeAll n = n :: allNodes n.children := by
  cases n; simp [nodeAll]

@[simp] theorem allNodes_nil : allNodes [] = [] := by simp [allNodes]

@[simp] theorem allNodes_cons (n : Node) (rest : List Node) :
    allNodes (n :: rest) = n :: (allNodes n.children ++ allNodes rest) := by
  simp [allNodes]

/-! ## C1, C3, C5: evaluations of the code -/

/-- C1 (evaluation at the failing input): in the default forest, dropping `child-1` on
its own child `subchild-1-1` does not leave the forest unchanged; `connectNodes` removes
`child-1` together with its two children. -/
theorem connectNodes_onto_descendant_loses_subtree :
    connectNodes sampleEnv (initialGraph defaultStations)
        ⟨"child-1", "Child Station 1", "#455EED", "",
          [⟨"subchild-1-1", "Child Station 2", "#455EED", "", [], false⟩,
           ⟨"subchild-1-2", "Child Station 3", "#455EED", "", [], false⟩], false⟩
        ⟨"subchild-1-1", "Child Station 2", "#455EED", "", [], false⟩
      = [⟨"main", "Main Station", "#e0e0e0", "",
          [⟨"child-2", "Child 2", "#F7AFE7", "",
             [⟨"subchild-2-1", "Subchild 2-1", "#F7AFE7", "", [], false⟩,
              ⟨"subchild-2-2", "Subchild 2-2", "#F7AFE7", "", [], false⟩], false⟩,
           ⟨"child-3", "Child 3", "#FFCF25", "", [], false⟩], false⟩]
    ∧ connectNodes sampleEnv (initialGraph defaultStations)
        ⟨"child-1", "Child Station 1", "#455EED", "",
          [⟨"subchild-1-1", "Child Station 2", "#455EED", "", [], false⟩,
           ⟨"subchild-1-2", "Child Station 3", "#455EED", "", [], false⟩], false⟩
        ⟨"subchild-1-1", "Child Station 2", "#455EED", "", [], false⟩
      ≠ initialGraph defaultStations := by
  decide

/-- C3 (evaluation at the failing input): `removeNode` applied to the reserved root `main`
of the default forest is not rejected; it returns the empty forest, in which `main` is no
longer a top-level entry. -/
theorem removeNode_main_empties_forest :
    removeNode (initialGraph defaultStations)
        ⟨"main", "Main Station", "#e0e0e0", "", [], false⟩ = []
    ∧ "main" ∉ (removeNode (initialGraph defaultStations)
        ⟨"main", "Main Station", "#e0e0e0", "", [], false⟩).map Node.id := by
  decide

/-- C5 (evaluation at the failing input): detaching the grandchild `subchild-1-1` of the
default forest changes nothing: the node stays a child of `child-1` and no top-level
entry is added. -/
theorem detachNode_grandchild_unchanged :
    detachNode "subchild-1-1" (initialGraph defaultStations) = initialGraph defaultStations
    ∧ "subchild-1-1" ∉ (detachNode "subchild-1-1" (initialGraph defaultStations)).map Node.id := by
  decide

/-! ## C8-C10: the history -/

theorem updateGraph_history (s : AppState) (g : List Node) (h : s.history.length ≤ 10) :
    (updateGraph s g true).history
      = (s.history ++ [g]).drop ((s.history ++ [g]).length - 10) := by
  simp only [updateGraph, if_true, List.length_append, List.length_singleton]
  split
  · next hlt =>
    have : s.history.length + 1 - 10 = 1 := by omega
    rw [this]
  · next hge =>
    have : s.history.length + 1 - 10 = 0 := by omega
    rw [this, List.drop_zero]

theorem drop_last_append (l : List (List Node)) (g : List Node) :
    (l.drop (l.length - 10) ++ [g]).drop ((l.drop (l.length - 10) ++ [g]).length - 10)
      = (l ++ [g]).drop ((l ++ [g]).length - 10) := by
  simp only [List.length_append, List.length_singleton, List.length_drop]
  by_cases hl : l.length < 10
  · have h1 : l.length - 10 = 0 := by omega
    simp [h1]
  · have h1 : l.length - (l.length - 10) + 1 - 10 = 1 := by omega
    rw [h1, List.drop_append_of_le_length (by simp; omega),
      List.drop_append_of_le_length (by omega), List.drop_drop]
    congr 2
    omega

theorem recordAll_append (s : AppState) (gs : List (List Node)) (g : List Node) :
    recordAll s (gs ++ [g]) = updateGraph (recordAll s gs) g true := by
  simp [recordAll, List.foldl_append]

theorem recordAll_history (nodes0 init : List Node) (gs : List (List Node)) :
    (recordAll ⟨nodes0, [init]⟩ gs).history
      = (init :: gs).drop ((init :: gs).length - 10) := by
  induction gs using List.reverseRecOn with
  | nil => simp [recordAll]
  | append_singleton gs g ih =>
    rw [recordAll_append, updateGraph_history _ _ (by rw [ih]; simp; omega), ih]
    have := drop_last_append (init :: gs) g
    simpa using this

/-- C8: starting from a history that holds only the initial state, after the `k` forests
`gs` have been recorded with `updateGraph(g, true)` the history has `k + 1` entries (the
initial state followed by `gs`) when `k ≤ 9`; when `k > 9` it has exactly 10 entries, these
are the last 10 recorded forests in order, and the oldest one retained is the forest of
mutation `k - 9`, that is `gs[k - 10]`. -/
theorem history_after_k_records (nodes0 init : List Node) (gs : List (List Node)) :
    (gs.length ≤ 9 →
        (recordAll ⟨nodes0, [init]⟩ gs).history = init :: gs ∧
        (recordAll ⟨nodes0, [init]⟩ gs).history.length = gs.length + 1) ∧
    (9 < gs.length →
        (recordAll ⟨nodes0, [init]⟩ gs).history.length = 10 ∧
        (recordAll ⟨nodes0, [init]⟩ gs).history = gs.drop (gs.length - 10) ∧
        (recordAll ⟨nodes0, [init]⟩ gs).history.head? = gs[gs.length - 10]?) := by
  rw [recordAll_history]
  constructor
  · intro hk
    have : (init :: gs).length - 10 = 0 := by simp; omega
    rw [this]
    simp
  · intro hk
    have : (init :: gs).length - 10 = (gs.length - 10) + 1 := by simp; omega
    rw [this, List.drop_succ_cons]
    refine ⟨by simp; omega, rfl, ?_⟩
    rw [List.head?_drop]

/-- C9: for every non-empty history whose last entry is the current forest `F`, recording a
forest `G` with `updateGraph(G, true)` and then calling `undoAction` makes the live forest
equal to `F` again and leaves `F` as the last entry of the history, whether or not the
recording evicted the oldest snapshot. -/
theorem undo_after_record_restores (s : AppState) (G : List Node)
    (hlast : s.history.getLast? = some s.nodes) :
    (undoAction (updateGraph s G true)).nodes = s.nodes ∧
    (undoAction (updateGraph s G true)).history.getLast? = some s.nodes ∧
    (undoAction (updateGraph s G true)).history
      = if 10 ≤ s.history.length then s.history.drop 1 else s.history := by
  obtain ⟨nodes, history⟩ := s
  simp only at hlast
  obtain ⟨pre, rfl⟩ : ∃ pre, history = pre ++ [nodes] := by
    rcases List.eq_nil_or_concat history with h | ⟨pre, x, h⟩
    · simp [h] at hlast
    · subst h
      simp at hlast
      exact ⟨pre, by simp [hlast]⟩
  simp only [updateGraph, if_true, List.length_append, List.length_singleton]
  by_cases hlen : pre.length + 1 + 1 > 10
  · rw [if_pos hlen, if_pos (by omega)]
    have hdrop : List.drop 1 (pre ++ [nodes] ++ [G]) = List.drop 1 (pre ++ [nodes]) ++ [G] := by
      rw [List.drop_append_of_le_length (by simp)]
    obtain ⟨q, hq⟩ : ∃ q, List.drop 1 (pre ++ [nodes]) = q ++ [nodes] := by
      cases pre with
      | nil => simp at hlen
      | cons a t => exact ⟨t, by simp⟩
    have hlen2 : ¬ (q ++ [nodes] ++ [G]).length ≤ 1 := by simp
    rw [hdrop, hq]
    simp only [undoAction, dif_neg hlen2]
    refine ⟨?_, ?_, ?_⟩
    · simp [List.getElem_append_left, List.getElem_append_right]
    · simp [List.dropLast_append_of_ne_nil]
    · simp [List.dropLast_append_of_ne_nil]
  · rw [if_neg hlen, if_neg (by omega)]
    have hlen2 : ¬ (pre ++ [nodes] ++ [G]).length ≤ 1 := by simp
    simp only [undoAction, dif_neg hlen2]
    refine ⟨?_, ?_, ?_⟩
    · simp [List.getElem_append_left, List.getElem_append_right]
    · simp [List.dropLast_append_of_ne_nil]
    · simp [List.dropLast_append_of_ne_nil]

/-- C9 (witness): from the start-up state the editor renames `main` nine times, so that the
history holds ten different forests and its last entry is the live forest; the editor then
sets the colour of `main`, which records a forest `G` and evicts the oldest entry, and
`undoAction` follows.  The live forest is again the one of the ninth renaming, the
history holds the nine renamed forests, and `G` is not the restored forest. -/
theorem undo_after_record_restores_witness :
    afterRenames ["1", "2", "3", "4", "5", "6", "7", "8", "9"]
      = ⟨renamedMain "9", initialGraph defaultStations ::
          ["1", "2", "3", "4", "5", "6", "7", "8", "9"].map renamedMain⟩ ∧
    (afterRenames ["1", "2", "3", "4", "5", "6", "7", "8", "9"]).history.Nodup ∧
    editorCallback (afterRenames ["1", "2", "3", "4", "5", "6", "7", "8", "9"]) "main"
        (.color "#455EED")
      = updateGraph (afterRenames ["1", "2", "3", "4", "5", "6", "7", "8", "9"])
          (editorUpdateNodeProperty (renamedMain "9") "main" (.color "#455EED")) true ∧
    editorUpdateNodeProperty (renamedMain "9") "main" (.color "#455EED") ≠ renamedMain "9" ∧
    (undoAction (updateGraph (afterRenames ["1", "2", "3", "4", "5", "6", "7", "8", "9"])
        (editorUpdateNodeProperty (renamedMain "9") "main" (.color "#455EED")) true)).nodes
      = renamedMain "9" ∧
    (undoAction (updateGraph (afterRenames ["1", "2", "3", "4", "5", "6", "7", "8", "9"])
        (editorUpdateNodeProperty (renamedMain "9") "main" (.color "#455EED"))
          true)).history.getLast?
      = some (renamedMain "9") ∧
    (undoAction (updateGraph (afterRenames ["1", "2", "3", "4", "5", "6", "7", "8", "9"])
        (editorUpdateNodeProperty (renamedMain "9") "main" (.color "#455EED")) true)).history
      = ["1", "2", "3", "4", "5", "6", "7", "8", "9"].map renamedMain :=
  ⟨by decide, by decide, by decide, by decide,
    (undo_after_record_restores (afterRenames ["1", "2", "3", "4", "5", "6", "7", "8", "9"])
      (editorUpdateNodeProperty (renamedMain "9") "main" (.color "#455EED")) (by decide)).1,
    (undo_after_record_restores (afterRenames ["1", "2", "3", "4", "5", "6", "7", "8", "9"])
      (editorUpdateNodeProperty (renamedMain "9") "main" (.color "#455EED")) (by decide)).2.1,
    by decide⟩

theorem runOps_cons (s : AppState) (op : HistoryOp) (ops : List HistoryOp) :
    runOps s (op :: ops) = runOps (op.apply s) ops := by
  simp [runOps]

theorem updateGraph_history_ne_nil (s : AppState) (g : List Node) :
    (updateGraph s g true).history ≠ [] := by
  intro h
  have hl := congrArg List.length h
  simp only [updateGraph, if_true, List.length_append, List.length_singleton,
    List.length_nil] at hl
  by_cases hc : s.history.length + 1 > 10
  · rw [if_pos hc, List.length_drop, List.length_append, List.length_singleton] at hl
    omega
  · rw [if_neg hc] at hl
    simp at hl

theorem undoAction_history_ne_nil (s : AppState) (h : s.history ≠ []) :
    (undoAction s).history ≠ [] := by
  unfold undoAction
  split
  · exact h
  · next hlen =>
    intro hnil
    have hl := congrArg List.length hnil
    simp at hl
    omega

theorem runOps_history_ne_nil (ops : List HistoryOp) :
    ∀ s : AppState, s.history ≠ [] → (runOps s ops).history ≠ [] := by
  induction ops with
  | nil => intro s h; simpa [runOps] using h
  | cons op ops ih =>
    intro s h
    rw [runOps_cons]
    apply ih
    cases op with
    | record g => exact updateGraph_history_ne_nil s g
    | undo => exact undoAction_history_ne_nil s h

theorem undoAction_head (s : AppState) : (undoAction s).history.head? = s.history.head? := by
  unfold undoAction
  split
  · rfl
  · next hlen =>
    obtain ⟨nodes, history⟩ := s
    match history, hlen with
    | [], hlen => simp at hlen
    | [_], hlen => simp at hlen
    | a :: b :: t, _ => simp [List.dropLast]

theorem undoAction_length_le (s : AppState) :
    (undoAction s).history.length ≤ s.history.length := by
  unfold undoAction
  split
  · exact le_refl _
  · simp

theorem runOps_neverEvicts_head (init : List Node) (ops : List HistoryOp) :
    ∀ s : AppState, s.history.head? = some init → neverEvicts s ops = true →
      (runOps s ops).history.head? = some init := by
  induction ops with
  | nil => intro s h _; simpa [runOps] using h
  | cons op ops ih =>
    intro s h hev
    rw [runOps_cons]
    cases op with
    | record g =>
      simp only [neverEvicts, Bool.and_eq_true, decide_eq_true_eq] at hev
      obtain ⟨hlt, hev⟩ := hev
      refine ih _ ?_ hev
      simp only [HistoryOp.apply, updateGraph, if_true, List.length_append,
        List.length_singleton]
      rw [if_neg (by omega)]
      cases hh : s.history with
      | nil => simp [hh] at h
      | cons a t => simpa [hh] using h
    | undo =>
      refine ih _ ?_ hev
      simpa [HistoryOp.apply, undoAction_head] using h

theorem neverEvicts_of_recordCount (ops : List HistoryOp) :
    ∀ s : AppState, s.history.length + recordCount ops ≤ 10 → neverEvicts s ops = true := by
  induction ops with
  | nil => intro s _; rfl
  | cons op ops ih =>
    intro s h
    cases op with
    | record g =>
      simp only [recordCount] at h
      simp only [neverEvicts, Bool.and_eq_true, decide_eq_true_eq]
      refine ⟨by omega, ih _ ?_⟩
      simp only [updateGraph, if_true, List.length_append, List.length_singleton]
      rw [if_neg (by omega)]
      simp
      omega
    | undo =>
      simp only [recordCount] at h
      have := undoAction_length_le s
      exact ih _ (by omega)

/-- C10 (counterexample): from the start-up state, whose history is `[initial state]` with
the default forest as the initial state, the editor renames `main` ten times.  Each
renaming records a forest that differs from the initial state; after the tenth the
history holds 10 entries and its entry at index 0 is the forest of the first renaming,
not the initial state, which has been evicted. -/
theorem history_index0_lost_after_ten_records :
    bootState.history = [initialGraph defaultStations] ∧
    afterRenames ["1", "2", "3", "4", "5", "6", "7", "8", "9", "10"]
      = runOps bootState (["1", "2", "3", "4", "5", "6", "7", "8", "9", "10"].map
          (fun label => HistoryOp.record (renamedMain label))) ∧
    (runOps bootState (["1", "2", "3", "4", "5", "6", "7", "8", "9", "10"].map
        (fun label => HistoryOp.record (renamedMain label)))).history.length = 10 ∧
    (runOps bootState (["1", "2", "3", "4", "5", "6", "7", "8", "9", "10"].map
        (fun label => HistoryOp.record (renamedMain label)))).history.head?
      = some (renamedMain "1") ∧
    (runOps bootState (["1", "2", "3", "4", "5", "6", "7", "8", "9", "10"].map
        (fun label => HistoryOp.record (renamedMain label)))).history.head?
      ≠ some (initialGraph defaultStations) ∧
    initialGraph defaultStations ∉
      (runOps bootState (["1", "2", "3", "4", "5", "6", "7", "8", "9", "10"].map
        (fun label => HistoryOp.record (renamedMain label)))).history := by
  decide

/-- C10 (amended): for every sequence of record and undo operations applied to a history
that starts as `[initial state]`, the history is never empty; its entry at index 0 is the
initial state as long as no recording was applied to a history that already held 10
entries (in particular whenever the sequence records at most 9 snapshots); and undo on a
history with at most one entry changes neither the history nor the forest. -/
theorem history_never_empty_initial_kept_until_eviction (nodes0 init : List Node)
    (ops : List HistoryOp) :
    (runOps ⟨nodes0, [init]⟩ ops).history ≠ [] ∧
    (neverEvicts ⟨nodes0, [init]⟩ ops = true →
      (runOps ⟨nodes0, [init]⟩ ops).history.head? = some init) ∧
    (recordCount ops ≤ 9 → (runOps ⟨nodes0, [init]⟩ ops).history.head? = some init) ∧
    (∀ s : AppState, s.history.length ≤ 1 → undoAction s = s) := by
  refine ⟨runOps_history_ne_nil ops _ (by simp), ?_, ?_, ?_⟩
  · exact runOps_neverEvicts_head init ops _ (by simp)
  · intro h
    exact runOps_neverEvicts_head init ops _ (by simp)
      (neverEvicts_of_recordCount ops _ (by simp; omega))
  · intro s h
    simp [undoAction, h]

/-! ## Ids and nodes of a forest -/

@[simp] theorem Node.mk_eta (n : Node) :
    (⟨n.id, n.name, n.color, n.notes, n.children, n.childrenHidden⟩ : Node) = n := by
  cases n; rfl

theorem forestIds_append (a b : List Node) :
    forestIds (a ++ b) = forestIds a ++ forestIds b := by
  induction a with
  | nil => simp
  | cons n rest ih => simp [ih]

theorem allNodes_append (a b : List Node) :
    allNodes (a ++ b) = allNodes a ++ allNodes b := by
  induction a with
  | nil => simp
  | cons n rest ih => simp [ih]

theorem forestIds_eq_map : ∀ l : List Node, forestIds l = (allNodes l).map Node.id := by
  apply forest_induction
  · simp
  · intro n rest ih1 ih2
    simp [ih1, ih2]

theorem mem_forestIds_iff (l : List Node) (x : String) :
    x ∈ forestIds l ↔ ∃ n ∈ allNodes l, n.id = x := by
  simp [forestIds_eq_map]

theorem mem_allNodes_of_mem (l : List Node) (n : Node) (h : n ∈ l) : n ∈ allNodes l := by
  induction l with
  | nil => simp at h
  | cons m rest ih =>
    rcases List.mem_cons.1 h with rfl | h
    · simp
    · simp [ih h]

theorem nodeIds_sublist_of_mem_allNodes :
    ∀ l : List Node, ∀ t : Node, t ∈ allNodes l → (nodeIds t).Sublist (forestIds l) := by
  apply forest_induction
  · intro t h
    simp at h
  · intro n rest ih1 ih2 t h
    simp only [allNodes_cons, List.mem_cons, List.mem_append] at h
    rw [forestIds_cons]
    rcases h with rfl | h | h
    · rw [nodeIds_eq]
      exact List.Sublist.cons₂ _ (List.sublist_append_left _ _)
    · exact List.Sublist.cons _ ((ih1 t h).trans (List.sublist_append_left _ _))
    · exact List.Sublist.cons _ ((ih2 t h).trans (List.sublist_append_right _ _))

theorem allNodes_sublist_of_mem_allNodes :
    ∀ l : List Node, ∀ t : Node, t ∈ allNodes l → (nodeAll t).Sublist (allNodes l) := by
  apply forest_induction
  · intro t h
    simp at h
  · intro n rest ih1 ih2 t h
    simp only [allNodes_cons, List.mem_cons, List.mem_append] at h
    rw [allNodes_cons]
    rcases h with rfl | h | h
    · rw [nodeAll_eq]
      exact List.Sublist.cons₂ _ (List.sublist_append_left _ _)
    · exact List.Sublist.cons _ ((ih1 t h).trans (List.sublist_append_left _ _))
    · exact List.Sublist.cons _ ((ih2 t h).trans (List.sublist_append_right _ _))

/-- In a forest with unique ids a node is determined by its id. -/
theorem eq_of_id_eq {l : List Node} (hn : (forestIds l).Nodup) {a b : Node}
    (ha : a ∈ allNodes l) (hb : b ∈ allNodes l) (h : a.id = b.id) : a = b := by
  rw [forestIds_eq_map] at hn
  exact List.inj_on_of_nodup_map hn ha hb h

theorem nodup_children_of_mem {l : List Node} (hn : (forestIds l).Nodup) {t : Node}
    (ht : t ∈ allNodes l) : (nodeIds t).Nodup :=
  (nodeIds_sublist_of_mem_allNodes l t ht).nodup hn

/-! ## `removeNodeAndChildren` -/

@[simp] theorem removeNodeAndChildrenNode_eq (rid : String) (n : Node) :
    removeNodeAndChildrenNode rid n
      = { n with children := removeNodeAndChildren rid n.children } := by
  cases n; simp [removeNodeAndChildrenNode]

@[simp] theorem removeNodeAndChildren_nil (rid : String) :
    removeNodeAndChildren rid [] = [] := by
  simp [removeNodeAndChildren]

theorem removeNodeAndChildren_cons (rid : String) (n : Node) (rest : List Node) :
    removeNodeAndChildren rid (n :: rest)
      = if n.id = rid then removeNodeAndChildren rid rest
        else { n with children := removeNodeAndChildren rid n.children } ::
          removeNodeAndChildren rid rest := by
  simp [removeNodeAndChildren]

theorem removeNodeAndChildren_of_not_mem (rid : String) :
    ∀ l : List Node, rid ∉ forestIds l → removeNodeAndChildren rid l = l := by
  apply forest_induction
  · simp
  · intro n rest ih1 ih2 h
    simp only [forestIds_cons, List.mem_cons, List.mem_append, not_or] at h
    rw [removeNodeAndChildren_cons, if_neg (fun e => h.1 e.symm), ih1 h.2.1, ih2 h.2.2,
      Node.mk_eta]

theorem forestIds_removeNodeAndChildren_sublist (rid : String) :
    ∀ l : List Node, (forestIds (removeNodeAndChildren rid l)).Sublist (forestIds l) := by
  apply forest_induction
  · simp
  · intro n rest ih1 ih2
    rw [removeNodeAndChildren_cons]
    split
    · rw [forestIds_cons]
      exact List.Sublist.cons _ (ih2.trans (List.sublist_append_right _ _))
    · simp only [forestIds_cons]
      exact List.Sublist.cons₂ _ (List.Sublist.append ih1 ih2)

theorem not_mem_forestIds_removeNodeAndChildren (rid : String) :
    ∀ l : List Node, rid ∉ forestIds (removeNodeAndChildren rid l) := by
  apply forest_induction
  · simp
  · intro n rest ih1 ih2
    rw [removeNodeAndChildren_cons]
    split
    · exact ih2
    · next hne =>
      simp only [forestIds_cons, List.mem_cons, List.mem_append, not_or]
      exact ⟨fun e => hne e.symm, ih1, ih2⟩

/-! ## Entries -/

@[simp] theorem nodeEntries_eq (p : Option String) (n : Node) :
    nodeEntries p n
      = ⟨p, n.id, n.name, n.color, n.notes, n.childrenHidden⟩ ::
          forestEntries (some n.id) n.children := by
  cases n; simp [nodeEntries]

@[simp] theorem forestEntries_nil (p : Option String) : forestEntries p [] = [] := by
  simp [forestEntries]

@[simp] theorem forestEntries_cons (p : Option String) (n : Node) (rest : List Node) :
    forestEntries p (n :: rest)
      = ⟨p, n.id, n.name, n.color, n.notes, n.childrenHidden⟩ ::
          (forestEntries (some n.id) n.children ++ forestEntries p rest) := by
  simp [forestEntries]

theorem forestEntries_append (p : Option String) (a b : List Node) :
    forestEntries p (a ++ b) = forestEntries p a ++ forestEntries p b := by
  induction a with
  | nil => simp
  | cons n rest ih => simp [ih]

theorem forestEntries_map_id :
    ∀ l : List Node, ∀ p, (forestEntries p l).map Entry.id = forestIds l := by
  apply forest_induction
  · simp
  · intro n rest ih1 ih2 p
    simp [ih1, ih2]

theorem mem_forestIds_of_mem_forestEntries {l : List Node} {p : Option String} {e : Entry}
    (h : e ∈ forestEntries p l) : e.id ∈ forestIds l := by
  rw [← forestEntries_map_id l p]
  exact List.mem_map_of_mem _ h

theorem forestEntries_filter_eq_nil (S : List String) (l : List Node) (p : Option String)
    (h : ∀ x ∈ forestIds l, x ∈ S) :
    (forestEntries p l).filter (fun e => decide (e.id ∉ S)) = [] := by
  rw [List.filter_eq_nil_iff]
  intro e he
  simpa using h _ (mem_forestIds_of_mem_forestEntries he)

theorem forestEntries_filter_eq_self (S : List String) (l : List Node) (p : Option String)
    (h : ∀ x ∈ forestIds l, x ∉ S) :
    (forestEntries p l).filter (fun e => decide (e.id ∉ S)) = forestEntries p l := by
  rw [List.filter_eq_self]
  intro e he
  simpa using h _ (mem_forestIds_of_mem_forestEntries he)

/-! ## A node of the forest, or a node apart from it -/

/-- Splitting `InOrApart` along `n :: rest` when `n` is not the node `t`. -/
theorem InOrApart.cons_ne {t n : Node} {rest : List Node}
    (hn : (forestIds (n :: rest)).Nodup) (hid : n.id ≠ t.id)
    (hD : InOrApart t (n :: rest)) :
    n.id ∉ nodeIds t ∧ InOrApart t n.children ∧ InOrApart t rest := by
  rw [forestIds_cons, List.nodup_cons, List.nodup_append] at hn
  obtain ⟨hn1, -, -, hdis⟩ := hn
  simp only [List.mem_append, not_or] at hn1
  rcases hD with ht | hd
  · simp only [allNodes_cons, List.mem_cons, List.mem_append] at ht
    rcases ht with rfl | ht | ht
    · exact absurd rfl hid
    · have hsub := (nodeIds_sublist_of_mem_allNodes _ _ ht).subset
      exact ⟨fun h => hn1.1 (hsub h), Or.inl ht, Or.inr (fun x hx => fun hr => hdis (hsub hx) hr)⟩
    · have hsub := (nodeIds_sublist_of_mem_allNodes _ _ ht).subset
      exact ⟨fun h => hn1.2 (hsub h), Or.inr (fun x hx => fun hr => hdis hr (hsub hx)), Or.inl ht⟩
  · refine ⟨fun h => hd _ h (by simp), Or.inr ?_, Or.inr ?_⟩
    · intro x hx hc
      exact hd x hx (by simp [hc])
    · intro x hx hc
      exact hd x hx (by simp [hc])

/-- When the first node of `n :: rest` carries the id of `t`, it is `t`, and `rest` is
apart from it. -/
theorem InOrApart.cons_eq {t n : Node} {rest : List Node}
    (hn : (forestIds (n :: rest)).Nodup) (hid : n.id = t.id)
    (hD : InOrApart t (n :: rest)) :
    t = n ∧ ∀ x ∈ nodeIds n, x ∉ forestIds rest := by
  have hnn : n ∈ allNodes (n :: rest) := by simp
  have ht : t = n := by
    rcases hD with ht | hd
    · exact eq_of_id_eq hn ht hnn hid.symm
    · exact absurd (by simp [hid]) (hd t.id (by simp))
  refine ⟨ht, ?_⟩
  rw [forestIds_cons, List.nodup_cons, List.nodup_append] at hn
  obtain ⟨hn1, -, -, hdis⟩ := hn
  simp only [List.mem_append, not_or] at hn1
  intro x hx hr
  rw [nodeIds_eq, List.mem_cons] at hx
  rcases hx with rfl | hx
  · exact hn1.2 hr
  · exact hdis hx hr

theorem nodup_cons_parts {n : Node} {rest : List Node}
    (hn : (forestIds (n :: rest)).Nodup) :
    (forestIds n.children).Nodup ∧ (forestIds rest).Nodup := by
  rw [forestIds_cons, List.nodup_cons, List.nodup_append] at hn
  exact ⟨hn.2.1, hn.2.2.1⟩

/-! ## C4: what `removeNode` removes -/

theorem forestEntries_removeNodeAndChildren (t : Node) :
    ∀ l : List Node, ∀ p, (forestIds l).Nodup → InOrApart t l →
      forestEntries p (removeNodeAndChildren t.id l)
        = (forestEntries p l).filter (fun e => decide (e.id ∉ nodeIds t)) := by
  apply forest_induction
  · simp
  · intro n rest ih1 ih2 p hn hD
    obtain ⟨hnc, hnr⟩ := nodup_cons_parts hn
    rw [removeNodeAndChildren_cons]
    by_cases hid : n.id = t.id
    · obtain ⟨rfl, hrest⟩ := InOrApart.cons_eq hn hid hD
      rw [if_pos rfl, ih2 p hnr (Or.inr hrest), forestEntries_cons, List.filter_cons,
        List.filter_append,
        forestEntries_filter_eq_nil (nodeIds t) t.children (some t.id)
          (fun x hx => by simp [hx])]
      simp
    · obtain ⟨hnot, hDc, hDr⟩ := InOrApart.cons_ne hn hid hD
      rw [if_neg hid, forestEntries_cons, forestEntries_cons, List.filter_cons,
        List.filter_append]
      simp only [ih1 (some n.id) hnc hDc, ih2 p hnr hDr]
      rw [if_pos (by simpa using hnot)]

theorem filter_not_mem_append_perm {L S : List String} (hL : L.Nodup) (hS : S.Sublist L) :
    (L.filter (fun x => decide (x ∉ S)) ++ S).Perm L := by
  rw [List.perm_ext_iff_of_nodup ?_ hL]
  · intro x
    simp only [List.mem_append, List.mem_filter, decide_eq_true_eq]
    constructor
    · rintro (⟨h, -⟩ | h)
      · exact h
      · exact hS.subset h
    · intro h
      by_cases hx : x ∈ S
      · exact Or.inr hx
      · exact Or.inl ⟨h, hx⟩
  · rw [List.nodup_append]
    refine ⟨hL.filter _, hS.nodup hL, ?_⟩
    intro x hx hxs
    simp only [List.mem_filter, decide_eq_true_eq] at hx
    exact hx.2 hxs

theorem forestIds_removeNodeAndChildren_eq_filter (t : Node) (l : List Node)
    (hn : (forestIds l).Nodup) (hD : InOrApart t l) :
    forestIds (removeNodeAndChildren t.id l)
      = (forestIds l).filter (fun x => decide (x ∉ nodeIds t)) := by
  rw [← forestEntries_map_id _ none, forestEntries_removeNodeAndChildren t l none hn hD,
    ← forestEntries_map_id l none, List.filter_map]
  rfl

/-- Removing a node of a forest with unique ids removes the ids of its subtree and keeps
all others. -/
theorem forestIds_removeNodeAndChildren_perm (t : Node) (l : List Node)
    (hn : (forestIds l).Nodup) (ht : t ∈ allNodes l) :
    (forestIds (removeNodeAndChildren t.id l) ++ nodeIds t).Perm (forestIds l) := by
  rw [forestIds_removeNodeAndChildren_eq_filter t l hn (Or.inl ht)]
  exact filter_not_mem_append_perm hn (nodeIds_sublist_of_mem_allNodes l t ht)

theorem length_allNodes (l : List Node) : (allNodes l).length = (forestIds l).length := by
  rw [forestIds_eq_map, List.length_map]

/-- C4: in a forest with unique ids, `removeNode` called with (a copy of) a node `n` that
occurs at any depth deletes exactly `n` and its descendants: the number of nodes decreases
by 1 plus the number of descendants of `n`, and the flattened forest (every node with its
parent and its fields, in pre-order) is the flattened input without the entries of the
subtree of `n`, so every other node is still there with the same fields, the same parent
and the same order among its siblings. -/
theorem removeNode_removes_exactly_subtree (nodes : List Node)
    (hn : (forestIds nodes).Nodup) (n : Node) (hmem : n ∈ allNodes nodes)
    (nodeToRemove : Node) (hid : nodeToRemove.id = n.id) :
    (allNodes (removeNode nodes nodeToRemove)).length + (1 + (allNodes n.children).length)
        = (allNodes nodes).length ∧
    forestEntries none (removeNode nodes nodeToRemove)
        = (forestEntries none nodes).filter (fun e => decide (e.id ∉ nodeIds n)) ∧
    (∀ e ∈ forestEntries none nodes, e.id ∉ nodeIds n →
        e ∈ forestEntries none (removeNode nodes nodeToRemove)) ∧
    (∀ x ∈ nodeIds n, x ∉ forestIds (removeNode nodes nodeToRemove)) := by
  unfold removeNode
  rw [hid]
  have hent := forestEntries_removeNodeAndChildren n nodes none hn (Or.inl hmem)
  refine ⟨?_, hent, ?_, ?_⟩
  · have hp := (forestIds_removeNodeAndChildren_perm n nodes hn hmem).length_eq
    rw [length_allNodes, length_allNodes, length_allNodes, ← hp, List.length_append,
      nodeIds_eq, List.length_cons]
    omega
  · intro e he hne
    rw [hent, List.mem_filter]
    exact ⟨he, by simpa using hne⟩
  · intro x hx hc
    rw [forestIds_removeNodeAndChildren_eq_filter n nodes hn (Or.inl hmem),
      List.mem_filter, decide_eq_true_eq] at hc
    exact hc.2 hx

/-- C4 (witness): removing `child-1` from the default forest. -/
theorem removeNode_removes_exactly_subtree_witness :
    (allNodes (removeNode (initialGraph defaultStations) (leaf "child-1" ""))).length + (1 + 2)
        = 8 ∧
    (forestEntries none (removeNode (initialGraph defaultStations) (leaf "child-1" ""))).map
        Entry.id = ["main", "child-2", "subchild-2-1", "subchild-2-2", "child-3"] := by
  have h := removeNode_removes_exactly_subtree (initialGraph defaultStations) (by decide)
    ⟨"child-1", "Child Station 1", "#455EED", "",
      [⟨"subchild-1-1", "Child Station 2", "#455EED", "", [], false⟩,
       ⟨"subchild-1-2", "Child Station 3", "#455EED", "", [], false⟩], false⟩
    (by decide) (leaf "child-1" "") rfl
  exact ⟨h.1, by decide⟩

/-! ## Toggle, property updates and `addNode` keep the ids -/

@[simp] theorem toggleHiddenNode_eq (tid : String) (n : Node) :
    toggleHiddenNode tid n
      = if n.id = tid then { n with childrenHidden := !n.childrenHidden }
        else { n with children := toggleHidden tid n.children } := by
  cases n; simp [toggleHiddenNode]

@[simp] theorem toggleHidden_nil (tid : String) : toggleHidden tid [] = [] := by
  simp [toggleHidden]

@[simp] theorem toggleHidden_cons (tid : String) (n : Node) (rest : List Node) :
    toggleHidden tid (n :: rest) = toggleHiddenNode tid n :: toggleHidden tid rest := by
  simp [toggleHidden]

theorem forestIds_toggleHidden (tid : String) :
    ∀ l : List Node, forestIds (toggleHidden tid l) = forestIds l := by
  apply forest_induction
  · simp
  · intro n rest ih1 ih2
    by_cases h : n.id = tid <;> simp [h, ih1, ih2]

@[simp] theorem setProperty_id (n : Node) (pv : PropertyValue) : (setProperty n pv).id = n.id := by
  cases pv <;> rfl

@[simp] theorem setProperty_children (n : Node) (pv : PropertyValue) :
    (setProperty n pv).children = n.children := by
  cases pv <;> rfl

@[simp] theorem updateNodesNode_eq (uid : String) (pv : PropertyValue) (n : Node) :
    updateNodesNode uid pv n
      = if n.id = uid then setProperty n pv
        else { n with children := updateNodes uid pv n.children } := by
  cases n; simp [updateNodesNode]

@[simp] theorem updateNodes_nil (uid : String) (pv : PropertyValue) :
    updateNodes uid pv [] = [] := by
  simp [updateNodes]

@[simp] theorem updateNodes_cons (uid : String) (pv : PropertyValue) (n : Node)
    (rest : List Node) :
    updateNodes uid pv (n :: rest) = updateNodesNode uid pv n :: updateNodes uid pv rest := by
  simp [updateNodes]

theorem forestIds_updateNodes (uid : String) (pv : PropertyValue) :
    ∀ l : List Node, forestIds (updateNodes uid pv l) = forestIds l := by
  apply forest_induction
  · simp
  · intro n rest ih1 ih2
    by_cases h : n.id = uid <;> simp [h, ih1, ih2]

theorem forestIds_editorUpdateNodeProperty (uid : String) (pv : PropertyValue)
    (l : List Node) : forestIds (editorUpdateNodeProperty l uid pv) = forestIds l := by
  unfold editorUpdateNodeProperty
  induction l with
  | nil => simp
  | cons n rest ih =>
    by_cases h : n.id = uid <;> simp [h, ih]

theorem forestIds_addNode (accentColor : String) (l : List Node) (now : Nat)
    (station : String) :
    forestIds (addNode accentColor l now station) = forestIds l ++ ["node-" ++ toString now] := by
  simp [addNode, forestIds_append]

/-! ## `detachNode` -/

theorem forestIds_sublist {a b : List Node} (h : a.Sublist b) :
    (forestIds a).Sublist (forestIds b) := by
  induction h with
  | slnil => simp
  | cons n _ ih =>
    rw [forestIds_cons]
    exact List.Sublist.cons _ (ih.trans (List.sublist_append_right _ _))
  | cons₂ n _ ih =>
    simp only [forestIds_cons]
    exact List.Sublist.cons₂ _ (List.Sublist.append (List.Sublist.refl _) ih)

/-- The children lists after the `filter` of `detachNode`. -/
theorem forestIds_detach_map_sublist (nodeId : String) (l : List Node) :
    (forestIds (l.map (fun node =>
        ({ node with children := node.children.filter (fun child => child.id ≠ nodeId) } : Node)))).Sublist
      (forestIds l) := by
  induction l with
  | nil => simp
  | cons n rest ih =>
    simp only [List.map_cons, forestIds_cons]
    exact List.Sublist.cons₂ _
      (List.Sublist.append (forestIds_sublist (List.filter_sublist _)) ih)

theorem filter_ne_of_no_child (nodeId : String) (cs : List Node)
    (h : ∀ c ∈ cs, c.id ≠ nodeId) : cs.filter (fun child => child.id ≠ nodeId) = cs := by
  rw [List.filter_eq_self]
  intro c hc
  simpa using h c hc

theorem detach_map_of_no_child (nodeId : String) (l : List Node)
    (h : ∀ p ∈ l, ∀ c ∈ p.children, c.id ≠ nodeId) :
    l.map (fun node =>
        ({ node with children := node.children.filter (fun child => child.id ≠ nodeId) } : Node))
      = l := by
  induction l with
  | nil => simp
  | cons n rest ih =>
    rw [List.map_cons, ih (fun p hp => h p (List.mem_cons_of_mem _ hp)),
      filter_ne_of_no_child nodeId n.children (h n (List.mem_cons_self _ _)), Node.mk_eta]

/-- Filtering a child out of a children list with unique ids removes the ids of its
subtree. -/
theorem forestIds_filter_child_perm (nodeId : String) (d : Node) (hd : d.id = nodeId) :
    ∀ cs : List Node, (forestIds cs).Nodup → d ∈ cs →
      (forestIds (cs.filter (fun child => child.id ≠ nodeId)) ++ nodeIds d).Perm
        (forestIds cs) := by
  intro cs
  induction cs with
  | nil => intro _ h; simp at h
  | cons c rest ih =>
    intro hn hmem
    have hn' := hn
    rw [forestIds_cons, List.nodup_cons, List.nodup_append] at hn'
    obtain ⟨hn1, -, hnr, -⟩ := hn'
    simp only [List.mem_append, not_or] at hn1
    by_cases hc : c.id = nodeId
    · have hdc : d = c :=
        eq_of_id_eq hn (mem_allNodes_of_mem _ _ hmem) (by simp) (by rw [hd, hc])
      subst hdc
      have hrest : ∀ x ∈ rest, x.id ≠ nodeId := by
        intro x hx hxe
        apply hn1.2
        rw [mem_forestIds_iff]
        exact ⟨x, mem_allNodes_of_mem _ _ hx, by rw [hxe, hc]⟩
      rw [List.filter_cons, if_neg (by simpa using hc), filter_ne_of_no_child nodeId rest hrest,
        forestIds_cons, nodeIds_eq]
      have : d.id :: (forestIds d.children ++ forestIds rest)
          = (d.id :: forestIds d.children) ++ forestIds rest := by simp
      rw [this]
      exact List.perm_append_comm
    · have hmem' : d ∈ rest := by
        rcases List.mem_cons.1 hmem with h | h
        · exact absurd (by rw [← h, hd]) hc
        · exact h
      rw [List.filter_cons, if_pos (by simpa using hc)]
      simp only [forestIds_cons, List.cons_append, List.append_assoc]
      exact List.Perm.cons _ (List.Perm.append_left _ (ih hnr hmem'))

/-- Detaching a child `d` of a top-level node: the ids of the rewritten forest together
with the ids of `d` are the ids of the input. -/
theorem forestIds_detach_map_perm (nodeId : String) (d : Node) (hd : d.id = nodeId) :
    ∀ l : List Node, (forestIds l).Nodup → (∃ p ∈ l, d ∈ p.children) →
      (forestIds (l.map (fun node =>
          ({ node with children := node.children.filter (fun child => child.id ≠ nodeId) } : Node)))
        ++ nodeIds d).Perm (forestIds l) := by
  intro l
  induction l with
  | nil => intro _ h; simp at h
  | cons n rest ih =>
    intro hn hex
    have hn' := hn
    rw [forestIds_cons, List.nodup_cons, List.nodup_append] at hn'
    obtain ⟨-, hnc, hnr, hdis⟩ := hn'
    simp only [List.map_cons, forestIds_cons, List.cons_append, List.append_assoc]
    refine List.Perm.cons _ ?_
    by_cases hin : d ∈ n.children
    · have hrest : ∀ p ∈ rest, ∀ c ∈ p.children, c.id ≠ nodeId := by
        intro p hp c hc hce
        refine hdis (a := nodeId) ?_ ?_
        · rw [mem_forestIds_iff]
          exact ⟨d, mem_allNodes_of_mem _ _ hin, hd⟩
        · rw [mem_forestIds_iff]
          refine ⟨c, ?_, hce⟩
          have hp' := allNodes_sublist_of_mem_allNodes rest p (mem_allNodes_of_mem _ _ hp)
          apply hp'.subset
          rw [nodeAll_eq]
          exact List.mem_cons_of_mem _ (mem_allNodes_of_mem _ _ hc)
      rw [detach_map_of_no_child nodeId rest hrest]
      have h1 := forestIds_filter_child_perm nodeId d hd n.children hnc hin
      have h2 : (forestIds (n.children.filter (fun child => child.id ≠ nodeId))
          ++ (forestIds rest ++ nodeIds d)).Perm
          ((forestIds (n.children.filter (fun child => child.id ≠ nodeId)) ++ nodeIds d)
            ++ forestIds rest) := by
        rw [List.append_assoc]
        exact List.Perm.append_left _ List.perm_append_comm
      exact h2.trans (List.Perm.append_right _ h1)
    · have hex' : ∃ p ∈ rest, d ∈ p.children := by
        obtain ⟨p, hp, hdp⟩ := hex
        rcases List.mem_cons.1 hp with rfl | hp
        · exact absurd hdp hin
        · exact ⟨p, hp, hdp⟩
      have hnone : ∀ c ∈ n.children, c.id ≠ nodeId := by
        intro c hc hce
        obtain ⟨p, hp, hdp⟩ := hex'
        refine hdis (a := nodeId) ?_ ?_
        · rw [mem_forestIds_iff]
          exact ⟨c, mem_allNodes_of_mem _ _ hc, hce⟩
        · rw [mem_forestIds_iff]
          refine ⟨d, ?_, hd⟩
          have hp' := allNodes_sublist_of_mem_allNodes rest p (mem_allNodes_of_mem _ _ hp)
          apply hp'.subset
          rw [nodeAll_eq]
          exact List.mem_cons_of_mem _ (mem_allNodes_of_mem _ _ hdp)
      rw [filter_ne_of_no_child nodeId n.children hnone]
      exact List.Perm.append_left _ (ih hnr hex')

theorem nodeToDetach_some {nodeId : String} {l : List Node} {d : Node}
    (h : nodeToDetach nodeId l = some d) : d.id = nodeId ∧ ∃ p ∈ l, d ∈ p.children := by
  unfold nodeToDetach at h
  have hm := List.mem_of_getLast?_eq_some h
  simp only [List.mem_flatten, List.mem_map] at hm
  obtain ⟨cs, ⟨p, hp, rfl⟩, hd⟩ := hm
  simp only [List.mem_filter, decide_eq_true_eq] at hd
  exact ⟨hd.2, p, hp, hd.1⟩

theorem nodup_forestIds_detachNode (nodeId : String) (l : List Node)
    (hn : (forestIds l).Nodup) : (forestIds (detachNode nodeId l)).Nodup := by
  unfold detachNode
  cases h : nodeToDetach nodeId l with
  | none => exact (forestIds_detach_map_sublist nodeId l).nodup hn
  | some d =>
    obtain ⟨hd, hex⟩ := nodeToDetach_some h
    have hp := forestIds_detach_map_perm nodeId d hd l hn hex
    simp only [forestIds_append, forestIds_cons, forestIds_nil, List.append_nil]
    rw [nodeIds_eq] at hp
    exact hp.nodup_iff.2 hn

/-! ## `connectNodes`: unfolding -/

@[simp] theorem removeNodeFromParentNode_eq (rid : String) (n : Node) :
    removeNodeFromParentNode rid n
      = { n with children := removeNodeFromParentChildren rid n.children } := by
  cases n; simp [removeNodeFromParentNode]

@[simp] theorem removeNodeFromParentChildren_nil (rid : String) :
    removeNodeFromParentChildren rid [] = [] := by
  simp [removeNodeFromParentChildren]

theorem removeNodeFromParentChildren_cons (rid : String) (n : Node) (rest : List Node) :
    removeNodeFromParentChildren rid (n :: rest)
      = if n.id = rid then removeNodeFromParentChildren rid rest
        else { n with children := removeNodeFromParentChildren rid n.children } ::
          removeNodeFromParentChildren rid rest := by
  simp [removeNodeFromParentChildren]

/-- The children rewriting of `removeNodeFromParent` is the function
`removeNodeAndChildren`. -/
theorem removeNodeFromParentChildren_eq (rid : String) :
    ∀ l : List Node, removeNodeFromParentChildren rid l = removeNodeAndChildren rid l := by
  apply forest_induction
  · simp
  · intro n rest ih1 ih2
    rw [removeNodeFromParentChildren_cons, removeNodeAndChildren_cons, ih1, ih2]

@[simp] theorem updateColorNode_eq (c o : String) (n : Node) :
    updateColorNode c o n
      = { n with color := if n.color = o then c else n.color,
                 children := updateColor c o n.children } := by
  cases n; simp [updateColorNode]

@[simp] theorem updateColor_nil (c o : String) : updateColor c o [] = [] := by
  simp [updateColor]

@[simp] theorem updateColor_cons (c o : String) (n : Node) (rest : List Node) :
    updateColor c o (n :: rest) = updateColorNode c o n :: updateColor c o rest := by
  simp [updateColor]

theorem forestIds_updateColor (c o : String) :
    ∀ l : List Node, forestIds (updateColor c o l) = forestIds l := by
  apply forest_induction
  · simp
  · intro n rest ih1 ih2
    simp [ih1, ih2]

@[simp] theorem nodeIds_updateNodeAndChildrenColors (s : Node) (c o : String) :
    nodeIds (updateNodeAndChildrenColors s c o) = nodeIds s := by
  simp [updateNodeAndChildrenColors, forestIds_updateColor]

@[simp] theorem isDescendantAny_nil (c : Node) : isDescendantAny [] c = false := by
  simp [isDescendantAny]

@[simp] theorem isDescendantAny_cons (n : Node) (rest : List Node) (c : Node) :
    isDescendantAny (n :: rest) c = (isDescendant n c || isDescendantAny rest c) := by
  simp [isDescendantAny]

theorem isDescendant_eq (n c : Node) :
    isDescendant n c = (n.id == c.id || isDescendantAny n.children c) := by
  cases n; simp [isDescendant]

theorem isDescendantAny_iff (c : Node) :
    ∀ l : List Node, isDescendantAny l c = true ↔ c.id ∈ forestIds l := by
  apply forest_induction
  · simp
  · intro n rest ih1 ih2
    simp only [isDescendantAny_cons, isDescendant_eq, Bool.or_eq_true, beq_iff_eq, ih1, ih2,
      forestIds_cons, List.mem_cons, List.mem_append]
    constructor
    · rintro ((h | h) | h)
      · exact Or.inl h.symm
      · exact Or.inr (Or.inl h)
      · exact Or.inr (Or.inr h)
    · rintro (h | h | h)
      · exact Or.inl (Or.inl h.symm)
      · exact Or.inl (Or.inr h)
      · exact Or.inr h

/-- The test `isDescendant(parent, child)` holds exactly when the id of `child` is an id of the
subtree of `parent`. -/
theorem isDescendant_iff (s c : Node) : isDescendant s c = true ↔ c.id ∈ nodeIds s := by
  rw [isDescendant_eq, Bool.or_eq_true, beq_iff_eq, isDescendantAny_iff, nodeIds_eq,
    List.mem_cons]
  constructor
  · rintro (h | h)
    · exact Or.inl h.symm
    · exact Or.inr h
  · rintro (h | h)
    · exact Or.inl h.symm
    · exact Or.inr h

theorem isDescendant_eq_false_iff (s c : Node) :
    isDescendant s c = false ↔ c.id ∉ nodeIds s := by
  rw [← isDescendant_iff]
  simp

/-- The colour given to the moved subtree. -/
theorem addNodeToNewParentNode_eq (env : ColorEnv) (s t n : Node) :
    addNodeToNewParentNode env s t n
      = if n.id = t.id ∧ n.id ∉ nodeIds s then
          { n with children := n.children ++
              [updateNodeAndChildrenColors s (newColorFor env t) (getNodeColor s)] }
        else { n with children := addNodeToNewParent env s t n.children } := by
  cases n with
  | mk id name color notes children hidden =>
    simp only [addNodeToNewParentNode, isDescendant_eq_false_iff, newColorFor]

@[simp] theorem addNodeToNewParent_nil (env : ColorEnv) (s t : Node) :
    addNodeToNewParent env s t [] = [] := by
  simp [addNodeToNewParent]

@[simp] theorem addNodeToNewParent_cons (env : ColorEnv) (s t n : Node) (rest : List Node) :
    addNodeToNewParent env s t (n :: rest)
      = addNodeToNewParentNode env s t n :: addNodeToNewParent env s t rest := by
  simp [addNodeToNewParent]

@[simp] theorem addNodeToNewParentNode_id (env : ColorEnv) (s t n : Node) :
    (addNodeToNewParentNode env s t n).id = n.id := by
  rw [addNodeToNewParentNode_eq]
  split <;> rfl

/-- Past the early `return`, `connectNodes` removes every node with the source id and
then appends the recoloured source below the target. -/
theorem connectNodes_eq (env : ColorEnv) (l : List Node) (s t : Node)
    (hst : s.id ≠ t.id) (hmain : s.id ≠ "main") :
    connectNodes env l s t = addNodeToNewParent env s t (removeNodeAndChildren s.id l) := by
  unfold connectNodes removeNodeFromParent
  rw [if_neg (by simp [hst, hmain])]
  simp only []
  induction l with
  | nil => simp
  | cons n rest ih =>
    rw [List.map_cons, addNodeToNewParent_cons, List.filter_cons, removeNodeAndChildren_cons]
    by_cases h : n.id = s.id
    · rw [if_neg (by simp [h, hmain]), if_pos h, ih]
    · rw [if_pos (by simp [h]), if_neg h, ih, addNodeToNewParent_cons,
        removeNodeFromParentNode_eq, removeNodeFromParentChildren_eq]

theorem addNodeToNewParent_of_not_mem (env : ColorEnv) (s t : Node) :
    ∀ l : List Node, t.id ∉ forestIds l → addNodeToNewParent env s t l = l := by
  apply forest_induction
  · simp
  · intro n rest ih1 ih2 h
    simp only [forestIds_cons, List.mem_cons, List.mem_append, not_or] at h
    rw [addNodeToNewParent_cons, addNodeToNewParentNode_eq,
      if_neg (fun e => h.1 e.1.symm), ih1 h.2.1, ih2 h.2.2, Node.mk_eta]

/-! ## `connectNodes`: the ids of the result -/

/-- Adding the source below the target in a forest with unique ids that is apart from the
source: the ids of the source are added once if the target id occurs, else nothing
changes. -/
theorem forestIds_addNodeToNewParent_perm (env : ColorEnv) (s t : Node) :
    ∀ l : List Node, (forestIds l).Nodup → (∀ x ∈ forestIds l, x ∉ nodeIds s) →
      (forestIds (addNodeToNewParent env s t l)).Perm
        (forestIds l ++ if t.id ∈ forestIds l then nodeIds s else []) := by
  apply forest_induction
  · simp
  · intro n rest ih1 ih2 hn hdis
    have hn' := hn
    rw [forestIds_cons, List.nodup_cons, List.nodup_append] at hn'
    obtain ⟨hn1, hnc, hnr, hd⟩ := hn'
    simp only [List.mem_append, not_or] at hn1
    have hdisc : ∀ x ∈ forestIds n.children, x ∉ nodeIds s :=
      fun x hx => hdis x (by simp [hx])
    have hdisr : ∀ x ∈ forestIds rest, x ∉ nodeIds s :=
      fun x hx => hdis x (by simp [hx])
    rw [addNodeToNewParent_cons, addNodeToNewParentNode_eq]
    by_cases hid : n.id = t.id
    · rw [if_pos ⟨hid, hdis n.id (by simp)⟩,
        addNodeToNewParent_of_not_mem env s t rest (by rw [← hid]; exact hn1.2)]
      have e1 : forestIds (({ n with children := n.children ++
            [updateNodeAndChildrenColors s (newColorFor env t) (getNodeColor s)] } : Node)
            :: rest)
          = n.id :: (forestIds n.children ++ nodeIds s ++ forestIds rest) := by
        simp [forestIds_append, updateNodeAndChildrenColors, forestIds_updateColor]
      have e2 : (if t.id ∈ forestIds (n :: rest) then nodeIds s else []) = nodeIds s :=
        if_pos (by simp [hid])
      rw [e1, e2, forestIds_cons, List.cons_append]
      refine List.Perm.cons _ ?_
      rw [List.append_assoc, List.append_assoc]
      exact List.Perm.append_left _ List.perm_append_comm
    · rw [if_neg (fun h => hid h.1)]
      have h1 := ih1 hnc hdisc
      have h2 := ih2 hnr hdisr
      simp only [forestIds_cons, List.cons_append, List.mem_cons, List.mem_append]
      refine List.Perm.cons _ ?_
      by_cases hc : t.id ∈ forestIds n.children
      · have hr : t.id ∉ forestIds rest := fun h => hd hc h
        rw [if_pos hc] at h1
        rw [if_neg hr, List.append_nil] at h2
        rw [if_pos (Or.inr (Or.inl hc))]
        have h3 : (forestIds n.children ++ nodeIds s ++ forestIds rest).Perm
            (forestIds n.children ++ forestIds rest ++ nodeIds s) := by
          rw [List.append_assoc, List.append_assoc]
          exact List.Perm.append_left _ List.perm_append_comm
        exact (List.Perm.append h1 h2).trans h3
      · rw [if_neg hc, List.append_nil] at h1
        by_cases hr : t.id ∈ forestIds rest
        · rw [if_pos hr] at h2
          rw [if_pos (Or.inr (Or.inr hr))]
          have := List.Perm.append h1 h2
          simpa [List.append_assoc] using this
        · rw [if_neg hr, List.append_nil] at h2
          rw [if_neg (by
            rintro (h | h | h)
            · exact hid h.symm
            · exact hc h
            · exact hr h), List.append_nil]
          exact List.Perm.append h1 h2

/-- The forest without the source is apart from the source. -/
theorem removeNodeAndChildren_apart (s : Node) (l : List Node) (hn : (forestIds l).Nodup)
    (hs : s ∈ allNodes l) :
    ∀ x ∈ forestIds (removeNodeAndChildren s.id l), x ∉ nodeIds s := by
  intro x hx
  rw [forestIds_removeNodeAndChildren_eq_filter s l hn (Or.inl hs), List.mem_filter,
    decide_eq_true_eq] at hx
  exact hx.2

theorem nodup_forestIds_connectNodes (env : ColorEnv) (l : List Node)
    (hn : (forestIds l).Nodup) (s t : Node) (hs : s ∈ allNodes l) :
    (forestIds (connectNodes env l s t)).Nodup := by
  by_cases hearly : s.id = t.id ∨ s.id = "main"
  · unfold connectNodes
    rw [if_pos hearly]
    exact hn
  · simp only [not_or] at hearly
    rw [connectNodes_eq env l s t hearly.1 hearly.2]
    have hE : (forestIds (removeNodeAndChildren s.id l)).Nodup :=
      (forestIds_removeNodeAndChildren_sublist s.id l).nodup hn
    have hp := forestIds_addNodeToNewParent_perm env s t _ hE
      (removeNodeAndChildren_apart s l hn hs)
    rw [hp.nodup_iff]
    split
    · exact (forestIds_removeNodeAndChildren_perm s l hn hs).nodup_iff.2 hn
    · simpa using hE

/-! ## C2: the ids stay unique -/

/-- C2: in a forest in which every id occurs once, each of `removeNode`, the detach of
`handleDetachNode`, `connectNodes` with a source taken from the forest (and any target),
`toggleChildrenVisibility`, a property update of name, colour, notes or childrenHidden
(through `App.updateNodeProperty` and through the callback given to the editor) and
`addNode` with a generated id that is not yet in the forest yields a forest in which
every id occurs at most once. -/
theorem ids_stay_unique (env : ColorEnv) (nodes : List Node)
    (hn : (forestIds nodes).Nodup) :
    (∀ nodeToRemove : Node, (forestIds (removeNode nodes nodeToRemove)).Nodup) ∧
    (∀ nodeId : String, (forestIds (detachNode nodeId nodes)).Nodup) ∧
    (∀ sourceNode targetNode : Node, sourceNode ∈ allNodes nodes →
        (forestIds (connectNodes env nodes sourceNode targetNode)).Nodup) ∧
    (∀ node : Node, (forestIds (toggleChildrenVisibility nodes node)).Nodup) ∧
    (∀ (id : String) (pv : PropertyValue), (forestIds (updateNodes id pv nodes)).Nodup) ∧
    (∀ (id : String) (pv : PropertyValue),
        (forestIds (editorUpdateNodeProperty nodes id pv)).Nodup) ∧
    (∀ (now : Nat) (station : String), "node-" ++ toString now ∉ forestIds nodes →
        (forestIds (addNode env.accentColor nodes now station)).Nodup) := by
  refine ⟨?_, ?_, ?_, ?_, ?_, ?_, ?_⟩
  · intro nodeToRemove
    exact (forestIds_removeNodeAndChildren_sublist _ nodes).nodup hn
  · intro nodeId
    exact nodup_forestIds_detachNode nodeId nodes hn
  · intro s t hs
    exact nodup_forestIds_connectNodes env nodes hn s t hs
  · intro node
    unfold toggleChildrenVisibility
    rw [forestIds_toggleHidden]
    exact hn
  · intro id pv
    rw [forestIds_updateNodes]
    exact hn
  · intro id pv
    rw [forestIds_editorUpdateNodeProperty]
    exact hn
  · intro now station hfresh
    rw [forestIds_addNode, List.nodup_append]
    refine ⟨hn, by simp, ?_⟩
    intro x hx hx'
    rw [List.mem_singleton] at hx'
    exact hfresh (hx' ▸ hx)

/-- C2 (witness): the default forest has unique ids, so every operation on it yields a
forest with unique ids; for instance dropping `child-3` on `child-2` and detaching
`child-1`. -/
theorem ids_stay_unique_witness :
    (forestIds (initialGraph defaultStations)).Nodup ∧
    (forestIds (connectNodes sampleEnv (initialGraph defaultStations)
        ⟨"child-3", "Child 3", "#FFCF25", "", [], false⟩ (leaf "child-2" "#F7AFE7"))).Nodup ∧
    (forestIds (detachNode "child-1" (initialGraph defaultStations))).Nodup :=
  ⟨by decide,
    (ids_stay_unique sampleEnv (initialGraph defaultStations) (by decide)).2.2.1
      ⟨"child-3", "Child 3", "#FFCF25", "", [], false⟩ (leaf "child-2" "#F7AFE7") (by decide),
    (ids_stay_unique sampleEnv (initialGraph defaultStations) (by decide)).2.1 "child-1"⟩

/-! ## `connectNodes`: where the nodes end up -/

/-- A node outside the subtree of `s` survives the removal of `s`, with its children
rewritten. -/
theorem mem_allNodes_removeNodeAndChildren (s t : Node) (ht : t.id ∉ nodeIds s) :
    ∀ l : List Node, (forestIds l).Nodup → InOrApart s l → t ∈ allNodes l →
      ({ t with children := removeNodeAndChildren s.id t.children } : Node)
        ∈ allNodes (removeNodeAndChildren s.id l) := by
  apply forest_induction
  · intro _ _ h
    simp at h
  · intro n rest ih1 ih2 hn hD hmem
    obtain ⟨hnc, hnr⟩ := nodup_cons_parts hn
    simp only [allNodes_cons, List.mem_cons, List.mem_append] at hmem
    rw [removeNodeAndChildren_cons]
    by_cases hid : n.id = s.id
    · obtain ⟨rfl, hrest⟩ := InOrApart.cons_eq hn hid hD
      rw [if_pos rfl]
      rcases hmem with rfl | h | h
      · exact absurd (by simp) ht
      · exact absurd (by
          rw [nodeIds_eq]
          exact List.mem_cons_of_mem _ ((mem_forestIds_iff _ _).2 ⟨t, h, rfl⟩)) ht
      · exact ih2 hnr (Or.inr hrest) h
    · obtain ⟨-, hDc, hDr⟩ := InOrApart.cons_ne hn hid hD
      rw [if_neg hid, allNodes_cons]
      rcases hmem with rfl | h | h
      · exact List.mem_cons_self _ _
      · exact List.mem_cons_of_mem _ (List.mem_append_left _ (ih1 hnc hDc h))
      · exact List.mem_cons_of_mem _ (List.mem_append_right _ (ih2 hnr hDr h))

/-- The node with the target id gets the recoloured source as its last child. -/
theorem mem_allNodes_addNodeToNewParent (env : ColorEnv) (s t m : Node) (hm : m.id = t.id) :
    ∀ l : List Node, (forestIds l).Nodup → (∀ x ∈ forestIds l, x ∉ nodeIds s) →
      m ∈ allNodes l →
      ({ m with children := m.children ++
          [updateNodeAndChildrenColors s (newColorFor env t) (getNodeColor s)] } : Node)
        ∈ allNodes (addNodeToNewParent env s t l) := by
  apply forest_induction
  · intro _ _ h
    simp at h
  · intro n rest ih1 ih2 hn hdis hmem
    obtain ⟨hnc, hnr⟩ := nodup_cons_parts hn
    have hdisc : ∀ x ∈ forestIds n.children, x ∉ nodeIds s :=
      fun x hx => hdis x (by simp [hx])
    have hdisr : ∀ x ∈ forestIds rest, x ∉ nodeIds s :=
      fun x hx => hdis x (by simp [hx])
    rw [addNodeToNewParent_cons, addNodeToNewParentNode_eq]
    by_cases hid : n.id = t.id
    · have hmn : m = n := eq_of_id_eq hn hmem (by simp) (by rw [hm, hid])
      subst hmn
      rw [if_pos ⟨hid, hdis m.id (by simp)⟩, allNodes_cons]
      exact List.mem_cons_self _ _
    · rw [if_neg (fun h => hid h.1), allNodes_cons]
      simp only [allNodes_cons, List.mem_cons, List.mem_append] at hmem
      rcases hmem with rfl | h | h
      · exact absurd hm hid
      · exact List.mem_cons_of_mem _ (List.mem_append_left _ (ih1 hnc hdisc h))
      · exact List.mem_cons_of_mem _ (List.mem_append_right _ (ih2 hnr hdisr h))

theorem addNodeToNewParent_map_id (env : ColorEnv) (s t : Node) (l : List Node) :
    (addNodeToNewParent env s t l).map Node.id = l.map Node.id := by
  induction l with
  | nil => simp
  | cons n rest ih => simp [ih]

theorem removeNodeAndChildren_top_ne (rid : String) (l : List Node) :
    ∀ n ∈ removeNodeAndChildren rid l, n.id ≠ rid := by
  intro n hn
  have h1 : n.id ∈ forestIds (removeNodeAndChildren rid l) :=
    (mem_forestIds_iff _ _).2 ⟨n, mem_allNodes_of_mem _ _ hn, rfl⟩
  intro h
  exact not_mem_forestIds_removeNodeAndChildren rid l (h ▸ h1)

/-! ## `connectNodes`: the entries of the result -/

theorem nodeEntries_map_id (p : Option String) (n : Node) :
    (nodeEntries p n).map Entry.id = nodeIds n := by
  simp [forestEntries_map_id]

/-- Outside the moved subtree the forest with the source added is the forest without
it. -/
theorem forestEntries_addNodeToNewParent_filter_out (env : ColorEnv) (s t : Node) :
    ∀ l : List Node, ∀ p, (∀ x ∈ forestIds l, x ∉ nodeIds s) →
      (forestEntries p (addNodeToNewParent env s t l)).filter
          (fun e => decide (e.id ∉ nodeIds s))
        = forestEntries p l := by
  apply forest_induction
  · simp
  · intro n rest ih1 ih2 p hdis
    have hdisc : ∀ x ∈ forestIds n.children, x ∉ nodeIds s :=
      fun x hx => hdis x (by simp [hx])
    have hdisr : ∀ x ∈ forestIds rest, x ∉ nodeIds s :=
      fun x hx => hdis x (by simp [hx])
    have hnid : n.id ∉ nodeIds s := hdis n.id (by simp)
    rw [addNodeToNewParent_cons, addNodeToNewParentNode_eq, forestEntries_cons p n rest]
    split
    · rw [forestEntries_cons, List.filter_cons, List.filter_append, ih2 p hdisr]
      simp only []
      rw [if_pos (by simpa using hnid), forestEntries_append, List.filter_append,
        forestEntries_filter_eq_self _ _ _ hdisc,
        forestEntries_filter_eq_nil (nodeIds s) _ _ (by
          intro x hx
          simpa [updateNodeAndChildrenColors, forestIds_updateColor] using hx)]
      simp
    · rw [forestEntries_cons, List.filter_cons, List.filter_append, ih2 p hdisr]
      simp only []
      rw [if_pos (by simpa using hnid), ih1 _ hdisc]

theorem forestEntries_filter_mem_eq_nil (S : List String) (l : List Node) (p : Option String)
    (h : ∀ x ∈ forestIds l, x ∉ S) :
    (forestEntries p l).filter (fun e => decide (e.id ∈ S)) = [] := by
  rw [List.filter_eq_nil_iff]
  intro e he
  simpa using h _ (mem_forestIds_of_mem_forestEntries he)

/-- Inside the moved subtree the result holds exactly the recoloured source, as a child of
the target. -/
theorem forestEntries_addNodeToNewParent_filter_in (env : ColorEnv) (s t : Node) :
    ∀ l : List Node, ∀ p, (forestIds l).Nodup → (∀ x ∈ forestIds l, x ∉ nodeIds s) →
      (forestEntries p (addNodeToNewParent env s t l)).filter
          (fun e => decide (e.id ∈ nodeIds s))
        = if t.id ∈ forestIds l then
            nodeEntries (some t.id)
              (updateNodeAndChildrenColors s (newColorFor env t) (getNodeColor s))
          else [] := by
  apply forest_induction
  · simp
  · intro n rest ih1 ih2 p hn hdis
    have hn' := hn
    rw [forestIds_cons, List.nodup_cons, List.nodup_append] at hn'
    obtain ⟨hn1, hnc, hnr, hd⟩ := hn'
    simp only [List.mem_append, not_or] at hn1
    have hdisc : ∀ x ∈ forestIds n.children, x ∉ nodeIds s :=
      fun x hx => hdis x (by simp [hx])
    have hdisr : ∀ x ∈ forestIds rest, x ∉ nodeIds s :=
      fun x hx => hdis x (by simp [hx])
    have hnid : n.id ∉ nodeIds s := hdis n.id (by simp)
    rw [addNodeToNewParent_cons, addNodeToNewParentNode_eq]
    by_cases hid : n.id = t.id
    · rw [if_pos ⟨hid, hnid⟩,
        addNodeToNewParent_of_not_mem env s t rest (by rw [← hid]; exact hn1.2),
        forestEntries_cons, List.filter_cons, List.filter_append]
      simp only []
      rw [if_neg (by simpa using hnid), forestEntries_append, List.filter_append,
        forestEntries_filter_mem_eq_nil _ _ _ hdisc,
        forestEntries_filter_mem_eq_nil _ _ _ hdisr,
        if_pos (by simp [hid]), hid]
      simp only [List.nil_append, List.append_nil]
      have : forestEntries (some t.id)
            [updateNodeAndChildrenColors s (newColorFor env t) (getNodeColor s)]
          = nodeEntries (some t.id)
            (updateNodeAndChildrenColors s (newColorFor env t) (getNodeColor s)) := by
        simp
      rw [this, List.filter_eq_self]
      intro e he
      have := List.mem_map_of_mem Entry.id he
      rw [nodeEntries_map_id, nodeIds_updateNodeAndChildrenColors] at this
      simpa using this
    · rw [if_neg (fun h => hid h.1), forestEntries_cons, List.filter_cons, List.filter_append]
      simp only []
      rw [if_neg (by simpa using hnid), ih1 _ hnc hdisc, ih2 p hnr hdisr]
      by_cases hc : t.id ∈ forestIds n.children
      · have hr : t.id ∉ forestIds rest := fun h => hd hc h
        rw [if_pos hc, if_neg hr, List.append_nil, if_pos (by simp [hc])]
      · rw [if_neg hc, List.nil_append]
        by_cases hr : t.id ∈ forestIds rest
        · rw [if_pos hr, if_pos (by simp [hr])]
        · rw [if_neg hr, if_neg (by
            simp only [forestIds_cons, List.mem_cons, List.mem_append]
            rintro (h | h | h)
            · exact hid h.symm
            · exact hc h
            · exact hr h)]

/-! ## Recolouring -/

theorem forestEntries_updateColor (c o : String) :
    ∀ l : List Node, ∀ p,
      forestEntries p (updateColor c o l) = (forestEntries p l).map (Entry.recolor c o) := by
  apply forest_induction
  · simp
  · intro n rest ih1 ih2 p
    simp [ih1, ih2, Entry.recolor]

theorem nodeEntries_updateNodeAndChildrenColors (p : Option String) (s : Node) (c o : String) :
    nodeEntries p (updateNodeAndChildrenColors s c o)
      = ⟨p, s.id, s.name, c, s.notes, s.childrenHidden⟩ ::
          (forestEntries (some s.id) s.children).map (Entry.recolor c o) := by
  simp [updateNodeAndChildrenColors, forestEntries_updateColor]

theorem nodeEntries_updateNodeAndChildrenColors_uncolored (p : Option String) (s : Node)
    (c o : String) :
    (nodeEntries p (updateNodeAndChildrenColors s c o)).map Entry.uncolored
      = (nodeEntries p s).map Entry.uncolored := by
  rw [nodeEntries_updateNodeAndChildrenColors, nodeEntries_eq]
  simp [Entry.uncolored, Entry.recolor, Function.comp_def]

/-! ## C6: a valid reparent relocates the source -/

/-- The facts about a valid reparent that C6 and C7 rest on. -/
theorem connectNodes_valid_reparent (env : ColorEnv) (nodes : List Node)
    (hn : (forestIds nodes).Nodup) (s t : Node) (hs : s ∈ allNodes nodes)
    (ht : t ∈ allNodes nodes) (hst : s.id ≠ t.id) (hmain : s.id ≠ "main")
    (hout : t.id ∉ nodeIds s) :
    (forestIds (connectNodes env nodes s t)).Perm (forestIds nodes) ∧
    (forestIds (connectNodes env nodes s t)).Nodup ∧
    (∀ n ∈ connectNodes env nodes s t, n.id ≠ s.id) ∧
    (∀ e ∈ forestEntries none (connectNodes env nodes s t), e.id = s.id →
        e.parent = some t.id) ∧
    ({ t with children := removeNodeAndChildren s.id t.children ++
        [updateNodeAndChildrenColors s (newColorFor env t) (getNodeColor s)] } : Node)
      ∈ allNodes (connectNodes env nodes s t) ∧
    (forestEntries none (connectNodes env nodes s t)).filter
        (fun e => decide (e.id ∉ nodeIds s))
      = (forestEntries none nodes).filter (fun e => decide (e.id ∉ nodeIds s)) ∧
    (forestEntries none (connectNodes env nodes s t)).filter
        (fun e => decide (e.id ∈ nodeIds s))
      = nodeEntries (some t.id)
          (updateNodeAndChildrenColors s (newColorFor env t) (getNodeColor s)) ∧
    (nodeEntries (some t.id)
        (updateNodeAndChildrenColors s (newColorFor env t) (getNodeColor s))).map
        Entry.uncolored
      = (nodeEntries (some t.id) s).map Entry.uncolored := by
  rw [connectNodes_eq env nodes s t hst hmain]
  have hE : (forestIds (removeNodeAndChildren s.id nodes)).Nodup :=
    (forestIds_removeNodeAndChildren_sublist s.id nodes).nodup hn
  have hapart := removeNodeAndChildren_apart s nodes hn hs
  have htE := mem_allNodes_removeNodeAndChildren s t hout nodes hn (Or.inl hs) ht
  have htid : t.id ∈ forestIds (removeNodeAndChildren s.id nodes) :=
    (mem_forestIds_iff _ _).2 ⟨_, htE, rfl⟩
  have hperm := forestIds_addNodeToNewParent_perm env s t _ hE hapart
  rw [if_pos htid] at hperm
  have hperm2 := hperm.trans (forestIds_removeNodeAndChildren_perm s nodes hn hs)
  have hin := forestEntries_addNodeToNewParent_filter_in env s t _ none hE hapart
  rw [if_pos htid] at hin
  refine ⟨hperm2, hperm2.nodup_iff.2 hn, ?_, ?_, ?_, ?_, hin, ?_⟩
  · intro n hmem
    have h1 : n.id ∈ (addNodeToNewParent env s t (removeNodeAndChildren s.id nodes)).map
        Node.id := List.mem_map_of_mem _ hmem
    rw [addNodeToNewParent_map_id, List.mem_map] at h1
    obtain ⟨m, hm, hme⟩ := h1
    rw [← hme]
    exact removeNodeAndChildren_top_ne s.id nodes m hm
  · intro e he heid
    have hmem : e ∈ (forestEntries none
        (addNodeToNewParent env s t (removeNodeAndChildren s.id nodes))).filter
        (fun e => decide (e.id ∈ nodeIds s)) := by
      rw [List.mem_filter]
      exact ⟨he, by simp [heid]⟩
    rw [hin, nodeEntries_updateNodeAndChildrenColors, List.mem_cons] at hmem
    rcases hmem with rfl | hmem
    · rfl
    · exfalso
      have hsn : (nodeIds s).Nodup := nodup_children_of_mem hn hs
      rw [nodeIds_eq, List.nodup_cons] at hsn
      apply hsn.1
      rw [List.mem_map] at hmem
      obtain ⟨e0, he0, rfl⟩ := hmem
      have := mem_forestIds_of_mem_forestEntries he0
      have hid0 : (Entry.recolor (newColorFor env t) (getNodeColor s) e0).id = e0.id := rfl
      rw [hid0] at heid
      rw [← heid]
      exact this
  · exact mem_allNodes_addNodeToNewParent env s t
      ({ t with children := removeNodeAndChildren s.id t.children } : Node) rfl _ hE hapart htE
  · rw [forestEntries_addNodeToNewParent_filter_out env s t _ none hapart,
      forestEntries_removeNodeAndChildren s nodes none hn (Or.inl hs)]
  · exact nodeEntries_updateNodeAndChildrenColors_uncolored _ _ _ _

/-- A child of a node of the forest has an entry whose parent is that node. -/
theorem exists_entry_of_child :
    ∀ l : List Node, ∀ q : Option String, ∀ p c : Node, p ∈ allNodes l → c ∈ p.children →
      ∃ e ∈ forestEntries q l, e.id = c.id ∧ e.parent = some p.id := by
  have htop : ∀ (cs : List Node) (q : Option String) (c : Node), c ∈ cs →
      ∃ e ∈ forestEntries q cs, e.id = c.id ∧ e.parent = q := by
    intro cs q c hc
    induction cs with
    | nil => simp at hc
    | cons a rest ih =>
      rw [forestEntries_cons]
      rcases List.mem_cons.1 hc with rfl | hc
      · exact ⟨_, List.mem_cons_self _ _, rfl, rfl⟩
      · obtain ⟨e, he, h1, h2⟩ := ih hc
        exact ⟨e, List.mem_cons_of_mem _ (List.mem_append_right _ he), h1, h2⟩
  apply forest_induction
  · intro q p c hp
    simp at hp
  · intro n rest ih1 ih2 q p c hp hc
    rw [allNodes_cons, List.mem_cons, List.mem_append] at hp
    rw [forestEntries_cons]
    rcases hp with rfl | hp | hp
    · obtain ⟨e, he, h1, h2⟩ := htop p.children (some p.id) c hc
      exact ⟨e, List.mem_cons_of_mem _ (List.mem_append_left _ he), h1, h2⟩
    · obtain ⟨e, he, h1, h2⟩ := ih1 (some n.id) p c hp hc
      exact ⟨e, List.mem_cons_of_mem _ (List.mem_append_left _ he), h1, h2⟩
    · obtain ⟨e, he, h1, h2⟩ := ih2 q p c hp hc
      exact ⟨e, List.mem_cons_of_mem _ (List.mem_append_right _ he), h1, h2⟩

/-- C6 (counterexample): `subchild-1-2`, the last child of `child-1` in the default
forest, is dropped on its own parent `child-1`.  The ids are unique, both nodes are in the
forest, the ids differ, the source is not `main` and the target is not in the subtree of
the source; yet `connectNodes` returns the forest as it was, so the source still occurs
at its previous location, as the second child of `child-1`. -/
theorem connectNodes_onto_own_parent_unchanged :
    (forestIds (initialGraph defaultStations)).Nodup ∧
    (⟨"subchild-1-2", "Child Station 3", "#455EED", "", [], false⟩ : Node)
      ∈ allNodes (initialGraph defaultStations) ∧
    (⟨"child-1", "Child Station 1", "#455EED", "",
        [⟨"subchild-1-1", "Child Station 2", "#455EED", "", [], false⟩,
         ⟨"subchild-1-2", "Child Station 3", "#455EED", "", [], false⟩], false⟩ : Node)
      ∈ allNodes (initialGraph defaultStations) ∧
    "child-1" ∉ nodeIds ⟨"subchild-1-2", "Child Station 3", "#455EED", "", [], false⟩ ∧
    connectNodes sampleEnv (initialGraph defaultStations)
        ⟨"subchild-1-2", "Child Station 3", "#455EED", "", [], false⟩
        ⟨"child-1", "Child Station 1", "#455EED", "",
          [⟨"subchild-1-1", "Child Station 2", "#455EED", "", [], false⟩,
           ⟨"subchild-1-2", "Child Station 3", "#455EED", "", [], false⟩], false⟩
      = initialGraph defaultStations ∧
    (forestEntries none (connectNodes sampleEnv (initialGraph defaultStations)
        ⟨"subchild-1-2", "Child Station 3", "#455EED", "", [], false⟩
        ⟨"child-1", "Child Station 1", "#455EED", "",
          [⟨"subchild-1-1", "Child Station 2", "#455EED", "", [], false⟩,
           ⟨"subchild-1-2", "Child Station 3", "#455EED", "", [], false⟩], false⟩)).map
        (fun e => (e.parent, e.id))
      = (forestEntries none (initialGraph defaultStations)).map
        (fun e => (e.parent, e.id)) := by
  decide

/-- C6 (amended): in a forest with unique ids, for a source `s` and a target `t` of the
forest with different ids, `s` not the root `main` and `t` outside the subtree of `s`,
`connectNodes` relocates the source without losing or duplicating a node: the ids of the
result are the ids of the input, each once; the source occurs in the result at one place
only, as the last child of the target: it is no top-level node, its entry has the target
as parent, and no node other than the target has it among its children (so it has left
its previous location unless that was the last place among the children of the target);
the target keeps its fields and its children are its former children (without the
source) followed by the moved source; the entries outside the moved subtree (fields,
parents and order) are those of the input; the entries inside it are those of the moved
source below the target, and they differ from the entries of the source in colours
only. -/
theorem connectNodes_relocates_source (env : ColorEnv) (nodes : List Node)
    (hn : (forestIds nodes).Nodup) (s t : Node) (hs : s ∈ allNodes nodes)
    (ht : t ∈ allNodes nodes) (hst : s.id ≠ t.id) (hmain : s.id ≠ "main")
    (hout : t.id ∉ nodeIds s) :
    (forestIds (connectNodes env nodes s t)).Perm (forestIds nodes) ∧
    (forestIds (connectNodes env nodes s t)).Nodup ∧
    (∀ n ∈ connectNodes env nodes s t, n.id ≠ s.id) ∧
    (∀ e ∈ forestEntries none (connectNodes env nodes s t), e.id = s.id →
        e.parent = some t.id) ∧
    (∀ p ∈ allNodes (connectNodes env nodes s t), ∀ c ∈ p.children, c.id = s.id →
        p.id = t.id) ∧
    ({ t with children := removeNodeAndChildren s.id t.children ++
        [updateNodeAndChildrenColors s (newColorFor env t) (getNodeColor s)] } : Node)
      ∈ allNodes (connectNodes env nodes s t) ∧
    (forestEntries none (connectNodes env nodes s t)).filter
        (fun e => decide (e.id ∉ nodeIds s))
      = (forestEntries none nodes).filter (fun e => decide (e.id ∉ nodeIds s)) ∧
    (forestEntries none (connectNodes env nodes s t)).filter
        (fun e => decide (e.id ∈ nodeIds s))
      = nodeEntries (some t.id)
          (updateNodeAndChildrenColors s (newColorFor env t) (getNodeColor s)) ∧
    (nodeEntries (some t.id)
        (updateNodeAndChildrenColors s (newColorFor env t) (getNodeColor s))).map
        Entry.uncolored
      = (nodeEntries (some t.id) s).map Entry.uncolored := by
  obtain ⟨h1, h2, h3, h4, h5, h6, h7, h8⟩ :=
    connectNodes_valid_reparent env nodes hn s t hs ht hst hmain hout
  refine ⟨h1, h2, h3, h4, ?_, h5, h6, h7, h8⟩
  intro p hp c hc hcid
  obtain ⟨e, he, he1, he2⟩ := exists_entry_of_child _ none p c hp hc
  have := h4 e he (he1.trans hcid)
  rw [he2] at this
  exact Option.some.inj this

/-- C6 (witness): dropping `child-3` of the default forest on `subchild-1-2`. -/
theorem connectNodes_relocates_source_witness :
    (forestIds (connectNodes sampleEnv (initialGraph defaultStations)
        ⟨"child-3", "Child 3", "#FFCF25", "", [], false⟩
        ⟨"subchild-1-2", "Child Station 3", "#455EED", "", [], false⟩)).Perm
      (forestIds (initialGraph defaultStations)) ∧
    connectNodes sampleEnv (initialGraph defaultStations)
        ⟨"child-3", "Child 3", "#FFCF25", "", [], false⟩
        ⟨"subchild-1-2", "Child Station 3", "#455EED", "", [], false⟩
      = [⟨"main", "Main Station", "#e0e0e0", "",
          [⟨"child-1", "Child Station 1", "#455EED", "",
             [⟨"subchild-1-1", "Child Station 2", "#455EED", "", [], false⟩,
              ⟨"subchild-1-2", "Child Station 3", "#455EED", "",
                [⟨"child-3", "Child 3", "#455EED", "", [], false⟩], false⟩], false⟩,
           ⟨"child-2", "Child 2", "#F7AFE7", "",
             [⟨"subchild-2-1", "Subchild 2-1", "#F7AFE7", "", [], false⟩,
              ⟨"subchild-2-2", "Subchild 2-2", "#F7AFE7", "", [], false⟩], false⟩],
          false⟩] :=
  ⟨(connectNodes_relocates_source sampleEnv (initialGraph defaultStations) (by decide)
      ⟨"child-3", "Child 3", "#FFCF25", "", [], false⟩
      ⟨"subchild-1-2", "Child Station 3", "#455EED", "", [], false⟩
      (by decide) (by decide) (by decide) (by decide) (by decide)).1,
   by decide⟩

/-- What `connectNodes` does when the target lies in the subtree of the source (and the
source is not `main`): the target is gone once the source is removed, nothing is added,
and the source is lost with its subtree. -/
theorem connectNodes_onto_descendant_eq (env : ColorEnv) (nodes : List Node)
    (hn : (forestIds nodes).Nodup) (s t : Node) (hs : s ∈ allNodes nodes)
    (hst : s.id ≠ t.id) (hmain : s.id ≠ "main") (hin : t.id ∈ nodeIds s) :
    connectNodes env nodes s t = removeNodeAndChildren s.id nodes := by
  rw [connectNodes_eq env nodes s t hst hmain]
  exact addNodeToNewParent_of_not_mem env s t _
    (fun h => removeNodeAndChildren_apart s nodes hn hs _ h hin)

/-- The early `return` of `connectNodes`: a source with the id `main`, or with the id of
the target, leaves the forest as it is. -/
theorem connectNodes_early_return (env : ColorEnv) (nodes : List Node) (s t : Node)
    (h : s.id = t.id ∨ s.id = "main") : connectNodes env nodes s t = nodes := by
  unfold connectNodes
  rw [if_pos h]

/-! ## C7: the colours of the moved subtree -/

theorem getD_mod_mem (l : List String) (r : Nat) (h : l ≠ []) :
    l.getD (r % l.length) "" ∈ l := by
  have hpos : 0 < l.length := List.length_pos.2 h
  have hlt : r % l.length < l.length := Nat.mod_lt _ hpos
  rw [List.getD_eq_getElem _ _ hlt]
  exact List.getElem_mem _

/-- A colour returned by `getNextColor` for a non-empty palette is a palette colour, and
an unused one whenever an unused palette colour exists. -/
theorem getNextColor_mem (colorPalette usedColors : List String) (random : Nat)
    (h : colorPalette ≠ []) :
    getNextColor colorPalette usedColors random ∈ colorPalette ∧
    ((∃ c ∈ colorPalette, c ∉ usedColors) →
      getNextColor colorPalette usedColors random ∉ usedColors) := by
  unfold getNextColor
  simp only []
  split
  · next hav =>
    have hne : colorPalette.filter (fun color => !usedColors.contains color) ≠ [] :=
      List.length_pos.1 hav
    have hm := getD_mod_mem _ random hne
    rw [List.mem_filter] at hm
    exact ⟨hm.1, fun _ => by simpa using hm.2⟩
  · next hav =>
    refine ⟨getD_mod_mem _ random h, ?_⟩
    rintro ⟨c, hc, hcu⟩
    exfalso
    apply hav
    apply List.length_pos.2
    intro hnil
    have : c ∈ colorPalette.filter (fun color => !usedColors.contains color) := by
      rw [List.mem_filter]
      exact ⟨hc, by simpa using hcu⟩
    rw [hnil] at this
    simp at this

/-- C7 (counterexample): the target `x` has the empty colour, which is not the unassigned
colour `#e0e0e0`; the node `y` dropped on it does not get the colour of the target but
the fallback colour `#4a4a4a` of `getNodeColor`. -/
theorem connectNodes_blank_target_color :
    connectNodes sampleEnv blankTarget (leaf "y" "#455EED") (leaf "x" "")
      = [⟨"main", "Main", "#e0e0e0", "",
          [⟨"x", "x", "", "", [⟨"y", "y", "#4a4a4a", "", [], false⟩], false⟩], false⟩] ∧
    (leaf "x" "").color ≠ sampleEnv.accentColor ∧
    "#4a4a4a" ≠ (leaf "x" "").color := by
  decide

/-- C7 (amended): for a valid reparent of a source `s` onto a target `t` (unique ids, both
in the forest, different ids, `s` not `main`, `t` outside the subtree of `s`), let `C` be
the effective colour `getNodeColor t` of the target (its colour, or `#4a4a4a` when its
colour is empty) if that is not the accent colour the code compares with, and otherwise
the colour returned by `getNextColor` (a palette colour when the palette is not empty, and
one that is not among the used colours whenever the palette has such a colour).  In the
result the moved source has colour `C`, every descendant of the source whose colour was
the effective colour `getNodeColor s` of the source has colour `C`, and every other
descendant keeps its colour, also below a descendant that was not recoloured.  For
non-empty colours the effective colours are the colours themselves. -/
theorem connectNodes_recolors_moved_subtree (env : ColorEnv) (nodes : List Node)
    (hn : (forestIds nodes).Nodup) (s t : Node) (hs : s ∈ allNodes nodes)
    (ht : t ∈ allNodes nodes) (hst : s.id ≠ t.id) (hmain : s.id ≠ "main")
    (hout : t.id ∉ nodeIds s) :
    (forestEntries none (connectNodes env nodes s t)).filter
        (fun e => decide (e.id ∈ nodeIds s))
      = ⟨some t.id, s.id, s.name, newColorFor env t, s.notes, s.childrenHidden⟩ ::
          (forestEntries (some s.id) s.children).map
            (Entry.recolor (newColorFor env t) (getNodeColor s)) ∧
    (∀ e : Entry, (e.color = getNodeColor s →
          (Entry.recolor (newColorFor env t) (getNodeColor s) e).color = newColorFor env t) ∧
        (e.color ≠ getNodeColor s →
          (Entry.recolor (newColorFor env t) (getNodeColor s) e).color = e.color)) ∧
    (getNodeColor t ≠ env.accentColor → newColorFor env t = getNodeColor t) ∧
    (getNodeColor t = env.accentColor →
        newColorFor env t = getNextColor env.colorPalette env.usedColors env.random) ∧
    (env.colorPalette ≠ [] →
        getNextColor env.colorPalette env.usedColors env.random ∈ env.colorPalette) ∧
    ((∃ c ∈ env.colorPalette, c ∉ env.usedColors) →
        getNextColor env.colorPalette env.usedColors env.random ∈ env.colorPalette ∧
        getNextColor env.colorPalette env.usedColors env.random ∉ env.usedColors) ∧
    (t.color ≠ "" → getNodeColor t = t.color) ∧
    (t.color = "" → getNodeColor t = "#4a4a4a") ∧
    (s.color ≠ "" → getNodeColor s = s.color) ∧
    (s.color = "" → getNodeColor s = "#4a4a4a") := by
  refine ⟨?_, ?_, ?_, ?_, ?_, ?_, ?_, ?_, ?_, ?_⟩
  · rw [(connectNodes_valid_reparent env nodes hn s t hs ht hst hmain hout).2.2.2.2.2.2.1,
      nodeEntries_updateNodeAndChildrenColors]
  · intro e
    constructor
    · intro h
      simp [Entry.recolor, h]
    · intro h
      simp [Entry.recolor, h]
  · intro h
    simp [newColorFor, h]
  · intro h
    simp [newColorFor, h]
  · intro h
    exact (getNextColor_mem _ _ _ h).1
  · intro h
    have hne : env.colorPalette ≠ [] := by
      obtain ⟨c, hc, -⟩ := h
      exact List.ne_nil_of_mem hc
    exact ⟨(getNextColor_mem _ _ _ hne).1, (getNextColor_mem _ _ _ hne).2 h⟩
  · intro h
    simp [getNodeColor, h]
  · intro h
    simp [getNodeColor, h]
  · intro h
    simp [getNodeColor, h]
  · intro h
    simp [getNodeColor, h]

/-- C7 (witness): dropping `child-1` of the default forest, with its two children of the
same colour, on `child-2`; and, for the sample palette with no colour used yet, a colour
from `getNextColor` that is in the palette and not among the used colours. -/
theorem connectNodes_recolors_moved_subtree_witness :
    (forestEntries none (connectNodes sampleEnv (initialGraph defaultStations)
        ⟨"child-1", "Child Station 1", "#455EED", "",
          [⟨"subchild-1-1", "Child Station 2", "#455EED", "", [], false⟩,
           ⟨"subchild-1-2", "Child Station 3", "#455EED", "", [], false⟩], false⟩
        ⟨"child-2", "Child 2", "#F7AFE7", "",
          [⟨"subchild-2-1", "Subchild 2-1", "#F7AFE7", "", [], false⟩,
           ⟨"subchild-2-2", "Subchild 2-2", "#F7AFE7", "", [], false⟩], false⟩)).filter
        (fun e => decide (e.id ∈ ["child-1", "subchild-1-1", "subchild-1-2"]))
      = [⟨some "child-2", "child-1", "Child Station 1", "#F7AFE7", "", false⟩,
         ⟨some "child-1", "subchild-1-1", "Child Station 2", "#F7AFE7", "", false⟩,
         ⟨some "child-1", "subchild-1-2", "Child Station 3", "#F7AFE7", "", false⟩] ∧
    getNextColor sampleEnv.colorPalette sampleEnv.usedColors sampleEnv.random
      ∉ sampleEnv.usedColors :=
  ⟨(connectNodes_recolors_moved_subtree sampleEnv (initialGraph defaultStations) (by decide)
      ⟨"child-1", "Child Station 1", "#455EED", "",
        [⟨"subchild-1-1", "Child Station 2", "#455EED", "", [], false⟩,
         ⟨"subchild-1-2", "Child Station 3", "#455EED", "", [], false⟩], false⟩
      ⟨"child-2", "Child 2", "#F7AFE7", "",
          [⟨"subchild-2-1", "Subchild 2-1", "#F7AFE7", "", [], false⟩,
           ⟨"subchild-2-2", "Subchild 2-2", "#F7AFE7", "", [], false⟩], false⟩
      (by decide) (by decide) (by decide) (by decide) (by decide)).1,
   ((connectNodes_recolors_moved_subtree sampleEnv (initialGraph defaultStations) (by decide)
      ⟨"child-1", "Child Station 1", "#455EED", "",
        [⟨"subchild-1-1", "Child Station 2", "#455EED", "", [], false⟩,
         ⟨"subchild-1-2", "Child Station 3", "#455EED", "", [], false⟩], false⟩
      ⟨"child-2", "Child 2", "#F7AFE7", "",
          [⟨"subchild-2-1", "Subchild 2-1", "#F7AFE7", "", [], false⟩,
           ⟨"subchild-2-2", "Subchild 2-2", "#F7AFE7", "", [], false⟩], false⟩
      (by decide) (by decide) (by decide) (by decide) (by decide)).2.2.2.2.2.1
      ⟨"#455EED", by decide, by decide⟩).2⟩

/-! ## C11: which operations record a snapshot -/

/-- The steps of `GraphComponent` leave the history as it is: `updateGraph` is called
without the `significant` argument.  The steps that go on to call `updateHistory` end in
the `TypeError`; the toggle does not call it. -/
theorem graphComponent_steps_history (env : ColorEnv) (s : AppState) :
    (∀ nodeToRemove, (removeNodeStep s nodeToRemove).state.history = s.history ∧
        (removeNodeStep s nodeToRemove).threw = true) ∧
    (∀ now station, (addNodeStep env.accentColor s now station).state.history = s.history ∧
        (addNodeStep env.accentColor s now station).threw = true) ∧
    (∀ sourceNode targetNode,
        (connectNodesStep env s sourceNode targetNode).state.history = s.history) ∧
    (∀ node, (toggleChildrenVisibilityStep s node).history = s.history) := by
  refine ⟨?_, ?_, ?_, ?_⟩
  · intro n
    simp [removeNodeStep, updateGraph]
  · intro now station
    simp [addNodeStep, updateGraph]
  · intro a b
    unfold connectNodesStep
    split <;> simp [updateGraph]
  · intro n
    simp [toggleChildrenVisibilityStep, updateGraph]

/-- The function `updateHistory` of `App` records like `updateGraph` when it is given
`significant = true` and nothing without it. -/
theorem updateHistory_history (s : AppState) (newNodes : List Node) (significant : Bool) :
    (updateHistory s newNodes significant).history
      = (updateGraph s newNodes significant).history ∧
    (updateHistory s newNodes significant).nodes = s.nodes := by
  cases significant <;> simp [updateHistory, updateGraph]

/-- The steps of `App` that pass `significant`: a detach and an editor update of a field
other than `notes` append the new forest (and evict the oldest entry past 10); an editor
update of `notes` leaves the history as it is. -/
theorem app_steps_history (s : AppState) :
    (∀ nodeId, (handleDetachNode s nodeId).history
        = if (s.history ++ [detachNode nodeId s.nodes]).length > 10 then
            (s.history ++ [detachNode nodeId s.nodes]).drop 1
          else s.history ++ [detachNode nodeId s.nodes]) ∧
    (∀ id v, (editorCallback s id (.color v)).history
        = if (s.history ++ [editorUpdateNodeProperty s.nodes id (.color v)]).length > 10 then
            (s.history ++ [editorUpdateNodeProperty s.nodes id (.color v)]).drop 1
          else s.history ++ [editorUpdateNodeProperty s.nodes id (.color v)]) ∧
    (∀ id v, (editorCallback s id (.notes v)).history = s.history) := by
  refine ⟨?_, ?_, ?_⟩
  · intro nodeId
    simp [handleDetachNode, updateGraph]
  · intro id v
    simp [editorCallback, updateGraph, PropertyValue.isNotes]
  · intro id v
    simp [editorCallback, updateGraph, PropertyValue.isNotes]

/-- C11 (evaluation at the failing input): with the default forest as live forest and as
only history entry, `removeNode` of `child-3` changes the forest but appends no snapshot:
the history still has its one entry when the step ends, which it does in the `TypeError`
of the call of `updateHistory`.  A toggle of `child-1` from the same state changes the
forest and appends no snapshot either, without an error. -/
theorem removeNodeStep_appends_no_snapshot :
    (removeNodeStep ⟨initialGraph defaultStations, [initialGraph defaultStations]⟩
        (leaf "child-3" "#FFCF25")).state.nodes
      ≠ initialGraph defaultStations ∧
    (removeNodeStep ⟨initialGraph defaultStations, [initialGraph defaultStations]⟩
        (leaf "child-3" "#FFCF25")).state.history
      = [initialGraph defaultStations] ∧
    (removeNodeStep ⟨initialGraph defaultStations, [initialGraph defaultStations]⟩
        (leaf "child-3" "#FFCF25")).state.history.length ≠ 2 ∧
    (removeNodeStep ⟨initialGraph defaultStations, [initialGraph defaultStations]⟩
        (leaf "child-3" "#FFCF25")).threw = true ∧
    (toggleChildrenVisibilityStep ⟨initialGraph defaultStations, [initialGraph defaultStations]⟩
        ⟨"child-1", "Child Station 1", "#455EED", "",
          [⟨"subchild-1-1", "Child Station 2", "#455EED", "", [], false⟩,
           ⟨"subchild-1-2", "Child Station 3", "#455EED", "", [], false⟩], false⟩).nodes
      ≠ initialGraph defaultStations ∧
    (toggleChildrenVisibilityStep ⟨initialGraph defaultStations, [initialGraph defaultStations]⟩
        ⟨"child-1", "Child Station 1", "#455EED", "",
          [⟨"subchild-1-1", "Child Station 2", "#455EED", "", [], false⟩,
           ⟨"subchild-1-2", "Child Station 3", "#455EED", "", [], false⟩], false⟩).history
      = [initialGraph defaultStations] := by
  decide

/-! ## C14: the default forest -/

/-- C14 (counterexample): the default forest has 8 nodes, not 7, and its root has 3
children, not 2; the second child has two children of its own. -/
theorem initialGraph_default_has_eight_nodes :
    (allNodes (initialGraph defaultStations)).length = 8 ∧
    (allNodes (initialGraph defaultStations)).length ≠ 7 ∧
    (initialGraph defaultStations).map (fun n => n.children.length) = [3] ∧
    (initialGraph defaultStations).map
        (fun n => n.children.map (fun c => (c.id, c.children.length)))
      = [[("child-1", 2), ("child-2", 2), ("child-3", 0)]] := by
  decide

/-- C14 (amended): the forest built by `initialGraph`, from the default labels as from any
labels, consists of one root with id `main` that has exactly 3 children: `child-1` and
`child-2` with exactly 2 children each and `child-3` with none, for 8 nodes in total;
with the default labels the root is named `Main Station` and the first child and its two
children `Child Station 1`, `Child Station 2` and `Child Station 3`. -/
theorem initialGraph_shape (stations : List String) :
    (forestEntries none (initialGraph stations)).map (fun e => (e.parent, e.id))
      = [(none, "main"), (some "main", "child-1"), (some "child-1", "subchild-1-1"),
         (some "child-1", "subchild-1-2"), (some "main", "child-2"),
         (some "child-2", "subchild-2-1"), (some "child-2", "subchild-2-2"),
         (some "main", "child-3")] ∧
    (allNodes (initialGraph stations)).length = 8 ∧
    (forestEntries none (initialGraph defaultStations)).map (fun e => (e.id, e.name))
      = [("main", "Main Station"), ("child-1", "Child Station 1"),
         ("subchild-1-1", "Child Station 2"), ("subchild-1-2", "Child Station 3"),
         ("child-2", "Child 2"), ("subchild-2-1", "Subchild 2-1"),
         ("subchild-2-2", "Subchild 2-2"), ("child-3", "Child 3")] := by
  refine ⟨?_, ?_, by decide⟩
  · simp [initialGraph]
  · simp [initialGraph]

/-! ## C15: the property update of the editor -/

/-- C15 (evaluation at the failing input): the callback given to the editor, asked to
rename the nested node `child-1` of the default forest, returns the forest unchanged; the
recursive `updateNodes` of `App.updateNodeProperty` does rename it. -/
theorem editorUpdateNodeProperty_nested_unchanged :
    editorUpdateNodeProperty (initialGraph defaultStations) "child-1" (.name "Depot")
      = initialGraph defaultStations ∧
    (forestEntries none
        (editorUpdateNodeProperty (initialGraph defaultStations) "child-1"
          (.name "Depot"))).map (fun e => (e.id, e.name))
      ≠ (forestEntries none
        (updateNodes "child-1" (.name "Depot") (initialGraph defaultStations))).map
          (fun e => (e.id, e.name)) ∧
    ("child-1", "Depot") ∈ (forestEntries none
        (updateNodes "child-1" (.name "Depot") (initialGraph defaultStations))).map
          (fun e => (e.id, e.name)) := by
  decide

/-! ## C17: operations on an id that does not occur -/

theorem toggleHidden_of_not_mem (tid : String) :
    ∀ l : List Node, tid ∉ forestIds l → toggleHidden tid l = l := by
  apply forest_induction
  · simp
  · intro n rest ih1 ih2 h
    simp only [forestIds_cons, List.mem_cons, List.mem_append, not_or] at h
    rw [toggleHidden_cons, toggleHiddenNode_eq, if_neg (fun e => h.1 e.symm), ih1 h.2.1,
      ih2 h.2.2, Node.mk_eta]

theorem no_child_of_not_mem (nodeId : String) (l : List Node) (h : nodeId ∉ forestIds l) :
    ∀ p ∈ l, ∀ c ∈ p.children, c.id ≠ nodeId := by
  intro p hp c hc hce
  apply h
  rw [mem_forestIds_iff]
  refine ⟨c, ?_, hce⟩
  apply (allNodes_sublist_of_mem_allNodes l p (mem_allNodes_of_mem _ _ hp)).subset
  rw [nodeAll_eq]
  exact List.mem_cons_of_mem _ (mem_allNodes_of_mem _ _ hc)

theorem nodeToDetach_of_no_child (nodeId : String) (l : List Node)
    (h : ∀ p ∈ l, ∀ c ∈ p.children, c.id ≠ nodeId) : nodeToDetach nodeId l = none := by
  unfold nodeToDetach
  rw [List.getLast?_eq_none_iff, List.flatten_eq_nil_iff]
  intro cs hcs
  rw [List.mem_map] at hcs
  obtain ⟨p, hp, rfl⟩ := hcs
  rw [List.filter_eq_nil_iff]
  intro c hc
  simpa using h p hp c hc

theorem detachNode_of_not_mem (nodeId : String) (l : List Node)
    (h : nodeId ∉ forestIds l) : detachNode nodeId l = l := by
  have hc := no_child_of_not_mem nodeId l h
  unfold detachNode
  rw [nodeToDetach_of_no_child nodeId l hc]
  exact detach_map_of_no_child nodeId l hc

/-- What `connectNodes` does for a source of the forest and a target whose id does not
occur: the source is removed and added nowhere. -/
theorem connectNodes_missing_target_eq (env : ColorEnv) (nodes : List Node) (s t : Node)
    (hmain : s.id ≠ "main") (hs : s.id ∈ forestIds nodes) (ht : t.id ∉ forestIds nodes) :
    connectNodes env nodes s t = removeNodeAndChildren s.id nodes := by
  have hst : s.id ≠ t.id := fun e => ht (e ▸ hs)
  rw [connectNodes_eq env nodes s t hst hmain]
  exact addNodeToNewParent_of_not_mem env s t _
    (fun h => ht ((forestIds_removeNodeAndChildren_sublist s.id nodes).subset h))

/-- C17 (counterexample): `connectNodes` is given the node `child-3` of the default
forest as source and a node whose id `ghost` does not occur in the forest as target.  The
result is not the forest as it was: `child-3` is removed.  (The drag handler, the one
caller of `connectNodes`, takes the target from the rendered forest; the evaluation is of
the function.) -/
theorem connectNodes_missing_target_loses_source :
    connectNodes sampleEnv (initialGraph defaultStations)
        ⟨"child-3", "Child 3", "#FFCF25", "", [], false⟩ (leaf "ghost" "#455EED")
      = [⟨"main", "Main Station", "#e0e0e0", "",
          [⟨"child-1", "Child Station 1", "#455EED", "",
             [⟨"subchild-1-1", "Child Station 2", "#455EED", "", [], false⟩,
              ⟨"subchild-1-2", "Child Station 3", "#455EED", "", [], false⟩], false⟩,
           ⟨"child-2", "Child 2", "#F7AFE7", "",
             [⟨"subchild-2-1", "Subchild 2-1", "#F7AFE7", "", [], false⟩,
              ⟨"subchild-2-2", "Subchild 2-2", "#F7AFE7", "", [], false⟩], false⟩],
          false⟩] ∧
    "ghost" ∉ forestIds (initialGraph defaultStations) ∧
    connectNodes sampleEnv (initialGraph defaultStations)
        ⟨"child-3", "Child 3", "#FFCF25", "", [], false⟩ (leaf "ghost" "#455EED")
      ≠ initialGraph defaultStations := by
  decide

/-- C17 (amended): for every forest and every node whose id does not occur in it,
`removeNode`, the detach and the toggle of that node return the forest as it is;
`connectNodes` with a source of the forest other than `main` and that node as target
does not: it returns the forest without the source and its subtree, so the id of the
source no longer occurs and the result differs from the input. -/
theorem not_found_noop_except_connectNodes (env : ColorEnv) (nodes : List Node)
    (node : Node) (h : node.id ∉ forestIds nodes) :
    removeNode nodes node = nodes ∧ detachNode node.id nodes = nodes ∧
    toggleChildrenVisibility nodes node = nodes ∧
    (∀ s : Node, s.id ≠ "main" → s.id ∈ forestIds nodes →
      connectNodes env nodes s node = removeNodeAndChildren s.id nodes ∧
      s.id ∉ forestIds (connectNodes env nodes s node) ∧
      connectNodes env nodes s node ≠ nodes) := by
  refine ⟨removeNodeAndChildren_of_not_mem _ nodes h, detachNode_of_not_mem _ nodes h,
    toggleHidden_of_not_mem _ nodes h, ?_⟩
  intro s hmain hs
  have e := connectNodes_missing_target_eq env nodes s node hmain hs h
  have hn : s.id ∉ forestIds (connectNodes env nodes s node) := by
    rw [e]
    exact not_mem_forestIds_removeNodeAndChildren s.id nodes
  exact ⟨e, hn, fun heq => hn (heq.symm ▸ hs)⟩

/-- C17 (witness): the default forest and a node with the id `ghost`: remove, detach and
toggle return the default forest, and `connectNodes` with `child-1` as source returns the
forest without `child-1` and its two children. -/
theorem not_found_noop_except_connectNodes_witness :
    "ghost" ∉ forestIds (initialGraph defaultStations) ∧
    removeNode (initialGraph defaultStations) (leaf "ghost" "#455EED")
      = initialGraph defaultStations ∧
    detachNode "ghost" (initialGraph defaultStations) = initialGraph defaultStations ∧
    toggleChildrenVisibility (initialGraph defaultStations) (leaf "ghost" "#455EED")
      = initialGraph defaultStations ∧
    forestIds (connectNodes sampleEnv (initialGraph defaultStations)
        ⟨"child-1", "Child Station 1", "#455EED", "",
          [⟨"subchild-1-1", "Child Station 2", "#455EED", "", [], false⟩,
           ⟨"subchild-1-2", "Child Station 3", "#455EED", "", [], false⟩], false⟩
        (leaf "ghost" "#455EED"))
      = ["main", "child-2", "subchild-2-1", "subchild-2-2", "child-3"] :=
  ⟨by decide,
    (not_found_noop_except_connectNodes sampleEnv (initialGraph defaultStations)
      (leaf "ghost" "#455EED") (by decide)).1,
    (not_found_noop_except_connectNodes sampleEnv (initialGraph defaultStations)
      (leaf "ghost" "#455EED") (by decide)).2.1,
    (not_found_noop_except_connectNodes sampleEnv (initialGraph defaultStations)
      (leaf "ghost" "#455EED") (by decide)).2.2.1,
    by decide⟩

/-! ## Rounding is monotone and idempotent -/

theorem roundNearestEven_mono (d : Nat) (hd : 0 < d) {n m : Nat} (h : n ≤ m) :
    roundNearestEven n d ≤ roundNearestEven m d := by
  have hq : n / d ≤ m / d := Nat.div_le_div_right h
  have e1 := Nat.div_add_mod n d
  have e2 := Nat.div_add_mod m d
  have r1 := Nat.mod_lt n hd
  have r2 := Nat.mod_lt m hd
  unfold roundNearestEven
  rcases Nat.lt_or_ge (n / d) (m / d) with hlt | hge
  · split <;> split <;> omega
  · have hqq : n / d = m / d := le_antisymm hq hge
    rw [hqq] at e1 ⊢
    have hr : n % d ≤ m % d := by omega
    split <;> split <;> omega

theorem roundNearestEven_ge (n d : Nat) : n / d ≤ roundNearestEven n d := by
  unfold roundNearestEven
  split <;> omega

theorem roundNearestEven_le (n d : Nat) : roundNearestEven n d ≤ n / d + 1 := by
  unfold roundNearestEven
  split <;> omega

theorem exponentFrom_spec (q : Nat) :
    ∀ fuel e : Nat, (∀ k, k < e → 2 ^ (53 + k) ≤ q) → q < 2 ^ (53 + e + fuel) →
      q < 2 ^ (53 + exponentFrom q fuel e) ∧
      ∀ k, k < exponentFrom q fuel e → 2 ^ (53 + k) ≤ q := by
  intro fuel
  induction fuel with
  | zero =>
    intro e h1 h2
    exact ⟨by simpa [exponentFrom] using h2, by simpa [exponentFrom] using h1⟩
  | succ fuel ih =>
    intro e h1 h2
    unfold exponentFrom
    split
    · rename_i h
      exact ⟨h, h1⟩
    · rename_i h
      apply ih (e + 1)
      · intro k hk
        rcases Nat.lt_succ_iff_lt_or_eq.1 hk with hk | rfl
        · exact h1 k hk
        · exact Nat.le_of_not_lt h
      · have : 53 + (e + 1) + fuel = 53 + e + (fuel + 1) := by omega
        rw [this]
        exact h2

/-- The exponent chosen by `roundNat`: the least `e` with `q < 2 ^ (53 + e)`. -/
theorem exponent_spec (q : Nat) :
    q < 2 ^ (53 + exponentFrom q q 0) ∧ ∀ k, k < exponentFrom q q 0 → 2 ^ (53 + k) ≤ q := by
  apply exponentFrom_spec q q 0
  · intro k hk
    omega
  · calc q < 2 ^ q := Nat.lt_two_pow q
      _ ≤ 2 ^ (53 + 0 + q) := Nat.pow_le_pow_right (by decide) (by omega)

theorem exponent_mono {q p : Nat} (h : q ≤ p) : exponentFrom q q 0 ≤ exponentFrom p p 0 := by
  by_contra hc
  push_neg at hc
  have h1 := (exponent_spec q).2 _ hc
  have h2 := (exponent_spec p).1
  omega

theorem roundNat_mono (d : Nat) (hd : 0 < d) {n m : Nat} (h : n ≤ m) :
    roundNat n d ≤ roundNat m d := by
  have hq : n / d ≤ m / d := Nat.div_le_div_right h
  have he := exponent_mono hq
  unfold roundNat
  simp only
  generalize hr : exponentFrom (n / d) (n / d) 0 = r at he
  generalize hs : exponentFrom (m / d) (m / d) 0 = s at he
  rcases Nat.lt_or_ge r s with hlt | hge
  · have h1 : n / d < 2 ^ (53 + r) := hr ▸ (exponent_spec (n / d)).1
    have h2 : 2 ^ (53 + (s - 1)) ≤ m / d := (exponent_spec (m / d)).2 (s - 1) (by omega)
    have hdr : 0 < d * 2 ^ r := Nat.mul_pos hd (Nat.two_pow_pos _)
    have hds : 0 < d * 2 ^ s := Nat.mul_pos hd (Nat.two_pow_pos _)
    have a1 : roundNearestEven n (d * 2 ^ r) ≤ 2 ^ 53 := by
      have : n / (d * 2 ^ r) < 2 ^ 53 := by
        rw [← Nat.div_div_eq_div_mul, Nat.div_lt_iff_lt_mul (Nat.two_pow_pos _)]
        calc n / d < 2 ^ (53 + r) := h1
          _ = 2 ^ 53 * 2 ^ r := by rw [pow_add]
      have := roundNearestEven_le n (d * 2 ^ r)
      omega
    have a2 : 2 ^ 52 ≤ roundNearestEven m (d * 2 ^ s) := by
      have : 2 ^ 52 ≤ m / (d * 2 ^ s) := by
        rw [← Nat.div_div_eq_div_mul, Nat.le_div_iff_mul_le (Nat.two_pow_pos _)]
        calc 2 ^ 52 * 2 ^ s = 2 ^ (53 + (s - 1)) := by
              rw [← pow_add]
              congr 1
              omega
          _ ≤ m / d := h2
      exact le_trans this (roundNearestEven_ge _ _)
    calc roundNearestEven n (d * 2 ^ r) * 2 ^ r ≤ 2 ^ 53 * 2 ^ r := Nat.mul_le_mul_right _ a1
      _ = 2 ^ 52 * 2 ^ (r + 1) := by rw [pow_succ]; ring
      _ ≤ 2 ^ 52 * 2 ^ s :=
          Nat.mul_le_mul_left _ (Nat.pow_le_pow_right (by decide) (by omega))
      _ ≤ roundNearestEven m (d * 2 ^ s) * 2 ^ s := Nat.mul_le_mul_right _ a2
  · have : r = s := le_antisymm he hge
    subst this
    exact Nat.mul_le_mul_right _
      (roundNearestEven_mono _ (Nat.mul_pos hd (Nat.two_pow_pos _)) h)

theorem exponent_le_of_lt {q k : Nat} (h : q < 2 ^ (53 + k)) : exponentFrom q q 0 ≤ k := by
  by_contra hc
  push_neg at hc
  have := (exponent_spec q).2 k hc
  omega

/-- A number of units that its own exponent divides is left as it is by the rounding. -/
theorem roundNat_of_dvd (q : Nat) (h : 2 ^ exponentFrom q q 0 ∣ q) : roundNat q 1 = q := by
  unfold roundNat
  simp only [Nat.div_one, one_mul]
  generalize exponentFrom q q 0 = e at h
  obtain ⟨j, rfl⟩ := h
  have hp : 0 < 2 ^ e := Nat.two_pow_pos e
  unfold roundNearestEven
  rw [Nat.mul_mod_right, Nat.mul_div_cancel_left _ hp, if_neg (by omega), Nat.mul_comm]

/-- The significand that `roundNat` returns has at most 53 bits, or is `2 ^ 53`. -/
theorem roundNat_significand_le (n d : Nat) :
    roundNearestEven n (d * 2 ^ exponentFrom (n / d) (n / d) 0) ≤ 2 ^ 53 := by
  have h1 := (exponent_spec (n / d)).1
  generalize exponentFrom (n / d) (n / d) 0 = r at h1
  have : n / (d * 2 ^ r) < 2 ^ 53 := by
    rw [← Nat.div_div_eq_div_mul, Nat.div_lt_iff_lt_mul (Nat.two_pow_pos _)]
    calc n / d < 2 ^ (53 + r) := h1
      _ = 2 ^ 53 * 2 ^ r := by rw [pow_add]
  have := roundNearestEven_le n (d * 2 ^ r)
  omega

/-- Rounding returns a number that rounding leaves as it is: the results are doubles. -/
theorem roundNat_idem (n d : Nat) : roundNat (roundNat n d) 1 = roundNat n d := by
  apply roundNat_of_dvd
  have hJ := roundNat_significand_le n d
  unfold roundNat
  simp only
  generalize exponentFrom (n / d) (n / d) 0 = e at hJ ⊢
  generalize roundNearestEven n (d * 2 ^ e) = J at hJ ⊢
  rcases Nat.lt_or_ge J (2 ^ 53) with hlt | hge
  · have hq : J * 2 ^ e < 2 ^ (53 + e) := by
      rw [pow_add]
      exact Nat.mul_lt_mul_of_pos_right hlt (Nat.two_pow_pos e)
    exact Dvd.dvd.mul_left (Nat.pow_dvd_pow 2 (exponent_le_of_lt hq)) J
  · have hJ' : J = 2 ^ 53 := le_antisymm hJ hge
    subst hJ'
    have hq : 2 ^ 53 * 2 ^ e < 2 ^ (53 + (e + 1)) := by
      rw [← pow_add]
      exact Nat.pow_lt_pow_right (by decide) (by omega)
    rw [← pow_add]
    rw [← pow_add] at hq
    exact Nat.pow_dvd_pow 2 (le_trans (exponent_le_of_lt hq) (by omega))

/-! ## Order lemmas for doubles -/

theorem Double.ofExact_ne_nan (n : Int) (d : Nat) : Double.ofExact n d ≠ .nan := by
  unfold Double.ofExact
  split_ifs <;> simp

theorem Double.ofExact_le_ofExact (d : Nat) (hd : 0 < d) {n m : Int} (h : n ≤ m) :
    (Double.ofExact n d).le (Double.ofExact m d) = true := by
  unfold Double.ofExact
  by_cases hn : 0 ≤ n
  · have hm : 0 ≤ m := le_trans hn h
    have hr : roundNat n.natAbs d ≤ roundNat m.natAbs d := roundNat_mono d hd (by omega)
    have hn' : ¬ n < 0 := by omega
    have hm' : ¬ m < 0 := by omega
    simp only [hn, hm, hn', hm', if_true, decide_False]
    split_ifs <;> simp [Double.le]
    all_goals omega
  · have hn' : n < 0 := by omega
    simp only [hn, hn', if_false, decide_True]
    by_cases hm : 0 ≤ m
    · have hm' : ¬ m < 0 := by omega
      simp only [hm, hm', if_true, decide_False]
      split_ifs <;> simp [Double.le]
      omega
    · have hm' : m < 0 := by omega
      have hr : roundNat m.natAbs d ≤ roundNat n.natAbs d := roundNat_mono d hd (by omega)
      simp only [hm, hm', if_false, decide_True]
      split_ifs <;> simp [Double.le] <;> omega

/-- A finite result of an operation is a double: rounding it again returns it. -/
theorem Double.ofExact_isDouble (n : Int) (d : Nat) (k : Int)
    (h : Double.ofExact n d = .fin k) : Double.ofExact k 1 = .fin k := by
  unfold Double.ofExact at h
  have hi := roundNat_idem n.natAbs d
  split_ifs at h with h1 h2
  · simp only [Double.fin.injEq] at h
    subst h
    unfold Double.ofExact
    simp only [Int.natAbs_ofNat, hi]
    rw [if_neg h1, if_pos (Int.ofNat_nonneg _)]
  · simp only [Double.fin.injEq] at h
    subst h
    unfold Double.ofExact
    simp only [Int.natAbs_neg, Int.natAbs_ofNat, hi]
    rw [if_neg h1]
    split_ifs with h3
    · have : (roundNat n.natAbs d : Int) = 0 := by omega
      rw [this]
      rfl
    · rfl

theorem Double.le_posInf_of_ne_nan {x : Double} (h : x ≠ .nan) :
    x.le (.inf false) = true := by
  cases x <;> simp [Double.le] at h ⊢

theorem Double.negInf_le_of_ne_nan {x : Double} (h : x ≠ .nan) :
    (Double.inf true).le x = true := by
  cases x <;> simp [Double.le] at h ⊢

/-- Addition of a finite number is monotone. -/
theorem Double.add_le_add_left (a : Int) {y z : Double} (h : y.le z = true) :
    ((Double.fin a).add y).le ((Double.fin a).add z) = true := by
  cases y with
  | nan => simp [Double.le] at h
  | fin b =>
    cases z with
    | nan => simp [Double.le] at h
    | fin c =>
      simp only [Double.le, decide_eq_true_eq] at h
      exact Double.ofExact_le_ofExact 1 (by decide) (by simpa using h)
    | inf t =>
      simp only [Double.le, Bool.not_eq_true'] at h
      subst h
      exact Double.le_posInf_of_ne_nan (Double.ofExact_ne_nan _ _)
  | inf s =>
    cases z with
    | nan => simp [Double.le] at h
    | fin c =>
      simp only [Double.le] at h
      subst h
      exact Double.negInf_le_of_ne_nan (Double.ofExact_ne_nan _ _)
    | inf t => simpa [Double.add, Double.le] using h

theorem Double.neg_le_neg {y z : Double} (h : y.le z = true) : z.neg.le y.neg = true := by
  cases y <;> cases z <;> simp [Double.le, Double.neg] at h ⊢
  · omega
  · exact h
  · exact h
  · rcases h with h | h <;> simp [h]

/-- Subtraction from a finite number is antitone. -/
theorem Double.sub_le_sub_left (a : Int) {y z : Double} (h : y.le z = true) :
    ((Double.fin a).sub z).le ((Double.fin a).sub y) = true :=
  Double.add_le_add_left a (Double.neg_le_neg h)

theorem Double.neg_neg (x : Double) : x.neg.neg = x := by
  cases x <;> simp [Double.neg]

theorem Double.ten_eq : Double.ofDecimal 10 0 = .fin (10 * (Double.one : Int)) := by
  decide!

/-! ## C16, C18: the geometry of a link path -/

theorem Double.one_pos : (0 : Int) < (Double.one : Int) := by
  unfold Double.one
  positivity

theorem Double.min_of_ne_nan {x y : Double} (hx : x ≠ .nan) (hy : y ≠ .nan) :
    x.min y = if y.lt x then y else x := by
  cases x <;> cases y <;> simp [Double.min] at hx hy ⊢

theorem Double.abs_ne_nan {x : Double} (hx : x ≠ .nan) : x.abs ≠ .nan := by
  cases x <;> simp [Double.abs] at hx ⊢

/-- A number that is not `NaN` and whose absolute value is not below 10 is positive or
negative. -/
theorem Double.sign_of_abs_ge_ten {x : Double} (hx : x ≠ .nan)
    (h : x.abs.lt (Double.ofDecimal 10 0) = false) :
    ((Double.fin 0).lt x = true ∧ x.lt (Double.fin 0) = false ∧ x.abs = x) ∨
    ((Double.fin 0).lt x = false ∧ x.lt (Double.fin 0) = true ∧ x.abs = x.neg) := by
  rw [Double.ten_eq] at h
  have h1 := Double.one_pos
  cases x with
  | nan => exact absurd rfl hx
  | inf s => cases s <;> simp [Double.lt, Double.abs, Double.neg]
  | fin k =>
    simp only [Double.abs, Double.lt, decide_eq_false_iff_not, not_lt] at h
    simp only [Double.lt, Double.abs, Double.neg, decide_eq_true_eq, decide_eq_false_iff_not,
      Double.fin.injEq]
    omega

theorem Point.eq_of_isFinite {p : Point} (h : p.isFinite = true) :
    ∃ a b : Int, p = ⟨.fin a, .fin b⟩ := by
  obtain ⟨x, y⟩ := p
  cases x <;> cases y <;> simp [Point.isFinite, Double.isFinite] at h ⊢

theorem dx_ne_nan {source target : Point} (hs : source.isFinite = true)
    (ht : target.isFinite = true) : dx source target ≠ .nan := by
  obtain ⟨a, b, rfl⟩ := Point.eq_of_isFinite hs
  obtain ⟨c, d, rfl⟩ := Point.eq_of_isFinite ht
  show Double.ofExact (c + -a) 1 ≠ .nan
  exact Double.ofExact_ne_nan _ _

theorem dy_ne_nan {source target : Point} (hs : source.isFinite = true)
    (ht : target.isFinite = true) : dy source target ≠ .nan := by
  obtain ⟨a, b, rfl⟩ := Point.eq_of_isFinite hs
  obtain ⟨c, d, rfl⟩ := Point.eq_of_isFinite ht
  show Double.ofExact (d + -b) 1 ≠ .nan
  exact Double.ofExact_ne_nan _ _

/-- The first bend is the source moved by `min(absDx, absDy)` on both axes, each in the
direction of the target. -/
theorem firstBend_eq (source target : Point) (hs : source.isFinite = true)
    (ht : target.isFinite = true)
    (hx : (absDx source target).lt (Double.ofDecimal 10 0) = false)
    (hy : (absDy source target).lt (Double.ofDecimal 10 0) = false) :
    firstBend source target
      = ⟨if (Double.fin 0).lt (dx source target) then
            source.x.add ((absDx source target).min (absDy source target))
          else source.x.sub ((absDx source target).min (absDy source target)),
         if (Double.fin 0).lt (dy source target) then
            source.y.add ((absDx source target).min (absDy source target))
          else source.y.sub ((absDx source target).min (absDy source target))⟩ := by
  rcases Double.sign_of_abs_ge_ten (dx_ne_nan hs ht) hx with ⟨p1, n1, -⟩ | ⟨p1, n1, -⟩ <;>
    rcases Double.sign_of_abs_ge_ten (dy_ne_nan hs ht) hy with ⟨p2, n2, -⟩ | ⟨p2, n2, -⟩ <;>
    simp [firstBend, p1, n1, p2, n2]

theorem firstBend_x_cases (source target : Point) :
    (firstBend source target).x
        = source.x.add ((absDx source target).min (absDy source target)) ∨
      (firstBend source target).x
        = source.x.sub ((absDx source target).min (absDy source target)) := by
  unfold firstBend
  simp only
  split_ifs <;> simp

theorem le_ne_nan {x y : Double} (h : x.le y = true) : x ≠ .nan ∧ y ≠ .nan := by
  cases x <;> cases y <;> simp [Double.le] at h ⊢

/-- The test of the code succeeds when `min(absDx, absDy)` lies between the computed 20%
and 80% of `max(absDx, absDy)`. -/
theorem singleBend_of_between (source target : Point) (hs : source.isFinite = true)
    (h1 : (((absDx source target).max (absDy source target)).mul (Double.ofDecimal 2 1)).le
      ((absDx source target).min (absDy source target)) = true)
    (h2 : ((absDx source target).min (absDy source target)).le
      (((absDx source target).max (absDy source target)).mul (Double.ofDecimal 8 1)) = true) :
    singleBend source target = true := by
  obtain ⟨a, b, rfl⟩ := Point.eq_of_isFinite hs
  unfold singleBend
  simp only [Bool.or_eq_true, Bool.and_eq_true]
  rcases firstBend_x_cases ⟨.fin a, .fin b⟩ target with e | e
  · left
    rw [e]
    exact ⟨Double.add_le_add_left a h1, Double.add_le_add_left a h2⟩
  · right
    rw [e]
    exact ⟨Double.sub_le_sub_left a h1, Double.sub_le_sub_left a h2⟩

/-- C16 (counterexample): the source `(77, 164.5)` and the target `(12.6, 84)`.  Both
offsets are at least 10 and, in exact arithmetic on these coordinates, the smaller offset
is above 80% of the larger one (`5 * min > 4 * max`, for the exact differences as for the
computed `absDx` and `absDy`); yet the test of the code, which compares rounded sums,
succeeds and the path has one bend. -/
theorem calculateLinkPath_single_bend_above_80_percent :
    (pointOfDecimal 77 0 1645 1).isFinite = true ∧
    (pointOfDecimal 126 1 84 0).isFinite = true ∧
    (absDx (pointOfDecimal 77 0 1645 1) (pointOfDecimal 126 1 84 0)).lt
        (Double.ofDecimal 10 0) = false ∧
    (absDy (pointOfDecimal 77 0 1645 1) (pointOfDecimal 126 1 84 0)).lt
        (Double.ofDecimal 10 0) = false ∧
    4 * Max.max
          ((pointOfDecimal 126 1 84 0).x.units - (pointOfDecimal 77 0 1645 1).x.units).natAbs
          ((pointOfDecimal 126 1 84 0).y.units - (pointOfDecimal 77 0 1645 1).y.units).natAbs
      < 5 * Min.min
          ((pointOfDecimal 126 1 84 0).x.units - (pointOfDecimal 77 0 1645 1).x.units).natAbs
          ((pointOfDecimal 126 1 84 0).y.units - (pointOfDecimal 77 0 1645 1).y.units).natAbs ∧
    4 * Max.max (absDx (pointOfDecimal 77 0 1645 1) (pointOfDecimal 126 1 84 0)).units
          (absDy (pointOfDecimal 77 0 1645 1) (pointOfDecimal 126 1 84 0)).units
      < 5 * Min.min (absDx (pointOfDecimal 77 0 1645 1) (pointOfDecimal 126 1 84 0)).units
          (absDy (pointOfDecimal 77 0 1645 1) (pointOfDecimal 126 1 84 0)).units ∧
    calculateLinkPath (pointOfDecimal 77 0 1645 1) (pointOfDecimal 126 1 84 0)
      = [pointOfDecimal 77 0 1645 1, pointOfDecimal 12599999999999994 15 1001 1,
         pointOfDecimal 126 1 84 0] := by
  decide!

/-- C16 (amended): for finite source and target positions, with all values computed in
double arithmetic as the code computes them: if `absDx < 10` or `absDy < 10`,
`calculateLinkPath` produces the straight segment from source to target; otherwise `dx`
and `dy` are positive or negative, the first bend is the source moved on both axes by
`min(absDx, absDy)` in the direction of the target (a rounded sum or difference), and the
path is the path with this one bend exactly when the comparison of the code between the
rounded sums succeeds (`singleBend`), and the path through the first and the second bend
otherwise.  The comparison succeeds whenever `min(absDx, absDy)` lies between the
computed products `max(absDx, absDy) * 0.2` and `max(absDx, absDy) * 0.8`, both
included. -/
theorem calculateLinkPath_shape (source target : Point) (hs : source.isFinite = true)
    (ht : target.isFinite = true) :
    (((absDx source target).lt (Double.ofDecimal 10 0) = true ∨
        (absDy source target).lt (Double.ofDecimal 10 0) = true) →
      calculateLinkPath source target = [source, target]) ∧
    ((absDx source target).lt (Double.ofDecimal 10 0) = false →
      (absDy source target).lt (Double.ofDecimal 10 0) = false →
      ((Double.fin 0).lt (dx source target) ≠ (dx source target).lt (Double.fin 0)) ∧
      ((Double.fin 0).lt (dy source target) ≠ (dy source target).lt (Double.fin 0)) ∧
      (firstBend source target).x
        = (if (Double.fin 0).lt (dx source target) then
            source.x.add ((absDx source target).min (absDy source target))
          else source.x.sub ((absDx source target).min (absDy source target))) ∧
      (firstBend source target).y
        = (if (Double.fin 0).lt (dy source target) then
            source.y.add ((absDx source target).min (absDy source target))
          else source.y.sub ((absDx source target).min (absDy source target))) ∧
      (singleBend source target = true →
        calculateLinkPath source target = [source, firstBend source target, target]) ∧
      (singleBend source target = false →
        calculateLinkPath source target
          = [source, firstBend source target, secondBend source target, target]) ∧
      ((((absDx source target).max (absDy source target)).mul (Double.ofDecimal 2 1)).le
            ((absDx source target).min (absDy source target)) = true →
        ((absDx source target).min (absDy source target)).le
            (((absDx source target).max (absDy source target)).mul (Double.ofDecimal 8 1))
          = true →
        calculateLinkPath source target = [source, firstBend source target, target])) := by
  refine ⟨?_, ?_⟩
  · intro h
    have : ((absDx source target).lt (Double.ofDecimal 10 0) ||
        (absDy source target).lt (Double.ofDecimal 10 0)) = true := by
      rcases h with h | h <;> simp [h]
    simp only [calculateLinkPath, this, if_true]
  · intro hx hy
    have hpath : calculateLinkPath source target
        = if singleBend source target then [source, firstBend source target, target]
          else [source, firstBend source target, secondBend source target, target] := by
      simp [calculateLinkPath, hx, hy]
    refine ⟨?_, ?_, ?_, ?_, ?_, ?_, ?_⟩
    · rcases Double.sign_of_abs_ge_ten (dx_ne_nan hs ht) hx with ⟨p, n, -⟩ | ⟨p, n, -⟩ <;>
        simp [p, n]
    · rcases Double.sign_of_abs_ge_ten (dy_ne_nan hs ht) hy with ⟨p, n, -⟩ | ⟨p, n, -⟩ <;>
        simp [p, n]
    · rw [firstBend_eq source target hs ht hx hy]
    · rw [firstBend_eq source target hs ht hx hy]
    · intro h
      rw [hpath, if_pos h]
    · intro h
      rw [hpath, h]
      simp
    · intro h1 h2
      rw [hpath, if_pos (singleBend_of_between source target hs h1 h2)]

/-- C16 (witness): the source `(0, 0)` and the target `(100, 50)`: the smaller offset is
half of the larger one and the path has one bend, at `(50, 50)`. -/
theorem calculateLinkPath_shape_witness :
    (pointOfDecimal 0 0 0 0).isFinite = true ∧ (pointOfDecimal 100 0 50 0).isFinite = true ∧
    (absDx (pointOfDecimal 0 0 0 0) (pointOfDecimal 100 0 50 0)).lt (Double.ofDecimal 10 0)
      = false ∧
    (absDy (pointOfDecimal 0 0 0 0) (pointOfDecimal 100 0 50 0)).lt (Double.ofDecimal 10 0)
      = false ∧
    firstBend (pointOfDecimal 0 0 0 0) (pointOfDecimal 100 0 50 0) = pointOfDecimal 50 0 50 0 ∧
    calculateLinkPath (pointOfDecimal 0 0 0 0) (pointOfDecimal 100 0 50 0)
      = [pointOfDecimal 0 0 0 0,
         firstBend (pointOfDecimal 0 0 0 0) (pointOfDecimal 100 0 50 0),
         pointOfDecimal 100 0 50 0] :=
  ⟨by decide!, by decide!, by decide!, by decide!, by decide!,
    (calculateLinkPath_shape (pointOfDecimal 0 0 0 0) (pointOfDecimal 100 0 50 0)
      (by decide!) (by decide!)).2 (by decide!) (by decide!) |>.2.2.2.2.2.2
        (by decide!) (by decide!)⟩

/-- C18 (counterexample): the source `(2.2, 0)` and the target `(12.4, 200)`.  Both
offsets are at least 10, `absDx` is not above `absDy`, and the path has two bends; the
first bend has the x coordinate `2.2 + 10.2 = 12.399999999999999`, which is not the
`12.4` of the target, and the second bend `(12.399999999999999, 200)` is not the
target. -/
theorem calculateLinkPath_second_bend_off_target :
    (pointOfDecimal 22 1 0 0).isFinite = true ∧
    (pointOfDecimal 124 1 200 0).isFinite = true ∧
    (absDx (pointOfDecimal 22 1 0 0) (pointOfDecimal 124 1 200 0)).lt (Double.ofDecimal 10 0)
      = false ∧
    (absDy (pointOfDecimal 22 1 0 0) (pointOfDecimal 124 1 200 0)).lt (Double.ofDecimal 10 0)
      = false ∧
    singleBend (pointOfDecimal 22 1 0 0) (pointOfDecimal 124 1 200 0) = false ∧
    (absDy (pointOfDecimal 22 1 0 0) (pointOfDecimal 124 1 200 0)).lt
      (absDx (pointOfDecimal 22 1 0 0) (pointOfDecimal 124 1 200 0)) = false ∧
    calculateLinkPath (pointOfDecimal 22 1 0 0) (pointOfDecimal 124 1 200 0)
      = [pointOfDecimal 22 1 0 0, pointOfDecimal 12399999999999999 15 102 1,
         pointOfDecimal 12399999999999999 15 200 0, pointOfDecimal 124 1 200 0] ∧
    secondBend (pointOfDecimal 22 1 0 0) (pointOfDecimal 124 1 200 0)
      ≠ pointOfDecimal 124 1 200 0 ∧
    (firstBend (pointOfDecimal 22 1 0 0) (pointOfDecimal 124 1 200 0)).x
      ≠ (pointOfDecimal 124 1 200 0).x := by
  decide!

theorem absDx_ne_nan {source target : Point} (hs : source.isFinite = true)
    (ht : target.isFinite = true) : absDx source target ≠ .nan :=
  Double.abs_ne_nan (dx_ne_nan hs ht)

theorem absDy_ne_nan {source target : Point} (hs : source.isFinite = true)
    (ht : target.isFinite = true) : absDy source target ≠ .nan :=
  Double.abs_ne_nan (dy_ne_nan hs ht)

/-- Adding to a finite number the offset whose absolute value was taken: `s + |o|` for a
positive offset `o` and `s - |o|` for a negative one are both `s + o`. -/
theorem Double.add_signed_abs (s o : Double) (ho : o ≠ .nan)
    (h : o.abs.lt (Double.ofDecimal 10 0) = false) :
    (if (Double.fin 0).lt o then s.add o.abs else s.sub o.abs) = s.add o := by
  rcases Double.sign_of_abs_ge_ten ho h with ⟨p, -, e⟩ | ⟨p, -, e⟩
  · rw [p, e]
    simp
  · rw [p, e, Double.sub, Double.neg_neg]
    simp

/-- A sum `s + (t - s)` whose difference was computed without a rounding error is the
double `t`. -/
theorem Double.add_sub_cancel_of_exact (s t : Double) (hs : s.isFinite = true)
    (ht : t.isFinite = true) (hsub : t.sub s = .fin (t.units - s.units))
    (hdouble : Double.ofExact t.units 1 = t) : s.add (t.sub s) = t := by
  cases s with
  | nan => simp [Double.isFinite] at hs
  | inf _ => simp [Double.isFinite] at hs
  | fin a =>
    cases t with
    | nan => simp [Double.isFinite] at ht
    | inf _ => simp [Double.isFinite] at ht
    | fin c =>
      rw [hsub]
      simp only [Double.units] at hdouble ⊢
      show Double.ofExact (a + (c - a)) 1 = .fin c
      rw [show a + (c - a) = c by ring]
      exact hdouble

/-- C18 (amended): for finite source and target positions for which `calculateLinkPath`
takes the branch with two bends (both `absDx` and `absDy` are at least 10 and the test for
one bend fails), the path is source, first bend, second bend, target.  When
`absDx > absDy`, the second bend has the x of the target, and its y is the y of the first
bend, the rounded sum `sourceY + dy`; otherwise it has the y of the target, and its x is
the x of the first bend, the rounded sum `sourceX + dx`.  The second bend is the target
itself exactly when that rounded sum returns the coordinate of the target, which it does
whenever the difference `dy` (or `dx`) was computed without a rounding error and the
coordinate of the target is a double. -/
theorem calculateLinkPath_second_bend (source target : Point)
    (hs : source.isFinite = true) (ht : target.isFinite = true)
    (hx : (absDx source target).lt (Double.ofDecimal 10 0) = false)
    (hy : (absDy source target).lt (Double.ofDecimal 10 0) = false)
    (hb : singleBend source target = false) :
    calculateLinkPath source target
      = [source, firstBend source target, secondBend source target, target] ∧
    ((absDy source target).lt (absDx source target) = true →
      (firstBend source target).y = source.y.add (dy source target) ∧
      secondBend source target = ⟨target.x, source.y.add (dy source target)⟩ ∧
      (secondBend source target = target ↔ source.y.add (dy source target) = target.y) ∧
      (dy source target = .fin (target.y.units - source.y.units) →
        Double.ofExact target.y.units 1 = target.y → secondBend source target = target)) ∧
    ((absDy source target).lt (absDx source target) = false →
      (firstBend source target).x = source.x.add (dx source target) ∧
      secondBend source target = ⟨source.x.add (dx source target), target.y⟩ ∧
      (secondBend source target = target ↔ source.x.add (dx source target) = target.x) ∧
      (dx source target = .fin (target.x.units - source.x.units) →
        Double.ofExact target.x.units 1 = target.x → secondBend source target = target)) := by
  have hfb := firstBend_eq source target hs ht hx hy
  have hmin := Double.min_of_ne_nan (absDx_ne_nan hs ht) (absDy_ne_nan hs ht)
  obtain ⟨a, b, hs'⟩ := Point.eq_of_isFinite hs
  obtain ⟨c, d, ht'⟩ := Point.eq_of_isFinite ht
  have hsx : source.x.isFinite = true := by rw [hs']; rfl
  have hsy : source.y.isFinite = true := by rw [hs']; rfl
  have htx : target.x.isFinite = true := by rw [ht']; rfl
  have hty : target.y.isFinite = true := by rw [ht']; rfl
  refine ⟨?_, ?_, ?_⟩
  · simp [calculateLinkPath, hx, hy, hb]
  · intro h
    have e1 : (firstBend source target).y = source.y.add (dy source target) := by
      have hm : (absDx source target).min (absDy source target) = absDy source target := by
        rw [hmin, if_pos h]
      rw [hfb, hm]
      exact Double.add_signed_abs source.y (dy source target) (dy_ne_nan hs ht) hy
    have e2 : secondBend source target = ⟨target.x, source.y.add (dy source target)⟩ := by
      rw [secondBend, if_pos h, e1]
    refine ⟨e1, e2, ?_, ?_⟩
    · rw [e2]
      constructor
      · intro h3
        exact congrArg Point.y h3
      · intro h3
        rw [h3]
    · intro h3 h4
      rw [e2]
      have := Double.add_sub_cancel_of_exact source.y target.y hsy hty h3 h4
      show (⟨target.x, source.y.add (target.y.sub source.y)⟩ : Point) = target
      rw [this]
  · intro h
    have e1 : (firstBend source target).x = source.x.add (dx source target) := by
      have hm : (absDx source target).min (absDy source target) = absDx source target := by
        rw [hmin, if_neg (by simp [h])]
      rw [hfb, hm]
      exact Double.add_signed_abs source.x (dx source target) (dx_ne_nan hs ht) hx
    have e2 : secondBend source target = ⟨source.x.add (dx source target), target.y⟩ := by
      rw [secondBend, if_neg (by simp [h]), e1]
    refine ⟨e1, e2, ?_, ?_⟩
    · rw [e2]
      constructor
      · intro h3
        exact congrArg Point.x h3
      · intro h3
        rw [h3]
    · intro h3 h4
      rw [e2]
      have := Double.add_sub_cancel_of_exact source.x target.x hsx htx h3 h4
      show (⟨source.x.add (target.x.sub source.x), target.y⟩ : Point) = target
      rw [this]

/-- C18 (witness): the source `(0, 0)` and the target `(100, 10)`: the path has two bends,
the first at `(10, 10)`, and the second bend is the target; the differences are exact. -/
theorem calculateLinkPath_second_bend_witness :
    (pointOfDecimal 0 0 0 0).isFinite = true ∧ (pointOfDecimal 100 0 10 0).isFinite = true ∧
    (absDx (pointOfDecimal 0 0 0 0) (pointOfDecimal 100 0 10 0)).lt (Double.ofDecimal 10 0)
      = false ∧
    (absDy (pointOfDecimal 0 0 0 0) (pointOfDecimal 100 0 10 0)).lt (Double.ofDecimal 10 0)
      = false ∧
    singleBend (pointOfDecimal 0 0 0 0) (pointOfDecimal 100 0 10 0) = false ∧
    firstBend (pointOfDecimal 0 0 0 0) (pointOfDecimal 100 0 10 0) = pointOfDecimal 10 0 10 0 ∧
    calculateLinkPath (pointOfDecimal 0 0 0 0) (pointOfDecimal 100 0 10 0)
      = [pointOfDecimal 0 0 0 0,
         firstBend (pointOfDecimal 0 0 0 0) (pointOfDecimal 100 0 10 0),
         secondBend (pointOfDecimal 0 0 0 0) (pointOfDecimal 100 0 10 0),
         pointOfDecimal 100 0 10 0] ∧
    secondBend (pointOfDecimal 0 0 0 0) (pointOfDecimal 100 0 10 0)
      = pointOfDecimal 100 0 10 0 :=
  ⟨by decide!, by decide!, by decide!, by decide!, by decide!, by decide!,
    (calculateLinkPath_second_bend (pointOfDecimal 0 0 0 0) (pointOfDecimal 100 0 10 0)
      (by decide!) (by decide!) (by decide!) (by decide!) (by decide!)).1,
    ((calculateLinkPath_second_bend (pointOfDecimal 0 0 0 0) (pointOfDecimal 100 0 10 0)
      (by decide!) (by decide!) (by decide!) (by decide!) (by decide!)).2.1
        (by decide!)).2.2.2 (by decide!) (by decide!)⟩

/-! ## `flattenNodes` and `getLinks`: unfolding and first facts -/

@[simp] theorem flattenNodesNode_eq (n : Node) :
    flattenNodesNode n
      = n :: (if n.childrenHidden then [] else flattenNodes n.children) := by
  cases n; simp [flattenNodesNode]

@[simp] theorem flattenNodes_nil : flattenNodes [] = [] := by simp [flattenNodes]

@[simp] theorem flattenNodes_cons (n : Node) (rest : List Node) :
    flattenNodes (n :: rest)
      = n :: ((if n.childrenHidden then [] else flattenNodes n.children)
          ++ flattenNodes rest) := by
  simp [flattenNodes]

@[simp] theorem getLinksNode_eq (n : Node) :
    getLinksNode n
      = if n.childrenHidden then []
        else n.children.map (fun child => (⟨n.id, child.id⟩ : Link))
          ++ getLinks n.children := by
  cases n; simp [getLinksNode]

@[simp] theorem getLinks_nil : getLinks [] = [] := by simp [getLinks]

theorem getLinks_cons (n : Node) (rest : List Node) :
    getLinks (n :: rest)
      = (if n.childrenHidden then []
          else n.children.map (fun child => (⟨n.id, child.id⟩ : Link))
            ++ getLinks n.children)
        ++ getLinks rest := by
  simp [getLinks]

theorem flattenNodes_sublist_allNodes :
    ∀ l : List Node, (flattenNodes l).Sublist (allNodes l) := by
  apply forest_induction
  · simp
  · intro n rest ih1 ih2
    rw [flattenNodes_cons, allNodes_cons]
    refine List.Sublist.cons₂ _ (List.Sublist.append ?_ ih2)
    split
    · exact List.nil_sublist _
    · exact ih1

theorem mem_flattenNodes_of_mem (l : List Node) (n : Node) (h : n ∈ l) :
    n ∈ flattenNodes l := by
  induction l with
  | nil => simp at h
  | cons m rest ih =>
    rw [flattenNodes_cons]
    rcases List.mem_cons.1 h with rfl | h
    · exact List.mem_cons_self _ _
    · exact List.mem_cons_of_mem _ (List.mem_append_right _ (ih h))

theorem id_mem_forestIds_of_mem_flattenNodes {l : List Node} {n : Node}
    (h : n ∈ flattenNodes l) : n.id ∈ forestIds l :=
  (mem_forestIds_iff l n.id).2 ⟨n, (flattenNodes_sublist_allNodes l).subset h, rfl⟩

theorem id_mem_forestIds_of_mem {l : List Node} {n : Node} (h : n ∈ l) :
    n.id ∈ forestIds l :=
  (mem_forestIds_iff l n.id).2 ⟨n, mem_allNodes_of_mem _ _ h, rfl⟩

/-- Both ends of a link are ids of the forest. -/
theorem getLinks_ends_mem :
    ∀ l : List Node, ∀ link ∈ getLinks l,
      link.source ∈ forestIds l ∧ link.target ∈ forestIds l := by
  apply forest_induction
  · simp
  · intro n rest ih1 ih2 link hl
    rw [getLinks_cons, List.mem_append] at hl
    rw [forestIds_cons]
    rcases hl with hl | hl
    · split at hl
      · simp at hl
      · rw [List.mem_append, List.mem_map] at hl
        rcases hl with ⟨c, hc, rfl⟩ | hl
        · exact ⟨List.mem_cons_self _ _,
            List.mem_cons_of_mem _ (List.mem_append_left _ (id_mem_forestIds_of_mem hc))⟩
        · exact ⟨List.mem_cons_of_mem _ (List.mem_append_left _ (ih1 link hl).1),
            List.mem_cons_of_mem _ (List.mem_append_left _ (ih1 link hl).2)⟩
    · exact ⟨List.mem_cons_of_mem _ (List.mem_append_right _ (ih2 link hl).1),
        List.mem_cons_of_mem _ (List.mem_append_right _ (ih2 link hl).2)⟩

/-! ## C13: the links are the parent-child pairs among the visible nodes -/

theorem getLinks_length :
    ∀ l : List Node, (getLinks l).length + l.length = (flattenNodes l).length := by
  apply forest_induction
  · simp
  · intro n rest ih1 ih2
    rw [getLinks_cons, flattenNodes_cons]
    by_cases h : n.childrenHidden = true
    · simp only [h, if_true, List.nil_append, List.length_cons]
      omega
    · simp only [h, if_false, List.length_append, List.length_map, List.length_cons]
      simp only [Bool.false_eq_true, if_false, List.length_append, List.length_map] at *
      omega

theorem getLinks_subset_pairs :
    ∀ l : List Node, ∀ link ∈ getLinks l,
      ∃ p c, p ∈ flattenNodes l ∧ c ∈ flattenNodes l ∧ c ∈ p.children ∧
        link = ⟨p.id, c.id⟩ := by
  apply forest_induction
  · simp
  · intro n rest ih1 ih2 link hl
    rw [getLinks_cons, List.mem_append] at hl
    rw [flattenNodes_cons]
    rcases hl with hl | hl
    · by_cases hh : n.childrenHidden = true
      · rw [if_pos hh] at hl
        simp at hl
      · rw [if_neg hh, List.mem_append, List.mem_map] at hl
        rw [if_neg hh]
        rcases hl with ⟨c, hc, rfl⟩ | hl
        · exact ⟨n, c, List.mem_cons_self _ _,
            List.mem_cons_of_mem _
              (List.mem_append_left _ (mem_flattenNodes_of_mem _ _ hc)), hc, rfl⟩
        · obtain ⟨p, c, hp, hc, hpc, he⟩ := ih1 link hl
          exact ⟨p, c, List.mem_cons_of_mem _ (List.mem_append_left _ hp),
            List.mem_cons_of_mem _ (List.mem_append_left _ hc), hpc, he⟩
    · obtain ⟨p, c, hp, hc, hpc, he⟩ := ih2 link hl
      exact ⟨p, c, List.mem_cons_of_mem _ (List.mem_append_right _ hp),
        List.mem_cons_of_mem _ (List.mem_append_right _ hc), hpc, he⟩

theorem child_id_mem_of_mem_allNodes {l : List Node} {p c : Node} (hp : p ∈ allNodes l)
    (hc : c ∈ p.children) : c.id ∈ forestIds l := by
  apply (nodeIds_sublist_of_mem_allNodes l p hp).subset
  rw [nodeIds_eq]
  exact List.mem_cons_of_mem _ (id_mem_forestIds_of_mem hc)

theorem pairs_subset_getLinks :
    ∀ l : List Node, (forestIds l).Nodup → ∀ p c : Node, p ∈ flattenNodes l →
      c ∈ flattenNodes l → c ∈ p.children → (⟨p.id, c.id⟩ : Link) ∈ getLinks l := by
  apply forest_induction
  · intro _ p c hp
    simp at hp
  · intro n rest ih1 ih2 hn p c hp hc hpc
    obtain ⟨hnc, hnr⟩ := nodup_cons_parts hn
    rw [forestIds_cons, List.nodup_cons, List.nodup_append] at hn
    obtain ⟨hn1, -, -, hdis⟩ := hn
    simp only [List.mem_append, not_or] at hn1
    rw [flattenNodes_cons, List.mem_cons, List.mem_append] at hp hc
    rw [getLinks_cons, List.mem_append]
    rcases hp with rfl | hp | hp
    · -- the parent is the first node: the child is one of its visible children
      have hcid : c.id ∈ forestIds p.children := id_mem_forestIds_of_mem hpc
      rcases hc with rfl | hc | hc
      · exact absurd hcid hn1.1
      · left
        by_cases hh : p.childrenHidden = true
        · rw [if_pos hh] at hc
          simp at hc
        · rw [if_neg hh, List.mem_append, List.mem_map]
          exact Or.inl ⟨c, hpc, rfl⟩
      · exact absurd (id_mem_forestIds_of_mem_flattenNodes hc) (fun h => hdis hcid h)
    · -- the parent lies below the first node
      by_cases hh : n.childrenHidden = true
      · rw [if_pos hh] at hp
        simp at hp
      · rw [if_neg hh] at hp
        have hcid : c.id ∈ forestIds n.children :=
          child_id_mem_of_mem_allNodes ((flattenNodes_sublist_allNodes _).subset hp) hpc
        rcases hc with rfl | hc | hc
        · exact absurd hcid hn1.1
        · rw [if_neg hh] at hc
          left
          rw [if_neg hh, List.mem_append]
          exact Or.inr (ih1 hnc p c hp hc hpc)
        · exact absurd (id_mem_forestIds_of_mem_flattenNodes hc) (fun h => hdis hcid h)
    · -- the parent lies in the rest
      have hcid : c.id ∈ forestIds rest :=
        child_id_mem_of_mem_allNodes ((flattenNodes_sublist_allNodes _).subset hp) hpc
      rcases hc with rfl | hc | hc
      · exact absurd hcid hn1.2
      · by_cases hh : n.childrenHidden = true
        · rw [if_pos hh] at hc
          simp at hc
        · rw [if_neg hh] at hc
          exact absurd hcid
            (fun h => hdis (id_mem_forestIds_of_mem_flattenNodes hc) h)
      · exact Or.inr (ih2 hnr p c hp hc hpc)

theorem getLinks_nodup :
    ∀ l : List Node, (forestIds l).Nodup → (getLinks l).Nodup := by
  apply forest_induction
  · simp
  · intro n rest ih1 ih2 hn
    obtain ⟨hnc, hnr⟩ := nodup_cons_parts hn
    rw [forestIds_cons, List.nodup_cons, List.nodup_append] at hn
    obtain ⟨hn1, -, -, hdis⟩ := hn
    simp only [List.mem_append, not_or] at hn1
    rw [getLinks_cons, List.nodup_append]
    refine ⟨?_, ih2 hnr, ?_⟩
    · split
      · exact List.nodup_nil
      · rw [List.nodup_append]
        refine ⟨?_, ih1 hnc, ?_⟩
        · apply List.Nodup.of_map Link.target
          rw [List.map_map]
          have : (Link.target ∘ fun child : Node => (⟨n.id, child.id⟩ : Link)) = Node.id := rfl
          rw [this]
          have hsub : (n.children.map Node.id).Sublist (forestIds n.children) := by
            rw [forestIds_eq_map]
            exact List.Sublist.map _ (by
              clear hnc hdis hn1 ih1
              induction n.children with
              | nil => simp
              | cons c cs ih =>
                rw [allNodes_cons]
                exact List.Sublist.cons₂ _ (ih.trans (List.sublist_append_right _ _)))
          exact hsub.nodup hnc
        · intro link h1 h2
          rw [List.mem_map] at h1
          obtain ⟨c, -, rfl⟩ := h1
          exact hn1.1 (getLinks_ends_mem _ _ h2).1
    · intro link h1 h2
      have ht2 := (getLinks_ends_mem _ _ h2).2
      have ht1 : link.target ∈ forestIds n.children := by
        split at h1
        · simp at h1
        · rw [List.mem_append, List.mem_map] at h1
          rcases h1 with ⟨c, hc, rfl⟩ | h1
          · exact id_mem_forestIds_of_mem hc
          · exact (getLinks_ends_mem _ _ h1).2
      exact hdis ht1 ht2

/-- C13: in a forest with unique ids the links are exactly the parent-child pairs among
the visible nodes: a link is in `getLinks` if and only if it joins the ids of two nodes
`p` and `c` of `flattenNodes` with `c` a child of `p`; no link occurs twice; and the
number of links is the number of flattened nodes minus the number of top-level nodes. -/
theorem getLinks_are_visible_parent_child_pairs (nodes : List Node)
    (hn : (forestIds nodes).Nodup) :
    (∀ link : Link, link ∈ getLinks nodes ↔
        ∃ p c, p ∈ flattenNodes nodes ∧ c ∈ flattenNodes nodes ∧ c ∈ p.children ∧
          link = ⟨p.id, c.id⟩) ∧
    (getLinks nodes).Nodup ∧
    (getLinks nodes).length = (flattenNodes nodes).length - nodes.length ∧
    nodes.length ≤ (flattenNodes nodes).length := by
  refine ⟨?_, getLinks_nodup nodes hn, ?_, ?_⟩
  · intro link
    constructor
    · exact getLinks_subset_pairs nodes link
    · rintro ⟨p, c, hp, hc, hpc, rfl⟩
      exact pairs_subset_getLinks nodes hn p c hp hc hpc
  · have := getLinks_length nodes
    omega
  · have := getLinks_length nodes
    omega

/-- C13 (witness): the default forest has 8 visible nodes, one top-level node and 7
links, each once. -/
theorem getLinks_are_visible_parent_child_pairs_witness :
    (getLinks (initialGraph defaultStations)).Nodup ∧
    (getLinks (initialGraph defaultStations)).length = 8 - 1 ∧
    getLinks (initialGraph defaultStations)
      = [⟨"main", "child-1"⟩, ⟨"main", "child-2"⟩, ⟨"main", "child-3"⟩,
         ⟨"child-1", "subchild-1-1"⟩, ⟨"child-1", "subchild-1-2"⟩,
         ⟨"child-2", "subchild-2-1"⟩, ⟨"child-2", "subchild-2-2"⟩] :=
  ⟨(getLinks_are_visible_parent_child_pairs (initialGraph defaultStations)
      (by decide)).2.1,
   (getLinks_are_visible_parent_child_pairs (initialGraph defaultStations)
      (by decide)).2.2.1,
   by decide⟩

/-! ## C12: toggling the visibility of the children of a node -/

/-- A toggle keeps the ids of the top-level nodes. -/
theorem toggleHidden_map_id (tid : String) (l : List Node) :
    (toggleHidden tid l).map Node.id = l.map Node.id := by
  induction l with
  | nil => simp
  | cons n rest ih =>
    by_cases h : n.id = tid <;> simp [h, ih]

theorem forestEntries_map_toggleEntry_of_not_mem (tid : String) (l : List Node)
    (p : Option String) (h : tid ∉ forestIds l) :
    (forestEntries p l).map (Entry.toggle tid) = forestEntries p l := by
  have hcongr : (forestEntries p l).map (Entry.toggle tid) = (forestEntries p l).map id := by
    apply List.map_congr_left
    intro e he
    have := mem_forestIds_of_mem_forestEntries he
    have hne : e.id ≠ tid := fun e' => h (e' ▸ this)
    simp [Entry.toggle, hne]
  rw [hcongr, List.map_id]

/-- In a forest with unique ids a toggle flips the flag of the toggled node and changes
nothing else. -/
theorem forestEntries_toggleHidden (tid : String) :
    ∀ l : List Node, ∀ p, (forestIds l).Nodup →
      forestEntries p (toggleHidden tid l) = (forestEntries p l).map (Entry.toggle tid) := by
  apply forest_induction
  · simp
  · intro n rest ih1 ih2 p hn
    obtain ⟨hnc, hnr⟩ := nodup_cons_parts hn
    rw [forestIds_cons, List.nodup_cons] at hn
    rw [toggleHidden_cons, toggleHiddenNode_eq, forestEntries_cons p n rest, List.map_cons,
      List.map_append, ← ih2 p hnr]
    by_cases hid : n.id = tid
    · have hnot : tid ∉ forestIds n.children := by
        rw [← hid]
        exact fun h => hn.1 (List.mem_append_left _ h)
      rw [if_pos hid, forestEntries_cons,
        forestEntries_map_toggleEntry_of_not_mem tid n.children _ hnot]
      simp [Entry.toggle, hid]
    · rw [if_neg hid, forestEntries_cons, ih1 _ hnc]
      simp [Entry.toggle, hid]

/-- The top-level ids of a forest are not ids of descendants of a node that lies in the
forest or apart from it. -/
theorem top_id_not_mem_descendants (t : Node) :
    ∀ l : List Node, (forestIds l).Nodup → InOrApart t l →
      ∀ c ∈ l, c.id ∉ forestIds t.children := by
  intro l
  induction l with
  | nil => intro _ _ c hc; simp at hc
  | cons a rest ih =>
    intro hn hD c hc
    obtain ⟨hnc, hnr⟩ := nodup_cons_parts hn
    by_cases hid : a.id = t.id
    · obtain ⟨rfl, hrest⟩ := InOrApart.cons_eq hn hid hD
      rw [forestIds_cons, List.nodup_cons] at hn
      rcases List.mem_cons.1 hc with rfl | hc
      · exact fun h => hn.1 (List.mem_append_left _ h)
      · intro h
        exact hrest c.id (by rw [nodeIds_eq]; exact List.mem_cons_of_mem _ h)
          (id_mem_forestIds_of_mem hc)
    · obtain ⟨hnot, -, hDr⟩ := InOrApart.cons_ne hn hid hD
      rcases List.mem_cons.1 hc with rfl | hc
      · intro h
        exact hnot (by rw [nodeIds_eq]; exact List.mem_cons_of_mem _ h)
      · exact ih hnr hDr c hc

theorem flattenNodes_ids_filter_eq_nil (S : List String) (l : List Node)
    (h : ∀ x ∈ forestIds l, x ∈ S) :
    ((flattenNodes l).map Node.id).filter (fun x => decide (x ∉ S)) = [] := by
  rw [List.filter_eq_nil_iff]
  intro x hx
  rw [List.mem_map] at hx
  obtain ⟨n, hn, rfl⟩ := hx
  simpa using h _ (id_mem_forestIds_of_mem_flattenNodes hn)

/-- Hiding the children of `n` removes the descendants of `n` from the flattened forest
and nothing else. -/
theorem flattenNodes_toggleHidden (n : Node) (hh : n.childrenHidden = false) :
    ∀ l : List Node, (forestIds l).Nodup → InOrApart n l →
      (flattenNodes (toggleHidden n.id l)).map Node.id
        = ((flattenNodes l).map Node.id).filter
            (fun x => decide (x ∉ forestIds n.children)) := by
  apply forest_induction
  · simp
  · intro m rest ih1 ih2 hn hD
    obtain ⟨hnc, hnr⟩ := nodup_cons_parts hn
    rw [toggleHidden_cons, toggleHiddenNode_eq, flattenNodes_cons m rest]
    by_cases hid : m.id = n.id
    · obtain ⟨rfl, hrest⟩ := InOrApart.cons_eq hn hid hD
      rw [forestIds_cons, List.nodup_cons] at hn
      have hself : n.id ∉ forestIds n.children := fun h => hn.1 (List.mem_append_left _ h)
      rw [if_pos rfl, flattenNodes_cons, List.map_cons, List.map_cons, List.map_append,
        List.map_append, List.filter_cons, List.filter_append,
        ih2 hnr (Or.inr hrest)]
      simp only [hh, Bool.not_false, if_true, Bool.false_eq_true, if_false, List.map_nil,
        List.nil_append]
      rw [if_pos (by simpa using hself),
        flattenNodes_ids_filter_eq_nil _ _ (fun x hx => hx), List.nil_append]
    · obtain ⟨hnot, hDc, hDr⟩ := InOrApart.cons_ne hn hid hD
      have hnot' : m.id ∉ forestIds n.children := fun h =>
        hnot (by rw [nodeIds_eq]; exact List.mem_cons_of_mem _ h)
      rw [if_neg hid, flattenNodes_cons]
      by_cases hm : m.childrenHidden = true
      · simp [hm, hnot', ih2 hnr hDr, List.filter_cons]
      · simp [hm, hnot', ih1 hnc hDc, ih2 hnr hDr, List.filter_cons, List.filter_append]

/-- The visible nodes after hiding the children of `n`, with their own fields: those of
before without the descendants of `n`, the flag of `n` being set. -/
theorem flattenNodes_toggleHidden_fields (n : Node) (hh : n.childrenHidden = false) :
    ∀ l : List Node, (forestIds l).Nodup → InOrApart n l →
      (flattenNodes (toggleHidden n.id l)).map Node.fields
        = (((flattenNodes l).filter
            (fun m => decide (m.id ∉ forestIds n.children))).map Node.fields).map
              (Entry.toggle n.id) := by
  apply forest_induction
  · simp
  · intro m rest ih1 ih2 hn hD
    obtain ⟨hnc, hnr⟩ := nodup_cons_parts hn
    rw [toggleHidden_cons, toggleHiddenNode_eq, flattenNodes_cons m rest]
    by_cases hid : m.id = n.id
    · obtain ⟨rfl, hrest⟩ := InOrApart.cons_eq hn hid hD
      rw [forestIds_cons, List.nodup_cons] at hn
      have hself : n.id ∉ forestIds n.children := fun h => hn.1 (List.mem_append_left _ h)
      rw [if_pos rfl, flattenNodes_cons]
      simp [hh, hself, ih2 hnr (Or.inr hrest), List.filter_cons, List.filter_append,
        Node.fields, Entry.toggle]
      exact fun a ha => id_mem_forestIds_of_mem_flattenNodes ha
    · obtain ⟨hnot, hDc, hDr⟩ := InOrApart.cons_ne hn hid hD
      have hnot' : m.id ∉ forestIds n.children := fun h =>
        hnot (by rw [nodeIds_eq]; exact List.mem_cons_of_mem _ h)
      rw [if_neg hid, flattenNodes_cons]
      by_cases hm : m.childrenHidden = true
      · simp [hm, hnot', hid, ih2 hnr hDr, List.filter_cons, Node.fields, Entry.toggle]
      · simp [hm, hnot', hid, ih1 hnc hDc, ih2 hnr hDr, List.filter_cons,
          List.filter_append, Node.fields, Entry.toggle]

theorem getLinks_filter_eq_nil (S : List String) (l : List Node)
    (h : ∀ x ∈ forestIds l, x ∈ S) :
    (getLinks l).filter (fun link => decide (link.target ∉ S)) = [] := by
  rw [List.filter_eq_nil_iff]
  intro link hl
  simpa using h _ (getLinks_ends_mem l link hl).2

/-- Hiding the children of `n` removes the links to the descendants of `n` and nothing
else. -/
theorem getLinks_toggleHidden (n : Node) (hh : n.childrenHidden = false) :
    ∀ l : List Node, (forestIds l).Nodup → InOrApart n l →
      getLinks (toggleHidden n.id l)
        = (getLinks l).filter (fun link => decide (link.target ∉ forestIds n.children)) := by
  apply forest_induction
  · simp
  · intro m rest ih1 ih2 hn hD
    obtain ⟨hnc, hnr⟩ := nodup_cons_parts hn
    rw [toggleHidden_cons, toggleHiddenNode_eq, getLinks_cons m rest]
    by_cases hid : m.id = n.id
    · obtain ⟨rfl, hrest⟩ := InOrApart.cons_eq hn hid hD
      rw [if_pos rfl, getLinks_cons, List.filter_append, ih2 hnr (Or.inr hrest)]
      simp only [hh, Bool.not_false, if_true, Bool.false_eq_true, if_false, List.nil_append]
      rw [List.filter_append, getLinks_filter_eq_nil _ _ (fun x hx => hx), List.append_nil]
      have : (n.children.map (fun child => (⟨n.id, child.id⟩ : Link))).filter
          (fun link => decide (link.target ∉ forestIds n.children)) = [] := by
        rw [List.filter_eq_nil_iff]
        intro link hl
        rw [List.mem_map] at hl
        obtain ⟨c, hc, rfl⟩ := hl
        simpa using id_mem_forestIds_of_mem hc
      rw [this, List.nil_append]
    · obtain ⟨-, hDc, hDr⟩ := InOrApart.cons_ne hn hid hD
      rw [if_neg hid, getLinks_cons, List.filter_append, ih2 hnr hDr]
      by_cases hm : m.childrenHidden = true
      · simp [hm]
      · have hm' : m.childrenHidden = false := by simpa using hm
        simp only [hm', Bool.false_eq_true, if_false, List.filter_append, ih1 hnc hDc]
        have hkeep : (m.children.map (fun child => (⟨m.id, child.id⟩ : Link))).filter
            (fun link => decide (link.target ∉ forestIds n.children))
            = m.children.map (fun child => (⟨m.id, child.id⟩ : Link)) := by
          rw [List.filter_eq_self]
          intro link hl
          rw [List.mem_map] at hl
          obtain ⟨c, hc, rfl⟩ := hl
          simpa using top_id_not_mem_descendants n m.children hnc hDc c hc
        rw [hkeep]
        have hmap : ∀ l' : List Node,
            l'.map (fun child => (⟨m.id, child.id⟩ : Link))
              = (l'.map Node.id).map (fun i => (⟨m.id, i⟩ : Link)) := by
          intro l'
          rw [List.map_map]
          rfl
        rw [hmap, hmap m.children, toggleHidden_map_id]

/-- C12: in a forest with unique ids, toggling a node `n` of the forest (visible or not)
whose `childrenHidden` is false changes only that flag: the entries of the new forest
(every node with its parent and fields, in pre-order) are those of the old one with the
flag of `n` flipped, so all descendants of `n` are still there with their own flags; the
nodes of `flattenNodes` of the new forest, by their ids and by their own fields, are those
of the old forest without the descendants of `n`, the flag of `n` being flipped; and
`getLinks` of the new forest is `getLinks` of the old forest without the links whose
target is a descendant of `n`. -/
theorem toggle_hides_exactly_descendants (nodes : List Node)
    (hn : (forestIds nodes).Nodup) (n : Node) (hmem : n ∈ allNodes nodes)
    (hh : n.childrenHidden = false) :
    forestEntries none (toggleChildrenVisibility nodes n)
      = (forestEntries none nodes).map (Entry.toggle n.id) ∧
    (∀ e : Entry, (e.id ≠ n.id → Entry.toggle n.id e = e) ∧
        (e.id = n.id → Entry.toggle n.id e = { e with childrenHidden := !e.childrenHidden })) ∧
    (flattenNodes (toggleChildrenVisibility nodes n)).map Node.id
      = ((flattenNodes nodes).map Node.id).filter
          (fun x => decide (x ∉ forestIds n.children)) ∧
    (flattenNodes (toggleChildrenVisibility nodes n)).map Node.fields
      = (((flattenNodes nodes).filter
          (fun m => decide (m.id ∉ forestIds n.children))).map Node.fields).map
            (Entry.toggle n.id) ∧
    getLinks (toggleChildrenVisibility nodes n)
      = (getLinks nodes).filter
          (fun link => decide (link.target ∉ forestIds n.children)) :=
  ⟨forestEntries_toggleHidden n.id nodes none hn,
    fun e => ⟨fun h => by simp [Entry.toggle, h], fun h => by simp [Entry.toggle, h]⟩,
    flattenNodes_toggleHidden n hh nodes hn (Or.inl hmem),
    flattenNodes_toggleHidden_fields n hh nodes hn (Or.inl hmem),
    getLinks_toggleHidden n hh nodes hn (Or.inl hmem)⟩

/-- C12 (witness): hiding the children of `child-1` in the default forest. -/
theorem toggle_hides_exactly_descendants_witness :
    (flattenNodes (toggleChildrenVisibility (initialGraph defaultStations)
        ⟨"child-1", "Child Station 1", "#455EED", "",
          [⟨"subchild-1-1", "Child Station 2", "#455EED", "", [], false⟩,
           ⟨"subchild-1-2", "Child Station 3", "#455EED", "", [], false⟩], false⟩)).map Node.id
      = ["main", "child-1", "child-2", "subchild-2-1", "subchild-2-2", "child-3"] ∧
    getLinks (toggleChildrenVisibility (initialGraph defaultStations)
        ⟨"child-1", "Child Station 1", "#455EED", "",
          [⟨"subchild-1-1", "Child Station 2", "#455EED", "", [], false⟩,
           ⟨"subchild-1-2", "Child Station 3", "#455EED", "", [], false⟩], false⟩)
      = [⟨"main", "child-1"⟩, ⟨"main", "child-2"⟩, ⟨"main", "child-3"⟩,
         ⟨"child-2", "subchild-2-1"⟩, ⟨"child-2", "subchild-2-2"⟩] ∧
    (forestIds (toggleChildrenVisibility (initialGraph defaultStations)
        ⟨"child-1", "Child Station 1", "#455EED", "",
          [⟨"subchild-1-1", "Child Station 2", "#455EED", "", [], false⟩,
           ⟨"subchild-1-2", "Child Station 3", "#455EED", "", [], false⟩], false⟩)).length
      = 8 :=
  ⟨(toggle_hides_exactly_descendants (initialGraph defaultStations) (by decide)
      ⟨"child-1", "Child Station 1", "#455EED", "",
        [⟨"subchild-1-1", "Child Station 2", "#455EED", "", [], false⟩,
         ⟨"subchild-1-2", "Child Station 3", "#455EED", "", [], false⟩], false⟩
      (by decide) rfl).2.2.1,
   (toggle_hides_exactly_descendants (initialGraph defaultStations) (by decide)
      ⟨"child-1", "Child Station 1", "#455EED", "",
        [⟨"subchild-1-1", "Child Station 2", "#455EED", "", [], false⟩,
         ⟨"subchild-1-2", "Child Station 3", "#455EED", "", [], false⟩], false⟩
      (by decide) rfl).2.2.2.2,
   by decide⟩

end ForceTree
